import Mathlib

/-!
# Verification development for `fuzzy_search_lib`

Shallow embedding of the three matching engines of the repository
(`Bitap.hpp`, `Randl_fuzzy_search.hpp`, `libflasm.cpp`) and proofs about them.

Conventions of the embedding:

* a symbol (`char`, `unsigned char`) is a natural number; a symbol sequence is a `List Nat`;
  an iterator into a sequence is the list from that position on (`List.drop`), an iterator
  offset is a number;
* `unsigned long` words are natural numbers below `2 ^ 64`; every operation that can
  lose bits (`<<`, `~`) is written with an explicit reduction modulo `2 ^ 64`;
* lengths and loop counters (`size_t`, `unsigned int`, `int`) are natural numbers, the
  sequences being assumed short enough for the counters not to wrap.
-/

namespace FuzzySearch

/-! ## Machine words -/

/-- All bits set: the value of `~0` and `ULONG_MAX` as an `unsigned long`. -/
def ULONG_MAX : Nat := 2 ^ 64 - 1

/-- Left shift `x << s` of an `unsigned long`: bits moved past bit 63 are lost. -/
def shl (x s : Nat) : Nat := (x <<< s) % 2 ^ 64

/-- Bitwise complement `~x` of an `unsigned long`. -/
def bnot (x : Nat) : Nat := ULONG_MAX ^^^ (x % 2 ^ 64)

/-! ## Hamming validator (`Randl_fuzzy_search.hpp`, `validate_hamming`) -/

/-- Body of the `for (int i = m - 1; i >= 0; --i)` loop of `validate_hamming`: the first
argument is `i + 1`, the second the running counter `c`. -/
def validate_hamming_loop (first s_first : List Nat) (k : Nat) : Nat → Nat → Bool
  | 0, _ => true
  | i + 1, c =>
    if first.getD i 0 ≠ s_first.getD i 0 then
      if c + 1 > k then false else validate_hamming_loop first s_first k i (c + 1)
    else validate_hamming_loop first s_first k i c

/-- The function `validate_hamming(first, s_first, k, m)`. -/
def validate_hamming (first s_first : List Nat) (k m : Nat) : Bool :=
  validate_hamming_loop first s_first k m 0

/-- Number of indices `i < m` with `first[i] != s_first[i]`. -/
def mismatches (first s_first : List Nat) (m : Nat) : Nat :=
  ((List.range m).filter (fun i => decide (first.getD i 0 ≠ s_first.getD i 0))).length

/-! ## Bit-parallel substitution automaton (`Bitap.hpp`) -/

/-- The loop `for (i = 0; i < m; ++i) pattern_mask[pattern_begin[i]] &= ~(1UL << i)`;
the first argument is the part of the pattern still to be read, the second is `i`. -/
def pattern_mask_loop : List Nat → Nat → List Nat → List Nat
  | [], _, mask => mask
  | c :: rest, i, mask =>
    pattern_mask_loop rest (i + 1) (mask.set c (mask.getD c 0 &&& bnot (shl 1 i)))

/-- The table `pattern_mask`: 128 words (`numeric_limits<char>::max() + 1`), filled with
`~0`, then bit `i` cleared in the word of `pattern[i]`. -/
def pattern_mask (pattern : List Nat) : List Nat :=
  pattern_mask_loop pattern 0 (List.replicate 128 ULONG_MAX)

/-- The loop `for (d = 1; d <= k; ++d)` of one text step; `cnt` counts the iterations left,
`old_Rd1` is the value `R[d - 1]` had before this text symbol. -/
def update_loop (mc : Nat) : Nat → Nat → Nat → List Nat → List Nat
  | 0, _, _, R => R
  | cnt + 1, d, old_Rd1, R =>
    let tmp := R.getD d 0
    update_loop mc cnt (d + 1) tmp (R.set d (shl (old_Rd1 &&& (tmp ||| mc)) 1))

/-- Update of the bit arrays for one text symbol whose mask word is `mc`. -/
def update (mc k : Nat) (R : List Nat) : List Nat :=
  let old_Rd1 := R.getD 0 0
  update_loop mc k 1 old_Rd1 (R.set 0 (shl (R.getD 0 0 ||| mc) 1))

/-- The scan `for (it = corpus_begin; it != corpus_end; ++it)`. The first list is the text
from `it` on, `it` is the offset of the iterator, `n` the text length. The result is the
pair of offsets `(result.first, result.second)`. -/
def search_loop (mask : List Nat) (m k n : Nat) : List Nat → Nat → List Nat → Int × Int
  | [], _, _ => ((n : Int), (n : Int))
  | c :: rest, it, R =>
    let R1 := update (mask.getD c 0) k R
    if R1.getD k 0 &&& shl 1 m = 0 then
      (((it : Int) - (m : Int)) + 1, (((it : Int) - (m : Int)) + 1) + (m : Int))
    else search_loop mask m k n rest (it + 1) R1

/-- The function `bitap_fuzzy_bitwise_search_new(corpus, pattern, k)`. The result is the pair
of iterator offsets into the corpus; `none` is the failure of `assert(m <= 31)`. The vector
`R` has `(k + 1) * sizeof(void*)` words, each `~1`. -/
def bitap_fuzzy_bitwise_search_new (corpus pattern : List Nat) (k : Nat) :
    Option (Int × Int) :=
  if pattern = [] then some ((0 : Int), (corpus.length : Int))
  else if pattern.length ≤ 31 then
    some (search_loop (pattern_mask pattern) pattern.length k corpus.length corpus 0
      (List.replicate ((k + 1) * 8) (bnot 1)))
  else none

/-- Number of bits of `unsigned long`, the type of the state words and of the masks. -/
def ULONG_BITS : Nat := 64

/-- The bit arrays `R` of `bitap_fuzzy_bitwise_search_new` after the loop body has run for
each symbol of `processed`, the text read so far: the initial vector, updated once for each
symbol in turn. -/
def bitap_run (pattern : List Nat) (k : Nat) (processed : List Nat) : List Nat :=
  processed.foldl (fun R c => update ((pattern_mask pattern).getD c 0) k R)
    (List.replicate ((k + 1) * 8) (bnot 1))

/-! ## Levenshtein validator (`Randl_fuzzy_search.hpp`, `validate_levenshtein`) -/

/-- The loop `for (int j = 1; j < m + 1; ++j)` of `validate_levenshtein` for the text symbol
`f` of the row `i`; `cnt` counts the iterations left. The result `none` is the exit
`return false` of the band check `i == j + k && (*curr)[j] > k`. -/
def lev_inner (f : Nat) (s_first : List Nat) (k i : Nat) (prev : List Nat) :
    Nat → Nat → List Nat → Option (List Nat)
  | 0, _, curr => some curr
  | cnt + 1, j, curr =>
    let a1 := prev.getD j 0 + 1
    let a2 := curr.getD (j - 1) 0 + 1
    let a3 := prev.getD (j - 1) 0 + (if f = s_first.getD (j - 1) 0 then 0 else 1)
    let curr1 := curr.set j (min a1 (min a2 a3))
    if i = j + k ∧ curr1.getD j 0 > k then none
    else lev_inner f s_first k i prev cnt (j + 1) curr1

/-- The loop `for (int i = 1; i < m + k + 1; ++i)` of `validate_levenshtein`; `cnt` counts
the iterations left, the two lists are `*curr` and `*prev`, exchanged after each row. -/
def lev_outer (first s_first : List Nat) (k m : Nat) :
    Nat → Nat → List Nat → List Nat → Bool
  | 0, _, _, prev => decide (prev.getD m 0 ≤ k)
  | cnt + 1, i, curr, prev =>
    match lev_inner (first.getD (i - 1) 0) s_first k i prev m 1 curr with
    | none => false
    | some curr1 => lev_outer first s_first k m cnt (i + 1) prev curr1

/-- The function `validate_levenshtein(first, s_first, k, m)`. -/
def validate_levenshtein (first s_first : List Nat) (k m : Nat) : Bool :=
  lev_outer first s_first k m (m + k) 1 (List.replicate (m + 1) 0) (List.replicate (m + 1) 0)

/-! ## Damerau-Levenshtein validator (`Randl_fuzzy_search.hpp`) -/

/-- The loop `for (int j = 1; j < m + 1; ++j)` of `validate_damerau_levenshtein` for the row
`i`; `cnt` counts the iterations left. The condition of `a4` is written in the source as
`i > 1 && j > 1 && f = std::prev(s, 2) && std::prev(first, 1) = std::prev(s, 1)`, which has
`=` where a comparison is meant and iterators where symbols are meant, and does not compile
once the template is instantiated. It is read here as `f == *std::prev(s, 2)` and
`*std::prev(first, back) == *std::prev(s, 1)`: at that point `s` has been advanced to
`s_first + j` and `first` to the symbol after `f`, so `*std::prev(s, 2)` is `s_first[j - 2]`,
`*std::prev(s, 1)` is `s_first[j - 1]` and `*std::prev(first, back)` is `first[i - back]`.
The source has `back = 1`. -/
def dl_inner (back : Nat) (first s_first : List Nat) (k i : Nat) (prev pprev : List Nat) :
    Nat → Nat → List Nat → Option (List Nat)
  | 0, _, curr => some curr
  | cnt + 1, j, curr =>
    let f := first.getD (i - 1) 0
    let a1 := prev.getD j 0 + 1
    let a2 := curr.getD (j - 1) 0 + 1
    let a3 := prev.getD (j - 1) 0 + (if f = s_first.getD (j - 1) 0 then 0 else 1)
    let a4 :=
      if i > 1 ∧ j > 1 ∧ f = s_first.getD (j - 2) 0 ∧
          first.getD (i - back) 0 = s_first.getD (j - 1) 0 then
        pprev.getD (j - 2) 0 + 1
      else a3
    let curr1 := curr.set j (min a1 (min a2 (min a3 a4)))
    if i = j + k ∧ curr1.getD j 0 > k then none
    else dl_inner back first s_first k i prev pprev cnt (j + 1) curr1

/-- The loop `for (int i = 1; i < m + k + 1; ++i)` of `validate_damerau_levenshtein`; `cnt`
counts the iterations left, the three lists are `*curr`, `*prev` and `*pprev`. After the two
calls of `std::swap` the new `curr` is the old `pprev`, the new `prev` the row just
computed, and the new `pprev` the old `prev`. -/
def dl_outer (back : Nat) (first s_first : List Nat) (k m : Nat) :
    Nat → Nat → List Nat → List Nat → List Nat → Bool
  | 0, _, _, prev, _ => decide (prev.getD m 0 ≤ k)
  | cnt + 1, i, curr, prev, pprev =>
    match dl_inner back first s_first k i prev pprev m 1 curr with
    | none => false
    | some curr1 => dl_outer back first s_first k m cnt (i + 1) pprev curr1 prev

/-- The function `validate_damerau_levenshtein(first, s_first, k, m)`, in the reading given
at `dl_inner`, with the source's `std::prev(first, 1)`. -/
def validate_damerau_levenshtein (first s_first : List Nat) (k m : Nat) : Bool :=
  dl_outer 1 first s_first k m (m + k) 1 (List.replicate (m + 1) 0)
    (List.replicate (m + 1) 0) (List.replicate (m + 1) 0)

/-! ## Reduced-alphabet q-gram filter (`Randl_fuzzy_search.hpp`, `fuzzy_search`) -/

/-- Subtraction of `size_t` values, which wraps modulo `2 ^ 64`. -/
def size_sub (a b : Nat) : Nat := (a % 2 ^ 64 + 2 ^ 64 - b % 2 ^ 64) % 2 ^ 64

/-- One row of the matrix `D` of `preprocess_helper_hamming` for the gram symbol `c`:
`D[i][j] = D[i-1][j-1] + (c == pattern[j-1] ? 0 : 1)` for `j = 1..m`, and `D[i][0]`, never
written, is `0`. -/
def hamming_row (pattern : List Nat) (c : Nat) (prev : List Nat) : List Nat :=
  0 :: (List.range pattern.length).map
    (fun j => prev.getD j 0 + (if c = pattern.getD j 0 then 0 else 1))

/-- The entries `D[i][1..m]` of one row of the matrix `D` of `preprocess_helper_levenshtein`
for the gram symbol `c`; the first argument is the part of the pattern still to be read,
`j` the column of the last entry written and `left` its value. -/
def levenshtein_row_loop (c : Nat) (prev : List Nat) : List Nat → Nat → Nat → List Nat
  | [], _, _ => []
  | p :: rest, j, left =>
    let v := min (prev.getD (j + 1) 0 + 1)
      (min (left + 1) (prev.getD j 0 + (if c = p then 0 else 1)))
    v :: levenshtein_row_loop c prev rest (j + 1) v

/-- One row of the matrix `D` of `preprocess_helper_levenshtein`; `D[i][0]` is `0`. -/
def levenshtein_row (pattern : List Nat) (c : Nat) (prev : List Nat) : List Nat :=
  0 :: levenshtein_row_loop c prev pattern 0 0

/-- The row `D[q][0..m]` at the leaf of the recursion of a preprocessing helper for the gram
`s`: the row `i` was written for the symbol `s[i-1]` on the way down, from the row `i - 1`;
the row `0` is all zeros. -/
def gram_last_row (row : Nat → List Nat → List Nat) (m : Nat) (s : List Nat) : List Nat :=
  s.foldl (fun prev c => row c prev) (List.replicate (m + 1) 0)

/-- The search `std::find_if(D.rbegin() + 1, D.rbegin() + m + 1, j <= k) - D.rbegin()`:
the first argument is the number of entries still to be examined, the second the offset of
the next one from `D.rbegin()`. -/
def find_shift (last_row : List Nat) (m k : Nat) : Nat → Nat → Nat
  | 0, o => o
  | cnt + 1, o => if last_row.getD (m - o) 0 ≤ k then o else find_shift last_row m k cnt (o + 1)

/-- The tables `M` and `Ds` of the preprocessing as a function of the key: the value stored
at the leaf of the recursion for a gram of `q` symbols of `S1`, and the value `0` that
`operator[]` of `std::map` gives for any other key. The result is `(M[s], Ds[s])`. -/
def gram_tables (row : Nat → List Nat → List Nat) (m k q : Nat) (S1 : List Nat)
    (s : List Nat) : Nat × Nat :=
  if s.length = q ∧ ∀ c ∈ s, c ∈ S1 then
    let last_row := gram_last_row row m s
    (last_row.getD m 0, find_shift last_row m k m 1)
  else (0, 0)

/-- The statement `M[s] = v` on a `std::map<std::vector<T>, size_t>`. -/
def gram_assign (s : List Nat) (v : Nat) : List (List Nat × Nat) → List (List Nat × Nat)
  | [] => [(s, v)]
  | p :: rest => if p.1 = s then (s, v) :: rest else p :: gram_assign s v rest

/-- The value `M[s]` of a `std::map<std::vector<T>, size_t>`; a missing key gives `0`. -/
def gram_get (s : List Nat) : List (List Nat × Nat) → Nat
  | [] => 0
  | p :: rest => if p.1 = s then p.2 else gram_get s rest

/-- The loop `for (j = 1; j <= m; ++j)` of `preprocess_helper_hamming` on the flat vector
`D`: `D[i * (m + 1) + j] = D[(i - 1) * (m + 1) + j - 1] + ((c == *(curr++)) ? 0 : 1)`, where
`curr` points to `pattern[j - 1]`. The first argument counts the iterations left. -/
def hamming_fill (pattern : List Nat) (m i c : Nat) : Nat → Nat → List Nat → List Nat
  | 0, _, D => D
  | cnt + 1, j, D =>
    hamming_fill pattern m i c cnt (j + 1)
      (D.set (i * (m + 1) + j)
        (D.getD ((i - 1) * (m + 1) + j - 1) 0 + (if c = pattern.getD (j - 1) 0 then 0 else 1)))

/-- The search `std::find_if(D.rbegin() + 1, D.rbegin() + m + 1, j <= k) - D.rbegin()` on
the flat vector `D`: the first argument is the number of entries still to be examined, the
second the offset of the next one from `D.rbegin()`. -/
def find_if_rev (D : List Nat) (k : Nat) : Nat → Nat → Nat
  | 0, o => o
  | cnt + 1, o => if D.getD (D.length - 1 - o) 0 ≤ k then o else find_if_rev D k cnt (o + 1)

/-- The objects that `preprocess_helper_hamming` receives by reference: the gram prefix `s`,
the tables `M` and `Ds`, and the flat matrix `D`. -/
structure PreState where
  /-- The current gram prefix. -/
  s : List Nat
  /-- The table `M`. -/
  M : List (List Nat × Nat)
  /-- The table `Ds`. -/
  Ds : List (List Nat × Nat)
  /-- The matrix `D`, `(q + 1) * (m + 1)` entries in row-major order. -/
  D : List Nat

/-- The function `preprocess_helper_hamming(first, last, m, k, q, i, s, S1, M, Ds, D)`. The
first argument is the recursion depth left, `q + 1 - i`, so `0` is the case `i == q + 1`.
`S1` is the list of the elements of the set in iteration order; the symbol pushed first,
`*S1.begin()`, is overwritten before it is read. -/
def preprocess_helper_hamming (pattern : List Nat) (m k : Nat) (S1 : List Nat) :
    Nat → Nat → PreState → PreState
  | 0, _, st =>
    { s := st.s
      M := gram_assign st.s (st.D.getLastD 0) st.M
      Ds := gram_assign st.s (find_if_rev st.D k m 1) st.Ds
      D := st.D }
  | depth + 1, i, st =>
    let st1 : PreState := { s := st.s ++ [S1.headD 0], M := st.M, Ds := st.Ds, D := st.D }
    let st2 := S1.foldl (fun (acc : PreState) c =>
      preprocess_helper_hamming pattern m k S1 depth (i + 1)
        { s := acc.s.dropLast ++ [c]
          M := acc.M
          Ds := acc.Ds
          D := hamming_fill pattern m i c m 1 acc.D }) st1
    { s := st2.s.dropLast, M := st2.M, Ds := st2.Ds, D := st2.D }

/-- The function `preprocess_hamming(first, last, k, q, S1, M, Ds)`: the new contents of
`M` and `Ds`. -/
def preprocess_hamming (pattern : List Nat) (k q : Nat) (S1 : List Nat)
    (M Ds : List (List Nat × Nat)) : List (List Nat × Nat) × List (List Nat × Nat) :=
  let m := pattern.length
  let D := List.replicate ((q + 1) * (m + 1)) 0
  let st := preprocess_helper_hamming pattern m k S1 q 1 { s := [], M := M, Ds := Ds, D := D }
  (st.M, st.Ds)

/-- The loop `for (j = 1; j <= m; ++j)` of `preprocess_helper_levenshtein` on the flat vector
`D`: `D[i * (m + 1) + j]` becomes the minimum of `D[(i - 1) * (m + 1) + j] + 1`,
`D[i * (m + 1) + j - 1] + 1` and `D[(i - 1) * (m + 1) + j - 1] + ((c == *(curr++)) ? 0 : 1)`.
The first argument counts the iterations left. -/
def levenshtein_fill (pattern : List Nat) (m i c : Nat) : Nat → Nat → List Nat → List Nat
  | 0, _, D => D
  | cnt + 1, j, D =>
    levenshtein_fill pattern m i c cnt (j + 1)
      (D.set (i * (m + 1) + j)
        (min (D.getD ((i - 1) * (m + 1) + j) 0 + 1)
          (min (D.getD (i * (m + 1) + j - 1) 0 + 1)
            (D.getD ((i - 1) * (m + 1) + j - 1) 0
              + (if c = pattern.getD (j - 1) 0 then 0 else 1)))))

/-- The function `preprocess_helper_levenshtein(first, last, m, k, q, i, s, S1, M, Ds, D)`,
with the same conventions as `preprocess_helper_hamming`. -/
def preprocess_helper_levenshtein (pattern : List Nat) (m k : Nat) (S1 : List Nat) :
    Nat → Nat → PreState → PreState
  | 0, _, st =>
    { s := st.s
      M := gram_assign st.s (st.D.getLastD 0) st.M
      Ds := gram_assign st.s (find_if_rev st.D k m 1) st.Ds
      D := st.D }
  | depth + 1, i, st =>
    let st1 : PreState := { s := st.s ++ [S1.headD 0], M := st.M, Ds := st.Ds, D := st.D }
    let st2 := S1.foldl (fun (acc : PreState) c =>
      preprocess_helper_levenshtein pattern m k S1 depth (i + 1)
        { s := acc.s.dropLast ++ [c]
          M := acc.M
          Ds := acc.Ds
          D := levenshtein_fill pattern m i c m 1 acc.D }) st1
    { s := st2.s.dropLast, M := st2.M, Ds := st2.Ds, D := st2.D }

/-- The function `preprocess_levenshtein(first, last, k, q, S1, M, Ds)`: the new contents of
`M` and `Ds`. -/
def preprocess_levenshtein (pattern : List Nat) (k q : Nat) (S1 : List Nat)
    (M Ds : List (List Nat × Nat)) : List (List Nat × Nat) × List (List Nat × Nat) :=
  let m := pattern.length
  let D := List.replicate ((q + 1) * (m + 1)) 0
  let st := preprocess_helper_levenshtein pattern m k S1 q 1
    { s := [], M := M, Ds := Ds, D := D }
  (st.M, st.Ds)

/-- The loop over `T1` that folds the symbols absent from the pattern: the first such symbol
becomes `extra` and joins `S`, each later one is replaced by `extra`. The result is the new
content of `T1`. -/
def fold_text : List Nat → List Nat → Bool → Nat → List Nat
  | [], _, _, _ => []
  | c :: rest, S, added, extra =>
    if c ∈ S then c :: fold_text rest S added extra
    else if added then extra :: fold_text rest S added extra
    else c :: fold_text rest (c :: S) true c

/-- The statement `count[c] += 1` on the `std::map`, kept in increasing key order. -/
def count_incr (c : Nat) : List (Nat × Nat) → List (Nat × Nat)
  | [] => [(c, 1)]
  | p :: rest =>
    if c < p.1 then (c, 1) :: p :: rest
    else if c = p.1 then (p.1, p.2 + 1) :: rest
    else p :: count_incr c rest

/-- The map `count` after the loop over the folded text. -/
def count_all (T1 : List Nat) : List (Nat × Nat) :=
  T1.foldl (fun cnt c => count_incr c cnt) []

/-- The statement `mapping[a] = b` on the `std::map`. -/
def map_assign (a b : Nat) : List (Nat × Nat) → List (Nat × Nat)
  | [] => [(a, b)]
  | p :: rest => if p.1 = a then (a, b) :: rest else p :: map_assign a b rest

/-- The value `mapping[a]`; a missing key gives `0`. -/
def map_get (a : Nat) : List (Nat × Nat) → Nat
  | [] => 0
  | p :: rest => if p.1 = a then p.2 else map_get a rest

/-- The loop `for (i = reduced_alphabet_size; i < freq.size(); ++i)`: each remaining symbol
is mapped to the last symbol of `freq_reduced`, whose count grows, and `freq_reduced` is
sorted again. The first argument is the rest of `freq`. -/
def merge_rest (srt : List (Nat × Nat) → List (Nat × Nat)) :
    List (Nat × Nat) → List (Nat × Nat) → List (Nat × Nat) → List (Nat × Nat)
  | [], mapping, _ => mapping
  | p :: rest, mapping, freq_reduced =>
    let back := freq_reduced.getLastD (0, 0)
    merge_rest srt rest (map_assign p.1 back.1 mapping)
      (srt (freq_reduced.dropLast ++ [(back.1, back.2 + p.2)]))

/-- The vector `freq_reduced` of `fuzzy_search` after the loop
`for (i = reduced_alphabet_size; i < freq.size(); ++i)` has merged the entries of the first
argument, in that order: the count of each goes to the last entry, and the vector is sorted
again, as in `merge_rest`. -/
def merge_reduced (srt : List (Nat × Nat) → List (Nat × Nat)) :
    List (Nat × Nat) → List (Nat × Nat) → List (Nat × Nat)
  | [], freq_reduced => freq_reduced
  | p :: rest, freq_reduced =>
    let back := freq_reduced.getLastD (0, 0)
    merge_reduced srt rest (srt (freq_reduced.dropLast ++ [(back.1, back.2 + p.2)]))

/-- The scan `while (std::distance(s, T1.end()) > q)`. `s` is the offset of the cursor in
the reduced text `T1`, `fuel` bounds the number of iterations. The result is the offset
returned (`text.length` for `last`); `none` stands for a candidate offset before the start
of the text, from which the validator would read, and for a scan that does not end. -/
def scan_loop (text pattern T1 : List Nat) (k q : Nat) (mismatch : Bool)
    (tables : List Nat → Nat × Nat) : Nat → Nat → Option Nat
  | 0, _ => none
  | fuel + 1, s =>
    if T1.length - s > q then
      let current_gram := (T1.drop s).take q
      let orig_s : Int := (s : Int) + (q : Int) - (pattern.length : Int) - (k : Int)
      let check : Option Bool :=
        if (tables current_gram).1 ≤ k then
          if orig_s < 0 then none
          else if mismatch then
            some (validate_hamming (text.drop orig_s.toNat) pattern k pattern.length)
          else some (validate_levenshtein (text.drop orig_s.toNat) pattern k pattern.length)
        else some false
      match check with
      | none => none
      | some true => some orig_s.toNat
      | some false =>
        if T1.length - s ≤ (tables current_gram).2 + q - 1 then some text.length
        else scan_loop text pattern T1 k q mismatch tables fuel (s + (tables current_gram).2)
    else some text.length

/-- The function `fuzzy_search(first, last, s_first, s_last, k, mismatch)`, with
`reduced_alphabet_size = 16` and `q = 6`. The result is the offset of the iterator returned,
`text.length` for `last`. The parameter `srt` is `std::sort` with the comparator
`b.second < a.second`, whose order of equal counts is not fixed by the language. The result
`none` stands for the executions whose behaviour is undefined: a start offset past the end
of `T1` (in particular the wrapped `m - q` or `m - k - q`), fewer than 16 entries in `freq`,
a candidate offset before the start of the text. -/
def fuzzy_search (srt : List (Nat × Nat) → List (Nat × Nat)) (text pattern : List Nat)
    (k : Nat) (mismatch : Bool) : Option Nat :=
  let m := pattern.length
  let reduced_alphabet_size := 16
  let q := 6
  let start_search_position := if mismatch then size_sub m q else size_sub (size_sub m k) q
  let T1 := fold_text text pattern false 0
  let freq := srt (count_all T1)
  if freq.length < reduced_alphabet_size then none
  else
    let S1 := (freq.take reduced_alphabet_size).map Prod.fst
    let mapping0 := (freq.take reduced_alphabet_size).foldl
      (fun mp p => map_assign p.1 p.1 mp) []
    let mapping := merge_rest srt (freq.drop reduced_alphabet_size) mapping0
      (freq.take reduced_alphabet_size)
    let tables := gram_tables (if mismatch then hamming_row pattern else levenshtein_row pattern)
      m k q S1
    let T1m := T1.map (fun c => map_get c mapping)
    if start_search_position > T1m.length then none
    else scan_loop text pattern T1m k q mismatch tables (T1m.length + 1) start_search_position

/-- Outcome of one test of the condition and one execution of the body of the loop
`while (std::distance(s, T1.end()) > q)`. -/
inductive ScanStep where
  /-- The candidate offset lies before the start of the text. -/
  | undefined : ScanStep
  /-- The function returns the offset `p` (`text.length` for `last`). -/
  | result (p : Nat) : ScanStep
  /-- The loop goes on with the cursor at `s`. -/
  | next (s : Nat) : ScanStep
  deriving DecidableEq

/-- One iteration of the scan of `fuzzy_search` with the cursor at `s`: the test of the loop
condition and the loop body, as in `scan_loop`. -/
def scan_step (text pattern T1 : List Nat) (k q : Nat) (mismatch : Bool)
    (tables : List Nat → Nat × Nat) (s : Nat) : ScanStep :=
  if T1.length - s > q then
    let current_gram := (T1.drop s).take q
    let orig_s : Int := (s : Int) + (q : Int) - (pattern.length : Int) - (k : Int)
    let check : Option Bool :=
      if (tables current_gram).1 ≤ k then
        if orig_s < 0 then none
        else if mismatch then
          some (validate_hamming (text.drop orig_s.toNat) pattern k pattern.length)
        else some (validate_levenshtein (text.drop orig_s.toNat) pattern k pattern.length)
      else some false
    match check with
    | none => ScanStep.undefined
    | some true => ScanStep.result orig_s.toNat
    | some false =>
      if T1.length - s ≤ (tables current_gram).2 + q - 1 then ScanStep.result text.length
      else ScanStep.next (s + (tables current_gram).2)
  else ScanStep.result text.length

/-- The cursor after `j` iterations of the scan that all went on to a next one, starting
with the cursor at `s`; `none` when the scan has ended before. -/
def scan_cursor (text pattern T1 : List Nat) (k q : Nat) (mismatch : Bool)
    (tables : List Nat → Nat × Nat) : Nat → Nat → Option Nat
  | 0, s => some s
  | j + 1, s =>
    match scan_step text pattern T1 k q mismatch tables s with
    | ScanStep.next s1 => scan_cursor text pattern T1 k q mismatch tables j s1
    | _ => none

/-- The vector `T1` of `fuzzy_search` after the folding loop. -/
def fuzzy_T1 (text pattern : List Nat) : List Nat := fold_text text pattern false 0

/-- The vector `freq` of `fuzzy_search` after `std::sort`. -/
def fuzzy_freq (srt : List (Nat × Nat) → List (Nat × Nat)) (text pattern : List Nat) :
    List (Nat × Nat) :=
  srt (count_all (fuzzy_T1 text pattern))

/-- The set `S1` of `fuzzy_search`: the first 16 symbols of `freq`. -/
def fuzzy_S1 (srt : List (Nat × Nat) → List (Nat × Nat)) (text pattern : List Nat) :
    List Nat :=
  ((fuzzy_freq srt text pattern).take 16).map Prod.fst

/-- The map `mapping` of `fuzzy_search` after its two loops. -/
def fuzzy_mapping (srt : List (Nat × Nat) → List (Nat × Nat)) (text pattern : List Nat) :
    List (Nat × Nat) :=
  merge_rest srt ((fuzzy_freq srt text pattern).drop 16)
    (((fuzzy_freq srt text pattern).take 16).foldl (fun mp p => map_assign p.1 p.1 mp) [])
    ((fuzzy_freq srt text pattern).take 16)

/-- The vector `T1` of `fuzzy_search` after the loop `*it = mapping[*it]`. -/
def fuzzy_T1m (srt : List (Nat × Nat) → List (Nat × Nat)) (text pattern : List Nat) :
    List Nat :=
  (fuzzy_T1 text pattern).map (fun c => map_get c (fuzzy_mapping srt text pattern))

/-- The tables `M` and `Ds` that the scan of `fuzzy_search` consults, as a function of the
gram. -/
def fuzzy_tables (srt : List (Nat × Nat) → List (Nat × Nat)) (text pattern : List Nat)
    (k : Nat) (mismatch : Bool) : List Nat → Nat × Nat :=
  gram_tables (if mismatch then hamming_row pattern else levenshtein_row pattern)
    pattern.length k 6 (fuzzy_S1 srt text pattern)

/-- The stable sort by decreasing count, one of the orders `std::sort` may produce. -/
def sort_by_count (l : List (Nat × Nat)) : List (Nat × Nat) :=
  l.insertionSort (fun a b => b.2 ≤ a.2)

/-- A text and pattern of 16 distinct symbols, `abcdefghijklmnop`. -/
def alphabet16 : List Nat := "abcdefghijklmnop".toList.map Char.toNat

/-- A pattern of 18 distinct symbols, `abcdefghijklmnopqr`. -/
def alphabet18 : List Nat := "abcdefghijklmnopqr".toList.map Char.toNat

/-- A text over `abcdefghijklmnopqr` in which the symbols have the pairwise different counts
`21, 20, ..., 8` (`a` to `n`), `5` (`o`), `4` (`p`), `3` (`q`) and `1` (`r`): the symbol of
index `i` is repeated `count[i]` times. No two counts are equal, also after `q` has been
merged into `p` and `r` into `o`, so the order that `std::sort` gives is determined. -/
def skewed_text : List Nat :=
  (List.range 18).flatMap (fun i =>
    List.replicate ([21, 20, 19, 18, 17, 16, 15, 14, 13, 12, 11, 10, 9, 8, 5, 4, 3, 1].getD i 0)
      (97 + i))

/-! ## Multi-factor engine (`libflasm.h`, `libflasm.cpp`) -/

/-- The record `struct Limit`. -/
structure Limit where
  /-- Number of words of an error row. -/
  words : Nat
  /-- Factor length. -/
  h : Nat
  /-- Mask clearing the unused high bits of the most significant word. -/
  yWord : Nat

/-- The record `struct ResultTuple`. -/
structure ResultTuple where
  /-- End position in the text. -/
  pos_t : Nat
  /-- End position in the pattern. -/
  pos_x : Nat
  /-- Error count. -/
  error : Nat
  deriving DecidableEq

/-- The comparator `ResultTuple::operator()(a, b)`. -/
def ResultTuple.comp (a b : ResultTuple) : Bool :=
  (decide (a.error < b.error) || (decide (a.error = b.error) && decide (a.pos_t < b.pos_t)))
    || (decide (a.error = b.error) && decide (a.pos_t = b.pos_t)
        && decide (a.pos_x < b.pos_x))

/-- The container `ResultTupleSet`, a `std::multiset<ResultTuple, ResultTuple>`: the list of
its elements in iteration order. -/
abbrev ResultTupleSet := List ResultTuple

/-- The operation `results.insert(match)` of the multiset: the new element goes before the
first element that the comparator puts after it, so after every equivalent element. -/
def ResultTupleSet.insert (a : ResultTuple) : ResultTupleSet → ResultTupleSet
  | [] => [a]
  | b :: rest =>
    if ResultTuple.comp a b then a :: b :: rest else b :: ResultTupleSet.insert a rest

/-- The order `(error, pos_t, pos_x)` ascending, equality allowed. -/
def ResultTuple.le (a b : ResultTuple) : Prop :=
  a.error < b.error ∨ (a.error = b.error ∧
    (a.pos_t < b.pos_t ∨ (a.pos_t = b.pos_t ∧ a.pos_x ≤ b.pos_x)))

/-- The macro `delta(a, b)`. -/
def delta (a b : Nat) : Nat := if a ≠ b then 1 else 0

/-- The function `init_limit`; `ceil((double) h / 64)` is `(h + 63) / 64`. -/
def init_limit (h : Nat) : Limit :=
  { h := h
    yWord := ULONG_MAX >>> ((64 - h % 64) % 64)
    words := (h + 63) / 64 }

/-- The builtin `__builtin_popcountl`: number of set bits of a word. -/
def popcountl (w : Nat) : Nat :=
  ((List.range 64).filter (fun b => w.testBit b)).length

/-- The function `popcount_words(words, length)`; the argument of the recursion is the loop
bound. -/
def popcount_words (words : List Nat) : Nat → Nat
  | 0 => 0
  | i + 1 => popcount_words words i + popcountl (words.getD i 0)

/-- The loop `for (i = length - 1; i > -1; i--)` of `shift_words`; the first argument is
`i + 1`, the second the carried bit. -/
def shift_words_loop : Nat → Nat → List Nat → List Nat
  | 0, _, words => words
  | i + 1, carried_bit, words =>
    let temp := words.getD i 0
    shift_words_loop i (if temp &&& shl 1 63 ≠ 0 then 1 else 0)
      (words.set i (shl temp 1 ||| carried_bit))

/-- The function `shift_words(words, length)`. -/
def shift_words (words : List Nat) (length : Nat) : List Nat :=
  shift_words_loop length 0 words

/-- The function `shiftc_words(words, lim)`. -/
def shiftc_words (words : List Nat) (lim : Limit) : List Nat :=
  let w := shift_words words lim.words
  w.set 0 (w.getD 0 0 &&& lim.yWord)

/-- Local state of `flasm_hd`: the vector `ones`, the two row arrays and the results. -/
structure HdState where
  /-- The vector `ones`. -/
  ones : List Nat
  /-- The rows `M0[0..n]`. -/
  M0 : List (List Nat)
  /-- The rows `M1[0..n]`. -/
  M1 : List (List Nat)
  /-- The multiset `results`. -/
  results : ResultTupleSet
  /-- The tuple `best`. -/
  best : ResultTuple

/-- The new content of the current row's cell `j`: a copy of `ones` when `j = 0`, otherwise
the diagonal predecessor `prev[j - 1]`, shifted, truncated, with `delta(x[i-1], t[j-1])` in
the lowest bit. -/
def hd_row (t x : List Nat) (lim : Limit) (prev : List (List Nat)) (ones : List Nat)
    (i j : Nat) : List Nat :=
  if j = 0 then ones
  else
    let r := shiftc_words (prev.getD (j - 1) []) lim
    r.set (lim.words - 1) (r.getD (lim.words - 1) 0 ||| delta (x.getD (i - 1) 0) (t.getD (j - 1) 0))

/-- The block `if (err <= max_error) ...` that records an occurrence. -/
def hd_record (max_error : Nat) (return_all : Bool) (i j err : Nat)
    (results : ResultTupleSet) (best : ResultTuple) : ResultTupleSet × ResultTuple :=
  if err ≤ max_error then
    if return_all then (ResultTupleSet.insert ⟨j - 1, i - 1, err⟩ results, best)
    else if err < best.error then (results, ⟨j - 1, i - 1, err⟩)
    else (results, best)
  else (results, best)

/-- The block `if (j == 0 && i <= factor_length)` that makes `ones`: shift by one place and
add one to the least significant word. -/
def hd_ones (factor_length : Nat) (lim : Limit) (i j : Nat) (ones : List Nat) : List Nat :=
  if j = 0 ∧ i ≤ factor_length then
    let o := shift_words ones lim.words
    o.set (lim.words - 1) ((o.getD (lim.words - 1) 0 + 1) % 2 ^ 64)
  else ones

/-- The block `if (j >= factor_length && i >= factor_length)`: the error count of the cell
is the population count of its row. -/
def hd_match (factor_length max_error : Nat) (return_all : Bool) (lim : Limit) (i j : Nat)
    (row : List Nat) (results : ResultTupleSet) (best : ResultTuple) :
    ResultTupleSet × ResultTuple :=
  if factor_length ≤ j ∧ factor_length ≤ i then
    let err := popcount_words row lim.words
    hd_record max_error return_all i j err results best
  else (results, best)

/-- One execution of the body of the loop on `j` of `flasm_hd`, for the pattern index `i` and
the text index `j`. The two branches of `switch (i % 2)` are the same code with `M0` and `M1`
exchanged. -/
def hd_cell (t x : List Nat) (factor_length max_error : Nat) (return_all : Bool) (lim : Limit)
    (i j : Nat) (st : HdState) : HdState :=
  let ones := hd_ones factor_length lim i j st.ones
  if i % 2 = 0 then
    let M1 := st.M1.set j (hd_row t x lim st.M0 ones i j)
    let rb := hd_match factor_length max_error return_all lim i j (M1.getD j [])
      st.results st.best
    { ones := ones, M0 := st.M0, M1 := M1, results := rb.1, best := rb.2 }
  else
    let M0 := st.M0.set j (hd_row t x lim st.M1 ones i j)
    let rb := hd_match factor_length max_error return_all lim i j (M0.getD j [])
      st.results st.best
    { ones := ones, M0 := M0, M1 := st.M1, results := rb.1, best := rb.2 }

/-- The loop `for (j = 0; j < n + 1; j++)`; `cnt` counts the iterations left. -/
def hd_loop_j (t x : List Nat) (factor_length max_error : Nat) (return_all : Bool)
    (lim : Limit) (i : Nat) : Nat → Nat → HdState → HdState
  | 0, _, st => st
  | cnt + 1, j, st =>
    hd_loop_j t x factor_length max_error return_all lim i cnt (j + 1)
      (hd_cell t x factor_length max_error return_all lim i j st)

/-- The loop `for (i = 1; i < m + 1; i++)`; `cnt` counts the iterations left. -/
def hd_loop_i (t : List Nat) (n : Nat) (x : List Nat) (factor_length max_error : Nat)
    (return_all : Bool) (lim : Limit) : Nat → Nat → HdState → HdState
  | 0, _, st => st
  | cnt + 1, i, st =>
    hd_loop_i t n x factor_length max_error return_all lim cnt (i + 1)
      (hd_loop_j t x factor_length max_error return_all lim i (n + 1) 0 st)

/-- The function `flasm_hd(t, n, x, m, factor_length, max_error, return_all)`, for
`factor_length >= 1` and all allocations succeeding. -/
def flasm_hd (t : List Nat) (n : Nat) (x : List Nat) (m : Nat)
    (factor_length max_error : Nat) (return_all : Bool) : ResultTupleSet :=
  let lim := init_limit factor_length
  let zero := List.replicate lim.words 0
  let st0 : HdState :=
    { ones := zero
      M0 := List.replicate (n + 1) zero
      M1 := List.replicate (n + 1) zero
      results := []
      best := ⟨0, 0, m⟩ }
  let st := hd_loop_i t n x factor_length max_error return_all lim m 1 st0
  if !return_all ∧ st.best.error ≠ m then ResultTupleSet.insert st.best st.results
  else st.results

/-- The conversion `(CharString) p` of a `char*`: the symbols before the first `'\0'`. -/
def cstring (s : List Nat) : List Nat := s.takeWhile (fun c => decide (c ≠ 0))

/-- The loop `while (find(finder, pattern, k))` of `flasm_ed` for the factor that starts at
`i`. The list holds, for each successful call of `find`, the values `endPosition(finder)`
and `getScore(pattern)`. The state is the pair `(results, best)`. -/
def ed_hits (return_all : Bool) (i factor_length : Nat) :
    List (Nat × Int) → ResultTupleSet × ResultTuple → ResultTupleSet × ResultTuple
  | [], rb => rb
  | hit :: rest, rb =>
    let pos_t := hit.1 - 1
    let pos_x := i + factor_length - 1
    let error := hit.2.natAbs
    ed_hits return_all i factor_length rest
      (if return_all then (ResultTupleSet.insert ⟨pos_t, pos_x, error⟩ rb.1, rb.2)
       else if error < rb.2.error then (rb.1, ⟨pos_t, pos_x, error⟩)
       else rb)

/-- The loop `for (i = 0; i < m - factor_length + 1; i++)` of `flasm_ed`; `cnt` counts the
iterations left. The search primitive of the library `seqan` (a `Finder` over the haystack
and a `Pattern<CharString, Myers<>>` for the needle, called with the threshold `k`) is the
parameter `find`: it gives the hits of one needle over the whole haystack. -/
def ed_loop (find : List Nat → List Nat → Int → List (Nat × Int)) (haystack x : List Nat)
    (factor_length max_error : Nat) (return_all : Bool) :
    Nat → Nat → ResultTupleSet × ResultTuple → ResultTupleSet × ResultTuple
  | 0, _, rb => rb
  | cnt + 1, i, rb =>
    let h := (x.drop i).take factor_length
    let needle := cstring h
    ed_loop find haystack x factor_length max_error return_all cnt (i + 1)
      (ed_hits return_all i factor_length (find haystack needle (-(max_error : Int))) rb)

/-- The function `flasm_ed(t, n, x, m, factor_length, max_error, return_all)`. The bound
`m - factor_length + 1` is computed in `unsigned int`: when `factor_length > m + 1` it wraps
and the loop copies factors from beyond the pattern, which is the result `none`. -/
def flasm_ed (find : List Nat → List Nat → Int → List (Nat × Int)) (t : List Nat) (_n : Nat)
    (x : List Nat) (m factor_length max_error : Nat) (return_all : Bool) :
    Option ResultTupleSet :=
  if m + 1 < factor_length then none
  else
    let rb := ed_loop find (cstring t) x factor_length max_error return_all
      (m + 1 - factor_length) 0 ([], ⟨0, 0, m⟩)
    some (if !return_all ∧ rb.2.error ≠ m then ResultTupleSet.insert rb.2 rb.1 else rb.1)

/-- Modelled from the spec: the search primitive of `flasm_ed` (the finder of the seqan
library is not among the sources), for the threshold `0`: the end positions, in increasing
order, at which the needle occurs in the haystack, each with the score `0`. -/
def find_exact (haystack needle : List Nat) (_k : Int) : List (Nat × Int) :=
  ((List.range (haystack.length + 1)).filter (fun e =>
      decide (1 ≤ e ∧ needle.length ≤ e ∧
        (haystack.drop (e - needle.length)).take needle.length = needle))).map
    (fun e => (e, (0 : Int)))

/-! ### Specification of the Levenshtein validator -/

/-- One row of the matrix that `validate_levenshtein` fills, as a function of the column:
the column `0` holds `0`, the column `j + 1` the minimum of the three moves. `c` is the text
symbol of the row, `prev` the row before. -/
def lev_next (c : Nat) (P : List Nat) (prev : Nat → Nat) : Nat → Nat
  | 0 => 0
  | j + 1 =>
    min (prev (j + 1) + 1)
      (min (lev_next c P prev j + 1) (prev j + (if c = P.getD j 0 then 0 else 1)))

/-- The matrix that `validate_levenshtein` fills: the row `0` and the column `0` hold `0`,
the row `i + 1` is computed from the row `i` with the text symbol `T[i]`. -/
def lev_matrix (T P : List Nat) : Nat → Nat → Nat
  | 0 => fun _ => 0
  | i + 1 => lev_next (T.getD i 0) P (lev_matrix T P i)

/-- The symbols `l[a..b)`. -/
def seg (l : List Nat) (a b : Nat) : List Nat := (l.take b).drop a

/-! ### Specification of the multi-factor Hamming engine -/

/-- Bit `b` of a row of words, the word of index `0` being the most significant one. -/
def rowBit (row : List Nat) (b : Nat) : Bool :=
  decide (b / 64 < row.length) && (row.getD (row.length - 1 - b / 64) 0).testBit (b % 64)

/-- The top bit of a word as a number, the carry of `shift_words`. -/
def topbit (w : Nat) : Nat := if w &&& shl 1 63 ≠ 0 then 1 else 0

/-- The intended content of the row of the cell `(i, j)`: bit `b` compares the symbols `b`
places before the current pair, or is the boundary value where no such pair exists. -/
def specBit (t x : List Nat) (f i j b : Nat) : Bool :=
  decide (b < f) &&
    (if b < i ∧ b < j then decide (x.getD (i - 1 - b) 0 ≠ t.getD (j - 1 - b) 0)
     else decide (b < i))

/-- A row has `W` words, each a machine word, and its bits are those of `P`. -/
def RowOK (W : Nat) (row : List Nat) (P : Nat → Bool) : Prop :=
  row.length = W ∧ (∀ k, row.getD k 0 < 2 ^ 64) ∧ ∀ b, rowBit row b = P b

/-- Number of `b < n` with `P (a + b)`. -/
def cntFrom (P : Nat → Bool) (a n : Nat) : Nat :=
  ((List.range n).filter (fun c => P (a + c))).length

/-- Hamming distance between the factor of `x` ending at index `i` (exclusive) and the
window of `t` ending at index `j` (exclusive), both of length `f`. -/
def ham (t x : List Nat) (f i j : Nat) : Nat :=
  mismatches (x.drop (i - f)) (t.drop (j - f)) f

/-- Reference version of one loop body of `flasm_hd`: the error count is the Hamming
distance computed by direct comparison. The state is the pair `(results, best)`. -/
def ref_cell (t x : List Nat) (f max_error : Nat) (return_all : Bool) (i j : Nat)
    (rb : ResultTupleSet × ResultTuple) : ResultTupleSet × ResultTuple :=
  if f ≤ j ∧ f ≤ i then hd_record max_error return_all i j (ham t x f i j) rb.1 rb.2 else rb

/-- Reference version of the loop on `j`. -/
def ref_loop_j (t x : List Nat) (f max_error : Nat) (return_all : Bool) (i : Nat) :
    Nat → Nat → ResultTupleSet × ResultTuple → ResultTupleSet × ResultTuple
  | 0, _, rb => rb
  | cnt + 1, j, rb =>
    ref_loop_j t x f max_error return_all i cnt (j + 1)
      (ref_cell t x f max_error return_all i j rb)

/-- Reference version of the loop on `i`. -/
def ref_loop_i (t : List Nat) (n : Nat) (x : List Nat) (f max_error : Nat)
    (return_all : Bool) : Nat → Nat → ResultTupleSet × ResultTuple →
      ResultTupleSet × ResultTuple
  | 0, _, rb => rb
  | cnt + 1, i, rb =>
    ref_loop_i t n x f max_error return_all cnt (i + 1)
      (ref_loop_j t x f max_error return_all i (n + 1) 0 rb)

/-- The row array written while the pattern index is `i`. -/
def hd_cur (i : Nat) (st : HdState) : List (List Nat) := if i % 2 = 0 then st.M1 else st.M0

/-- The row array read while the pattern index is `i`. -/
def hd_prev (i : Nat) (st : HdState) : List (List Nat) := if i % 2 = 0 then st.M0 else st.M1

/-- Invariant of `flasm_hd` before the cell `(i, j)` is processed: the rows of pattern index
`i - 1` are all intended ones, so are the cells `j' < j` of pattern index `i`, and `ones` has
its `min(i, f)` low bits set (`min(i - 1, f)` before the cell `j = 0`). -/
def CellInv (t x : List Nat) (f W n i j : Nat) (st : HdState) : Prop :=
  (hd_cur i st).length = n + 1 ∧ (hd_prev i st).length = n + 1 ∧
  (∀ j', j' ≤ n → RowOK W ((hd_prev i st).getD j' []) (specBit t x f (i - 1) j')) ∧
  (∀ j', j' < j → RowOK W ((hd_cur i st).getD j' []) (specBit t x f i j')) ∧
  RowOK W st.ones (fun b => decide (b < min (if j = 0 then i - 1 else i) f))

/-- The tuple `r` is an occurrence: the factor of `x` that ends at `r.pos_x` and the window
of `t` that ends at `r.pos_t`, both of length `f`, are at Hamming distance `r.error`, which
is at most `max_error`. -/
def Occurrence (t : List Nat) (n : Nat) (x : List Nat) (m f max_error : Nat)
    (r : ResultTuple) : Prop :=
  f ≤ r.pos_x + 1 ∧ r.pos_x + 1 ≤ m ∧ f ≤ r.pos_t + 1 ∧ r.pos_t + 1 ≤ n ∧
  r.error = mismatches (x.drop (r.pos_x + 1 - f)) (t.drop (r.pos_t + 1 - f)) f ∧
  r.error ≤ max_error

/-- The cell of the tuple `r` comes before the cell `(i, j)` in scan order. -/
def Before (i j : Nat) (r : ResultTuple) : Prop :=
  r.pos_x + 1 < i ∨ (r.pos_x + 1 = i ∧ r.pos_t + 1 < j)

/-- The multiset `l` holds exactly once every occurrence whose cell comes before `(i, j)`,
and nothing else. -/
def CountInv (t : List Nat) (n : Nat) (x : List Nat) (m f max_error i j : Nat)
    (l : ResultTupleSet) : Prop :=
  ∀ r, (Occurrence t n x m f max_error r ∧ Before i j r → l.count r = 1) ∧
    (¬ (Occurrence t n x m f max_error r ∧ Before i j r) → l.count r = 0)

/-! ### Specification of the Hamming preprocessing -/

/-- Invariant of the matrix `D` of `preprocess_helper_hamming` at the gram prefix `s`: `D`
has `(q + 1) * (m + 1)` entries, the entry of column `0` is `0` in every row, and for every
`r <= |s|` the row `r` is the row of the first `r` symbols of `s`. -/
def PreInv (pattern : List Nat) (q : Nat) (s D : List Nat) : Prop :=
  D.length = (q + 1) * (pattern.length + 1) ∧
  (∀ r, r ≤ q → D.getD (r * (pattern.length + 1)) 0 = 0) ∧
  ∀ r, r ≤ s.length → ∀ j, j ≤ pattern.length →
    D.getD (r * (pattern.length + 1) + j) 0
      = (gram_last_row (hamming_row pattern) pattern.length (s.take r)).getD j 0

/-- The function `validate_damerau_levenshtein` as the specification states it: the
transposition move is offered when the current text symbol equals the previous pattern
symbol and the previous text symbol, `first[i - 2]`, equals the current pattern symbol. -/
def validate_damerau_levenshtein_spec (first s_first : List Nat) (k m : Nat) : Bool :=
  dl_outer 2 first s_first k m (m + k) 1 (List.replicate (m + 1) 0)
    (List.replicate (m + 1) 0) (List.replicate (m + 1) 0)

/-- Number of positions at which the gram `g`, placed so that it ends at the position `j`
of the pattern (exclusive), differs from the pattern, counted over the positions where the
two overlap: the last `min j |g|` symbols of the gram against the pattern symbols before
`j`. -/
def overlap_mism (g pattern : List Nat) (j : Nat) : Nat :=
  mismatches (g.drop (g.length - j)) (pattern.drop (j - g.length)) (min j g.length)

/-- Invariant of the preprocessing helpers for the bounds of `Ds`: `D` has
`(q + 1) * (m + 1)` entries, the entry of column `0` of its last row is `0`, and every value
stored in `Ds` so far lies in `1..m`. -/
def DsInv (m q : Nat) (st : PreState) : Prop :=
  st.D.length = (q + 1) * (m + 1) ∧ st.D.getD (q * (m + 1)) 0 = 0 ∧
  ∀ p ∈ st.Ds, 1 ≤ p.2 ∧ p.2 ≤ m

/-- Invariant of the matrix `D` of `preprocess_helper_levenshtein` at the gram prefix `s`,
as `PreInv` with the rows of the Levenshtein preprocessing. -/
def PreInvL (pattern : List Nat) (q : Nat) (s D : List Nat) : Prop :=
  D.length = (q + 1) * (pattern.length + 1) ∧
  (∀ r, r ≤ q → D.getD (r * (pattern.length + 1)) 0 = 0) ∧
  ∀ r, r ≤ s.length → ∀ j, j ≤ pattern.length →
    D.getD (r * (pattern.length + 1) + j) 0
      = (gram_last_row (levenshtein_row pattern) pattern.length (s.take r)).getD j 0

/-! ### Specification of the automaton state -/

/-- Number of mismatches between the first `j` pattern symbols and the `j` text symbols that
end just before offset `t`. -/
def win_mism (corpus pattern : List Nat) (t j : Nat) : Nat :=
  mismatches (corpus.drop (t - j)) pattern j

/-- State invariant of the automaton after `t` text symbols: bit `j` of `R[d]` is clear
exactly when the pattern prefix of length `j` matches the text ending at `t` with at most
`d` mismatches. -/
def BitapInv (corpus pattern : List Nat) (k t : Nat) (R : List Nat) : Prop :=
  R.length = (k + 1) * 8 ∧
  ∀ d, d ≤ k → ∀ j, j ≤ pattern.length →
    ((R.getD d 0).testBit j = false ↔ (j ≤ t ∧ win_mism corpus pattern t j ≤ d))

/-- A window of the pattern's length ending at offset `e` is within `k` mismatches. -/
def ok_end (corpus pattern : List Nat) (k e : Nat) : Prop :=
  pattern.length ≤ e ∧ win_mism corpus pattern e pattern.length ≤ k

/-- The text of `main.cpp`. -/
def main_data : List Nat :=
  "i live in fer Mensk and it's really beautiful place for living.".toList.map Char.toNat

/-- The pattern of `main.cpp`. -/
def main_search : List Nat := "Minsk".toList.map Char.toNat

/-! # Theorems -/

/-! ### Hamming validator -/

theorem mismatches_zero (a b : List Nat) : mismatches a b 0 = 0 := by
  simp [mismatches]

theorem mismatches_succ (a b : List Nat) (i : Nat) :
    mismatches a b (i + 1)
      = mismatches a b i + (if a.getD i 0 ≠ b.getD i 0 then 1 else 0) := by
  unfold mismatches
  rw [List.range_succ, List.filter_append, List.length_append]
  by_cases h : a.getD i 0 = b.getD i 0 <;>
    simp only [List.filter_cons, List.filter_nil, h, ne_eq, not_true_eq_false,
      not_false_eq_true, decide_True, decide_False, if_true, if_false, List.length_cons,
      List.length_nil, Bool.false_eq_true]

theorem mismatches_le (a b : List Nat) (m : Nat) : mismatches a b m ≤ m := by
  induction m with
  | zero => simp [mismatches_zero]
  | succ i ih => rw [mismatches_succ]; split <;> omega

theorem validate_hamming_loop_eq (a b : List Nat) (k : Nat) :
    ∀ (i c : Nat), c ≤ k →
      validate_hamming_loop a b k i c = decide (c + mismatches a b i ≤ k) := by
  intro i
  induction i with
  | zero => intro c hc; simp [validate_hamming_loop, mismatches_zero, hc]
  | succ i ih =>
    intro c hc
    rw [validate_hamming_loop, mismatches_succ]
    by_cases h : a.getD i 0 = b.getD i 0
    · simp only [h, ne_eq, not_true_eq_false, if_false, Nat.add_zero]
      exact ih c hc
    · simp only [h, ne_eq, not_false_eq_true, if_true]
      by_cases hk : c + 1 > k
      · simp only [hk, if_true]
        symm
        rw [decide_eq_false_iff_not]
        omega
      · simp only [hk, if_false]
        rw [ih (c + 1) (by omega)]
        congr 1
        apply propext
        constructor <;> intro h' <;> omega

theorem validate_hamming_iff (a b : List Nat) (k m : Nat) :
    validate_hamming a b k m = true ↔ mismatches a b m ≤ k := by
  unfold validate_hamming
  rw [validate_hamming_loop_eq a b k m 0 (Nat.zero_le k)]
  simp

/-! ### Bit-level facts on machine words -/

theorem testBit_ULONG_MAX (j : Nat) : ULONG_MAX.testBit j = decide (j < 64) := by
  unfold ULONG_MAX
  exact Nat.testBit_two_pow_sub_one 64 j

theorem testBit_shl (x s j : Nat) :
    (shl x s).testBit j = (decide (j < 64) && (decide (s ≤ j) && x.testBit (j - s))) := by
  unfold shl
  rw [Nat.testBit_mod_two_pow, Nat.testBit_shiftLeft]

theorem testBit_shl_one_zero (x : Nat) : (shl x 1).testBit 0 = false := by
  rw [testBit_shl]; simp

theorem testBit_shl_one_succ (x j : Nat) (hj : j + 1 < 64) :
    (shl x 1).testBit (j + 1) = x.testBit j := by
  rw [testBit_shl]; simp [hj]

theorem testBit_bnot (x j : Nat) :
    (bnot x).testBit j = (decide (j < 64) && !x.testBit j) := by
  unfold bnot
  rw [Nat.testBit_xor, testBit_ULONG_MAX, Nat.testBit_mod_two_pow]
  by_cases h : j < 64 <;> simp [h]

theorem testBit_shl_one (i j : Nat) :
    (shl 1 i).testBit j = (decide (j < 64) && decide (i = j)) := by
  rw [testBit_shl]
  by_cases h : j < 64 <;> by_cases h2 : i ≤ j <;> simp [h, h2]
  · by_cases h3 : i = j
    · subst h3; simp
    · have : j - i ≠ 0 := by omega
      have h4 : Nat.testBit 1 (j - i) = false := by
        rw [← Bool.not_eq_true, Nat.testBit_one_eq_true_iff_self_eq_zero]
        exact this
      simp [h3, h4]
  · omega

theorem and_shl_one_eq_zero_iff (r m : Nat) (hm : m < 64) :
    r &&& shl 1 m = 0 ↔ r.testBit m = false := by
  constructor
  · intro h
    have := congrArg (fun v => Nat.testBit v m) h
    simp only [Nat.testBit_and, testBit_shl_one, Nat.zero_testBit] at this
    simpa [hm] using this
  · intro h
    apply Nat.eq_of_testBit_eq
    intro j
    rw [Nat.testBit_and, testBit_shl_one, Nat.zero_testBit]
    by_cases hj : m = j
    · subst hj; simp [h]
    · simp [hj]

/-! ### The mask table -/

theorem getD_set_gen {α : Type} (l : List α) (a c : Nat) (v d : α) :
    (l.set a v).getD c d = if a = c ∧ a < l.length then v else l.getD c d := by
  rw [List.getD_eq_getElem?_getD, List.getD_eq_getElem?_getD, List.getElem?_set]
  by_cases h : a = c
  · subst h
    by_cases h2 : a < l.length
    · simp [h2]
    · have h3 : l[a]? = none := List.getElem?_eq_none (by omega)
      simp [h2, h3]
  · simp [h]

theorem getD_set (l : List Nat) (a c v : Nat) :
    (l.set a v).getD c 0 = if a = c ∧ a < l.length then v else l.getD c 0 := by
  rw [List.getD_eq_getElem?_getD, List.getD_eq_getElem?_getD, List.getElem?_set]
  by_cases h : a = c
  · subst h
    by_cases h2 : a < l.length
    · simp [h2]
    · have h3 : l[a]? = none := List.getElem?_eq_none (by omega)
      simp [h2, h3]
  · simp [h]

theorem pattern_mask_loop_length (rest : List Nat) :
    ∀ (i : Nat) (mask : List Nat), (pattern_mask_loop rest i mask).length = mask.length := by
  induction rest with
  | nil => intro i mask; rfl
  | cons a rest ih => intro i mask; rw [pattern_mask_loop, ih]; simp

theorem pattern_mask_loop_testBit (rest : List Nat) :
    ∀ (i : Nat) (mask : List Nat), mask.length = 128 → (∀ c ∈ rest, c < 128) →
      ∀ c, c < 128 → ∀ j, j < 64 →
      ((pattern_mask_loop rest i mask).getD c 0).testBit j
        = ((mask.getD c 0).testBit j && !decide (i ≤ j ∧ rest[j - i]? = some c)) := by
  induction rest with
  | nil => intro i mask _ _ c _ j _; simp [pattern_mask_loop]
  | cons a rest ih =>
    intro i mask hlen hsym c hc j hj
    have ha : a < 128 := hsym a (List.mem_cons_self a rest)
    rw [pattern_mask_loop, ih (i + 1) _ (by simp [hlen])
      (fun c hc => hsym c (List.mem_cons_of_mem a hc)) c hc j hj, getD_set]
    by_cases hac : a = c
    · subst hac
      simp only [hlen, ha, and_self, if_true, Nat.testBit_and, testBit_bnot, testBit_shl_one]
      by_cases hij : i = j
      · subst hij; simp
      · by_cases hlt : i < j
        · obtain ⟨d, rfl⟩ : ∃ d, j = i + 1 + d := ⟨j - (i + 1), by omega⟩
          have e1 : i + 1 + d - (i + 1) = d := by omega
          have e2 : i + 1 + d - i = d + 1 := by omega
          have h0 : i ≤ i + 1 + d := by omega
          simp [hj, hij, e1, e2, h0]
        · have h1 : ¬ (i + 1 ≤ j) := by omega
          have h2 : ¬ (i ≤ j) := by omega
          simp [hj, hij, h1, h2]
    · simp only [hac, false_and, if_false]
      congr 2
      by_cases hij : i = j
      · subst hij; simp [hac]
      · by_cases hlt : i < j
        · obtain ⟨d, rfl⟩ : ∃ d, j = i + 1 + d := ⟨j - (i + 1), by omega⟩
          have e1 : i + 1 + d - (i + 1) = d := by omega
          have e2 : i + 1 + d - i = d + 1 := by omega
          have h0 : i ≤ i + 1 + d := by omega
          simp [e1, e2, h0]
        · have h1 : ¬ (i + 1 ≤ j) := by omega
          have h2 : ¬ (i ≤ j) := by omega
          simp [h1, h2]

theorem pattern_mask_testBit (pattern : List Nat) (hsym : ∀ c ∈ pattern, c < 128)
    (c : Nat) (hc : c < 128) (j : Nat) (hj : j < 64) :
    ((pattern_mask pattern).getD c 0).testBit j = !decide (pattern[j]? = some c) := by
  unfold pattern_mask
  rw [pattern_mask_loop_testBit pattern 0 _ (by simp) hsym c hc j hj]
  have : (List.replicate 128 ULONG_MAX).getD c 0 = ULONG_MAX := by
    rw [List.getD_eq_getElem?_getD, List.getElem?_replicate]; simp [hc]
  rw [this, testBit_ULONG_MAX]
  simp [hj]

/-! ### One text step of the automaton -/

theorem update_loop_spec (mc : Nat) :
    ∀ (cnt d old : Nat) (R : List Nat),
      (update_loop mc cnt d old R).length = R.length ∧
      (∀ e, e < d → (update_loop mc cnt d old R).getD e 0 = R.getD e 0) ∧
      (d + cnt ≤ R.length → ∀ e, d ≤ e → e < d + cnt →
        (update_loop mc cnt d old R).getD e 0
          = shl ((if e = d then old else R.getD (e - 1) 0) &&& (R.getD e 0 ||| mc)) 1) := by
  intro cnt
  induction cnt with
  | zero =>
    intro d old R
    refine ⟨rfl, fun e _ => rfl, ?_⟩
    intro _ e h1 h2; omega
  | succ cnt ih =>
    intro d old R
    rw [update_loop]
    obtain ⟨hl, hlow, hmid⟩ := ih (d + 1) (R.getD d 0)
      (R.set d (shl (old &&& (R.getD d 0 ||| mc)) 1))
    refine ⟨by rw [hl]; simp, ?_, ?_⟩
    · intro e he
      rw [hlow e (by omega), getD_set]
      have : ¬ (d = e ∧ d < R.length) := by omega
      simp [this]
    · intro hlen e h1 h2
      by_cases hed : e = d
      · subst hed
        rw [hlow e (by omega), getD_set]
        have : e < R.length := by omega
        simp [this]
      · rw [hmid (by simp; omega) e (by omega) (by omega)]
        rw [getD_set, getD_set]
        have n1 : ¬ (d = e ∧ d < R.length) := by omega
        simp only [n1, if_false, hed]
        by_cases h3 : e = d + 1
        · subst h3; simp
        · have n2 : ¬ (d = e - 1 ∧ d < R.length) := by omega
          simp [h3, n2]

theorem update_length (mc k : Nat) (R : List Nat) : (update mc k R).length = R.length := by
  unfold update
  rw [(update_loop_spec mc k 1 _ _).1]; simp

theorem update_getD_zero (mc k : Nat) (R : List Nat) (h : 0 < R.length) :
    (update mc k R).getD 0 0 = shl (R.getD 0 0 ||| mc) 1 := by
  unfold update
  rw [(update_loop_spec mc k 1 _ _).2.1 0 (by omega), getD_set]
  simp [h]

theorem update_getD_succ (mc k : Nat) (R : List Nat) (h : k < R.length) (d : Nat)
    (hd : d + 1 ≤ k) :
    (update mc k R).getD (d + 1) 0
      = shl (R.getD d 0 &&& (R.getD (d + 1) 0 ||| mc)) 1 := by
  unfold update
  rw [(update_loop_spec mc k 1 _ _).2.2 (by simp; omega) (d + 1) (by omega) (by omega)]
  rw [getD_set, getD_set]
  have n1 : ¬ (0 = d + 1 ∧ 0 < R.length) := by omega
  simp only [n1, if_false, Nat.add_sub_cancel]
  by_cases h0 : d = 0
  · subst h0; simp
  · have n2 : ¬ (0 = d ∧ 0 < R.length) := by omega
    have n3 : ¬ (d + 1 = 1) := by omega
    simp [n2, n3]

theorem getD_drop (l : List Nat) (p i : Nat) : (l.drop p).getD i 0 = l.getD (p + i) 0 := by
  rw [List.getD_eq_getElem?_getD, List.getD_eq_getElem?_getD, List.getElem?_drop]

theorem win_mism_zero (corpus pattern : List Nat) (t : Nat) :
    win_mism corpus pattern t 0 = 0 := by
  simp [win_mism, mismatches_zero]

theorem win_mism_succ (corpus pattern : List Nat) (t j : Nat) (h : j ≤ t) :
    win_mism corpus pattern (t + 1) (j + 1)
      = win_mism corpus pattern t j
        + (if corpus.getD t 0 ≠ pattern.getD j 0 then 1 else 0) := by
  unfold win_mism
  rw [mismatches_succ, Nat.add_sub_add_right, getD_drop, Nat.sub_add_cancel h]

theorem bitapInv_init (corpus pattern : List Nat) (k : Nat) (hm : pattern.length < 64) :
    BitapInv corpus pattern k 0 (List.replicate ((k + 1) * 8) (bnot 1)) := by
  refine ⟨by simp, ?_⟩
  intro d hd j hj
  have : (List.replicate ((k + 1) * 8) (bnot 1)).getD d 0 = bnot 1 := by
    rw [List.getD_eq_getElem?_getD, List.getElem?_replicate]
    have : d < (k + 1) * 8 := by omega
    simp [this]
  rw [this]
  cases j with
  | zero =>
    simp only [win_mism_zero, Nat.zero_le, and_self, iff_true]
    decide
  | succ j =>
    have h1 : ¬ (j + 1 ≤ 0) := by omega
    simp only [h1, false_and, iff_false, Bool.not_eq_false]
    rw [testBit_bnot]
    have h2 : j + 1 < 64 := by omega
    have h3 : Nat.testBit 1 (j + 1) = false := by
      rw [← Bool.not_eq_true, Nat.testBit_one_eq_true_iff_self_eq_zero]
      omega
    simp [h2, h3]

theorem bitapInv_step (corpus pattern : List Nat) (k t : Nat) (R : List Nat)
    (hm : pattern.length < 64) (hP : ∀ c ∈ pattern, c < 128) (hc : corpus.getD t 0 < 128)
    (hinv : BitapInv corpus pattern k t R) :
    BitapInv corpus pattern k (t + 1)
      (update ((pattern_mask pattern).getD (corpus.getD t 0) 0) k R) := by
  obtain ⟨hlen, hbits⟩ := hinv
  refine ⟨by rw [update_length, hlen], ?_⟩
  intro d hd j hj
  cases j with
  | zero =>
    simp only [win_mism_zero, Nat.zero_le, and_self, iff_true]
    cases d with
    | zero => rw [update_getD_zero _ _ _ (by omega)]; exact testBit_shl_one_zero _
    | succ d => rw [update_getD_succ _ _ _ (by omega) d hd]; exact testBit_shl_one_zero _
  | succ j =>
    have hj64 : j + 1 < 64 := by omega
    have hmask := pattern_mask_testBit pattern hP (corpus.getD t 0) hc j (by omega)
    have hpj : pattern[j]? = some (pattern.getD j 0) := by
      rw [List.getD_eq_getElem?_getD, List.getElem?_eq_getElem (by omega)]; simp
    have hmask2 : ((pattern_mask pattern).getD (corpus.getD t 0) 0).testBit j = false
        ↔ corpus.getD t 0 = pattern.getD j 0 := by
      rw [hmask, hpj]
      simp only [Option.some.injEq, Bool.not_eq_false', decide_eq_true_eq]
      exact eq_comm
    have hstep : j ≤ t → win_mism corpus pattern (t + 1) (j + 1)
        = win_mism corpus pattern t j
          + (if corpus.getD t 0 ≠ pattern.getD j 0 then 1 else 0) :=
      win_mism_succ corpus pattern t j
    cases d with
    | zero =>
      rw [update_getD_zero _ _ _ (by omega), testBit_shl_one_succ _ _ hj64, Nat.testBit_or,
        Bool.or_eq_false_iff, hbits 0 (by omega) j (by omega), hmask2]
      constructor
      · rintro ⟨⟨h1, h2⟩, h3⟩
        rw [hstep h1]; simp only [h3, ne_eq, not_true_eq_false, if_false]
        omega
      · rintro ⟨h1, h2⟩
        have h1' : j ≤ t := by omega
        rw [hstep h1'] at h2
        by_cases h3 : corpus.getD t 0 = pattern.getD j 0
        · simp only [h3, ne_eq, not_true_eq_false, if_false] at h2
          exact ⟨⟨h1', by omega⟩, h3⟩
        · simp only [h3, ne_eq, not_false_eq_true, if_true] at h2
          omega
    | succ d =>
      rw [update_getD_succ _ _ _ (by omega) d hd, testBit_shl_one_succ _ _ hj64,
        Nat.testBit_and, Nat.testBit_or, Bool.and_eq_false_iff, Bool.or_eq_false_iff,
        hbits d (by omega) j (by omega), hbits (d + 1) hd j (by omega), hmask2]
      constructor
      · rintro (⟨h1, h2⟩ | ⟨⟨h1, h2⟩, h3⟩)
        · rw [hstep h1]; split <;> omega
        · rw [hstep h1]; simp only [h3, ne_eq, not_true_eq_false, if_false]
          omega
      · rintro ⟨h1, h2⟩
        have h1' : j ≤ t := by omega
        rw [hstep h1'] at h2
        by_cases h3 : corpus.getD t 0 = pattern.getD j 0
        · simp only [h3, ne_eq, not_true_eq_false, if_false] at h2
          exact Or.inr ⟨⟨h1', by omega⟩, h3⟩
        · simp only [h3, ne_eq, not_false_eq_true, if_true] at h2
          exact Or.inl ⟨h1', by omega⟩

theorem search_loop_spec (corpus pattern : List Nat) (k : Nat)
    (hm : pattern.length < 64) (hP : ∀ c ∈ pattern, c < 128) (hT : ∀ c ∈ corpus, c < 128) :
    ∀ (rest : List Nat) (it : Nat) (R : List Nat), rest = corpus.drop it →
      BitapInv corpus pattern k it R →
      (search_loop (pattern_mask pattern) pattern.length k corpus.length rest it R
          = ((corpus.length : Int), (corpus.length : Int)) ∧
        ∀ e, it < e → e ≤ corpus.length → ¬ ok_end corpus pattern k e) ∨
      (∃ e, it < e ∧ e ≤ corpus.length ∧ ok_end corpus pattern k e ∧
        (∀ e', it < e' → e' < e → ¬ ok_end corpus pattern k e') ∧
        search_loop (pattern_mask pattern) pattern.length k corpus.length rest it R
          = ((e : Int) - (pattern.length : Int), (e : Int))) := by
  intro rest
  induction rest with
  | nil =>
    intro it R hrest _
    left
    refine ⟨rfl, ?_⟩
    intro e h1 h2
    have : corpus.length ≤ it := List.drop_eq_nil_iff.mp hrest.symm
    omega
  | cons c rest ih =>
    intro it R hrest hinv
    have hlt : it < corpus.length := by
      by_contra hge
      have : corpus.drop it = [] := List.drop_eq_nil_iff.mpr (by omega)
      rw [this] at hrest; cases hrest
    have hc : corpus.getD it 0 = c := by
      rw [List.getD_eq_getElem?_getD, ← Nat.add_zero it, ← List.getElem?_drop, ← hrest]
      simp
    have hrest' : rest = corpus.drop (it + 1) := by
      rw [← List.drop_drop, ← hrest]; rfl
    have hc128 : corpus.getD it 0 < 128 := by
      rw [List.getD_eq_getElem?_getD, List.getElem?_eq_getElem hlt]
      exact hT _ (List.getElem_mem _)
    have hinv' := bitapInv_step corpus pattern k it R hm hP hc128 hinv
    rw [hc] at hinv'
    have hbit := hinv'.2 k (Nat.le_refl k) pattern.length (Nat.le_refl _)
    rw [← and_shl_one_eq_zero_iff _ _ hm] at hbit
    rw [search_loop]
    by_cases hz : (update ((pattern_mask pattern).getD c 0) k R).getD k 0
        &&& shl 1 pattern.length = 0
    · right
      simp only [hz, if_true]
      have hok : ok_end corpus pattern k (it + 1) := by
        have := hbit.mp hz
        exact ⟨this.1, this.2⟩
      refine ⟨it + 1, by omega, by omega, hok, ?_, ?_⟩
      · intro e' h1 h2; omega
      · refine Prod.ext ?_ ?_ <;> simp only [] <;> push_cast <;> ring
    · simp only [hz, if_false]
      have hnok : ¬ ok_end corpus pattern k (it + 1) := by
        intro h; exact hz (hbit.mpr ⟨h.1, h.2⟩)
      rcases ih (it + 1) _ hrest' hinv' with ⟨h1, h2⟩ | ⟨e, h1, h2, h3, h4, h5⟩
      · left
        refine ⟨h1, ?_⟩
        intro e he1 he2
        by_cases hee : e = it + 1
        · subst hee; exact hnok
        · exact h2 e (by omega) he2
      · right
        refine ⟨e, by omega, h2, h3, ?_, h5⟩
        intro e' he1 he2
        by_cases hee : e' = it + 1
        · subst hee; exact hnok
        · exact h4 e' (by omega) he2

theorem mismatches_eq_zero_iff (a b : List Nat) (m : Nat) :
    mismatches a b m = 0 ↔ ∀ i, i < m → a.getD i 0 = b.getD i 0 := by
  induction m with
  | zero => simp [mismatches_zero]
  | succ m ih =>
    rw [mismatches_succ]
    constructor
    · intro h i hi
      have h1 : mismatches a b m = 0 := by omega
      by_cases him : i = m
      · subst him
        by_contra hne
        simp only [ne_eq, hne, not_false_eq_true, if_true] at h
        omega
      · exact ih.mp h1 i (by omega)
    · intro h
      have h1 := ih.mpr (fun i hi => h i (by omega))
      have h2 := h m (by omega)
      rw [h1, if_neg (not_not.mpr h2)]

theorem take_eq_of_getD (a b : List Nat) (m : Nat) (ha : m ≤ a.length) (hb : b.length = m)
    (h : ∀ i, i < m → a.getD i 0 = b.getD i 0) : a.take m = b := by
  apply List.ext_getElem
  · simp [ha, hb]
  · intro i h1 h2
    have hi : i < m := by rw [← hb]; exact h2
    have := h i hi
    rw [List.getD_eq_getElem?_getD, List.getD_eq_getElem?_getD,
      List.getElem?_eq_getElem (by omega), List.getElem?_eq_getElem h2] at this
    simpa using this

theorem getD_of_take_eq (a b : List Nat) (m : Nat) (h : a.take m = b) :
    ∀ i, i < m → a.getD i 0 = b.getD i 0 := by
  intro i hi
  rw [← h, List.getD_eq_getElem?_getD, List.getD_eq_getElem?_getD, List.getElem?_take]
  simp [hi]

theorem bitap_dichotomy (corpus pattern : List Nat) (k : Nat)
    (hne : pattern ≠ []) (hm : pattern.length ≤ 31)
    (hP : ∀ c ∈ pattern, c < 128) (hT : ∀ c ∈ corpus, c < 128) :
    (bitap_fuzzy_bitwise_search_new corpus pattern k
        = some ((corpus.length : Int), (corpus.length : Int)) ∧
      ∀ e, e ≤ corpus.length → ¬ ok_end corpus pattern k e) ∨
    (∃ e, e ≤ corpus.length ∧ ok_end corpus pattern k e ∧
      (∀ e', e' < e → ¬ ok_end corpus pattern k e') ∧
      bitap_fuzzy_bitwise_search_new corpus pattern k
        = some ((e : Int) - (pattern.length : Int), (e : Int))) := by
  have hpos : 0 < pattern.length := List.length_pos.mpr hne
  have h0 : ¬ ok_end corpus pattern k 0 := by
    intro h; have := h.1; omega
  unfold bitap_fuzzy_bitwise_search_new
  simp only [hne, if_false, hm, if_true]
  rcases search_loop_spec corpus pattern k (by omega) hP hT corpus 0 _ (by simp)
      (bitapInv_init corpus pattern k (by omega)) with ⟨h1, h2⟩ | ⟨e, h1, h2, h3, h4, h5⟩
  · left
    refine ⟨by rw [h1], ?_⟩
    intro e he
    by_cases hz : e = 0
    · subst hz; exact h0
    · exact h2 e (by omega) he
  · right
    refine ⟨e, h2, h3, ?_, by rw [h5]⟩
    intro e' he'
    by_cases hz : e' = 0
    · subst hz; exact h0
    · exact h4 e' (by omega) he'

/-- C1: if some window of the pattern's length is within `k` mismatches of the pattern and
`p` is the start of the leftmost such window, the automaton returns the span `[p, p + m)`;
with `k = 0` that window is the first exact occurrence of the pattern. -/
theorem bitap_returns_leftmost_window (corpus pattern : List Nat) (k p : Nat)
    (hne : pattern ≠ []) (hm : pattern.length ≤ 31)
    (hP : ∀ c ∈ pattern, c < 128) (hT : ∀ c ∈ corpus, c < 128)
    (hp : p + pattern.length ≤ corpus.length)
    (hwin : mismatches (corpus.drop p) pattern pattern.length ≤ k)
    (hleft : ∀ p', p' < p → ¬ mismatches (corpus.drop p') pattern pattern.length ≤ k) :
    bitap_fuzzy_bitwise_search_new corpus pattern k
        = some ((p : Int), (p : Int) + (pattern.length : Int)) ∧
      (k = 0 → (corpus.drop p).take pattern.length = pattern ∧
        ∀ p', p' < p → (corpus.drop p').take pattern.length ≠ pattern) := by
  have hokp : ok_end corpus pattern k (p + pattern.length) := by
    refine ⟨by omega, ?_⟩
    unfold win_mism
    rw [Nat.add_sub_cancel]; exact hwin
  constructor
  · rcases bitap_dichotomy corpus pattern k hne hm hP hT with ⟨_, h2⟩ | ⟨e, h1, h2, h3, h4⟩
    · exact absurd hokp (h2 _ hp)
    · have he : e = p + pattern.length := by
        rcases Nat.lt_trichotomy e (p + pattern.length) with hlt | heq | hgt
        · exfalso
          have hge := h2.1
          have hw := h2.2
          unfold win_mism at hw
          exact hleft (e - pattern.length) (by omega) hw
        · exact heq
        · exact absurd hokp (h3 _ hgt)
      rw [h4, he]
      refine congrArg some (Prod.ext ?_ ?_) <;> simp only [] <;> omega
  · intro hk
    subst hk
    constructor
    · apply take_eq_of_getD _ _ _ (by simp; omega) rfl
      exact (mismatches_eq_zero_iff _ _ _).mp (by omega)
    · intro p' hp' heq
      apply hleft p' hp'
      have := (mismatches_eq_zero_iff _ _ _).mpr (getD_of_take_eq _ _ _ heq)
      omega

/-- Check of C1 on the call of `main.cpp`: text of `main.cpp`, pattern `Minsk`, `k = 1`
gives the span `[14, 19)`. -/
theorem bitap_returns_leftmost_window_witness :
    bitap_fuzzy_bitwise_search_new main_data main_search 1
        = some ((14 : Int), (14 : Int) + (5 : Int)) ∧
      ((1 : Nat) = 0 → (main_data.drop 14).take main_search.length = main_search ∧
        ∀ p', p' < 14 → (main_data.drop p').take main_search.length ≠ main_search) :=
  bitap_returns_leftmost_window main_data main_search 1 14 (by decide) (by decide)
    (by decide) (by decide) (by decide) (by decide) (by decide)

/-- C2: the span returned by the automaton is sound. If its start is not the text end, it
has the pattern's length, lies inside the text and passes `validate_hamming` with the same
`k`; and when no window of the pattern's length is within `k` mismatches the result is the
empty range `(end, end)`. -/
theorem bitap_result_sound (corpus pattern : List Nat) (k : Nat)
    (hne : pattern ≠ []) (hm : pattern.length ≤ 31)
    (hP : ∀ c ∈ pattern, c < 128) (hT : ∀ c ∈ corpus, c < 128) :
    ∃ r : Int × Int, bitap_fuzzy_bitwise_search_new corpus pattern k = some r ∧
      (r.1 ≠ (corpus.length : Int) →
        r.2 - r.1 = (pattern.length : Int) ∧ 0 ≤ r.1 ∧ r.2 ≤ (corpus.length : Int) ∧
        validate_hamming (corpus.drop r.1.toNat) pattern k pattern.length = true) ∧
      ((∀ p, p + pattern.length ≤ corpus.length →
          ¬ mismatches (corpus.drop p) pattern pattern.length ≤ k) →
        r = ((corpus.length : Int), (corpus.length : Int))) := by
  rcases bitap_dichotomy corpus pattern k hne hm hP hT with ⟨h1, h2⟩ | ⟨e, h1, h2, h3, h4⟩
  · exact ⟨_, h1, fun h => absurd rfl h, fun _ => rfl⟩
  · refine ⟨_, h4, ?_, ?_⟩
    · intro _
      have hge := h2.1
      have hw := h2.2
      unfold win_mism at hw
      refine ⟨by simp, by simp; omega, by simp; omega, ?_⟩
      have : ((e : Int) - (pattern.length : Int)).toNat = e - pattern.length := by omega
      simp only [this]
      exact (validate_hamming_iff _ _ _ _).mpr hw
    · intro hno
      exfalso
      have hge := h2.1
      have hw := h2.2
      unfold win_mism at hw
      exact hno (e - pattern.length) (by omega) hw

/-- Check of C2 on the call of `main.cpp`. -/
theorem bitap_result_sound_witness :
    ∃ r : Int × Int, bitap_fuzzy_bitwise_search_new main_data main_search 1 = some r ∧
      (r.1 ≠ (main_data.length : Int) →
        r.2 - r.1 = (main_search.length : Int) ∧ 0 ≤ r.1 ∧ r.2 ≤ (main_data.length : Int) ∧
        validate_hamming (main_data.drop r.1.toNat) main_search 1 main_search.length = true) ∧
      ((∀ p, p + main_search.length ≤ main_data.length →
          ¬ mismatches (main_data.drop p) main_search main_search.length ≤ 1) →
        r = ((main_data.length : Int), (main_data.length : Int))) :=
  bitap_result_sound main_data main_search 1 (by decide) (by decide) (by decide) (by decide)

/-- C3: `validate_hamming(first, s_first, k, m)` is true exactly when the number of indices
`i < m` with `first[i] != s_first[i]` is at most `k`; the early abort does not change the
verdict. -/
theorem validate_hamming_correct (first s_first : List Nat) (k m : Nat)
    (_hfirst : m ≤ first.length) (_hsecond : m ≤ s_first.length) :
    validate_hamming first s_first k m = true ↔ mismatches first s_first m ≤ k :=
  validate_hamming_iff first s_first k m

/-- Check of C3 on `Mensk` against `Minsk` with `k = 1`, `m = 5`. -/
theorem validate_hamming_correct_witness :
    validate_hamming (main_data.drop 14) main_search 1 5 = true
      ↔ mismatches (main_data.drop 14) main_search 5 ≤ 1 :=
  validate_hamming_correct (main_data.drop 14) main_search 1 5 (by decide) (by decide)

/-! ### Rows of words -/

theorem shl_lt (x s : Nat) : shl x s < 2 ^ 64 := by
  unfold shl
  exact Nat.mod_lt _ (by norm_num)

theorem topbit_le_one (w : Nat) : topbit w ≤ 1 := by
  unfold topbit; split <;> omega

theorem topbit_testBit (w c : Nat) :
    (topbit w).testBit c = (decide (c = 0) && w.testBit 63) := by
  unfold topbit
  by_cases h : w &&& shl 1 63 = 0
  · have h63 := (and_shl_one_eq_zero_iff w 63 (by norm_num)).mp h
    simp [h, h63]
  · have h63 : w.testBit 63 = true := by
      by_contra hc
      exact h ((and_shl_one_eq_zero_iff w 63 (by norm_num)).mpr (by simpa using hc))
    simp only [ne_eq, h, not_false_eq_true, if_true, h63, Bool.and_true]
    by_cases hc : c = 0
    · subst hc; simp
    · have : Nat.testBit 1 c = false := by
        rw [← Bool.not_eq_true, Nat.testBit_one_eq_true_iff_self_eq_zero]; exact hc
      simp [hc, this]

theorem shift_words_loop_spec :
    ∀ (i carried : Nat) (words : List Nat), i ≤ words.length →
      (shift_words_loop i carried words).length = words.length ∧
      (∀ k, i ≤ k → (shift_words_loop i carried words).getD k 0 = words.getD k 0) ∧
      (∀ k, k < i → (shift_words_loop i carried words).getD k 0
          = shl (words.getD k 0) 1
            ||| (if k + 1 = i then carried else topbit (words.getD (k + 1) 0))) := by
  intro i
  induction i with
  | zero =>
    intro carried words _
    refine ⟨rfl, fun k _ => rfl, ?_⟩
    intro k hk; omega
  | succ i ih =>
    intro carried words hlen
    rw [shift_words_loop]
    obtain ⟨h1, h2, h3⟩ := ih (if words.getD i 0 &&& shl 1 63 ≠ 0 then 1 else 0)
      (words.set i (shl (words.getD i 0) 1 ||| carried)) (by simp; omega)
    refine ⟨by rw [h1]; simp, ?_, ?_⟩
    · intro k hk
      rw [h2 k (by omega), getD_set]
      have : ¬ (i = k ∧ i < words.length) := by omega
      simp [this]
    · intro k hk
      by_cases hki : k = i
      · subst hki
        rw [h2 k (Nat.le_refl k), getD_set]
        have : k < words.length := by omega
        simp [this]
      · rw [h3 k (by omega), getD_set, getD_set]
        have n1 : ¬ (i = k ∧ i < words.length) := by omega
        have n2 : ¬ (k + 1 = i + 1) := by omega
        simp only [n1, if_false, n2]
        by_cases hk1 : k + 1 = i
        · subst hk1; simp [topbit]
        · have n3 : ¬ (i = k + 1 ∧ i < words.length) := by omega
          simp [hk1, n3]

theorem shift_words_getD (words : List Nat) (W : Nat) (hlen : words.length = W) (k : Nat)
    (hk : k < W) :
    (shift_words words W).getD k 0
      = shl (words.getD k 0) 1 ||| (if k + 1 = W then 0 else topbit (words.getD (k + 1) 0)) :=
  (shift_words_loop_spec W 0 words (by omega)).2.2 k hk

theorem shift_words_length (words : List Nat) (W : Nat) (hlen : words.length = W) :
    (shift_words words W).length = W := by
  unfold shift_words
  rw [(shift_words_loop_spec W 0 words (by omega)).1, hlen]

theorem getD_lt_of_forall (row : List Nat) (W : Nat) (hlen : row.length = W)
    (h : ∀ k, k < W → row.getD k 0 < 2 ^ 64) : ∀ k, row.getD k 0 < 2 ^ 64 := by
  intro k
  by_cases hk : k < W
  · exact h k hk
  · rw [List.getD_eq_getElem?_getD, List.getElem?_eq_none (by omega)]
    simp

theorem rowBit_eq (row : List Nat) (W : Nat) (hlen : row.length = W) (b : Nat)
    (hb : b < 64 * W) :
    rowBit row b = (row.getD (W - 1 - b / 64) 0).testBit (b % 64) := by
  unfold rowBit
  rw [hlen]
  have : b / 64 < W := by omega
  simp only [this, decide_True, Bool.true_and]

theorem rowBit_out (row : List Nat) (W : Nat) (hlen : row.length = W) (b : Nat)
    (hb : 64 * W ≤ b) : rowBit row b = false := by
  unfold rowBit
  have : ¬ (b / 64 < row.length) := by omega
  simp [this]

theorem shift_words_ok (words : List Nat) (W : Nat) (hlen : words.length = W) :
    RowOK W (shift_words words W)
      (fun b => decide (1 ≤ b ∧ b < 64 * W) && rowBit words (b - 1)) := by
  have hl := shift_words_length words W hlen
  refine ⟨hl, ?_, ?_⟩
  · apply getD_lt_of_forall _ W hl
    intro k hk
    rw [shift_words_getD words W hlen k hk]
    apply Nat.or_lt_two_pow (shl_lt _ _)
    split
    · norm_num
    · exact lt_of_le_of_lt (topbit_le_one _) (by norm_num)
  · intro b
    beta_reduce
    by_cases hb : b < 64 * W
    · rw [rowBit_eq _ W hl b hb, shift_words_getD words W hlen _ (by omega), Nat.testBit_or,
        testBit_shl]
      have hc64 : b % 64 < 64 := Nat.mod_lt _ (by norm_num)
      by_cases hc : b % 64 = 0
      · by_cases hq : b / 64 = 0
        · have hb0 : b = 0 := by omega
          subst hb0
          have : W - 1 + 1 = W := by omega
          simp [this]
        · have n1 : ¬ (W - 1 - b / 64 + 1 = W) := by omega
          have hb1 : 1 ≤ b := by omega
          rw [rowBit_eq words W hlen (b - 1) (by omega)]
          have e1 : (b - 1) / 64 = b / 64 - 1 := by omega
          have e2 : (b - 1) % 64 = 63 := by omega
          have e3 : W - 1 - (b / 64 - 1) = W - 1 - b / 64 + 1 := by omega
          simp only [n1, if_false, topbit_testBit, hc, e1, e2, e3, hb1, hb]
          simp
      · have hb1 : 1 ≤ b := by omega
        rw [rowBit_eq words W hlen (b - 1) (by omega)]
        have e1 : (b - 1) / 64 = b / 64 := by omega
        have e2 : (b - 1) % 64 = b % 64 - 1 := by omega
        have h1c : 1 ≤ b % 64 := by omega
        have hcarry : (if W - 1 - b / 64 + 1 = W then 0
            else topbit (words.getD (W - 1 - b / 64 + 1) 0)).testBit (b % 64) = false := by
          split
          · simp
          · rw [topbit_testBit]; simp [hc]
        rw [hcarry]
        simp [e1, e2, hc64, h1c, hb1, hb]
    · rw [rowBit_out _ W hl b (by omega)]
      simp [hb]

/-! ### Counting bits -/

theorem cntFrom_add (P : Nat → Bool) (a n1 n2 : Nat) :
    cntFrom P a (n1 + n2) = cntFrom P a n1 + cntFrom P (a + n1) n2 := by
  unfold cntFrom
  rw [List.range_add, List.filter_append, List.length_append, List.filter_map,
    List.length_map]
  congr 3
  funext c
  simp [Nat.add_assoc]

theorem cntFrom_congr (P Q : Nat → Bool) (a a' n : Nat)
    (h : ∀ c, c < n → P (a + c) = Q (a' + c)) : cntFrom P a n = cntFrom Q a' n := by
  unfold cntFrom
  congr 1
  apply List.filter_congr
  intro c hc
  exact h c (List.mem_range.mp hc)

theorem cntFrom_false (P : Nat → Bool) (a n : Nat) (h : ∀ c, c < n → P (a + c) = false) :
    cntFrom P a n = 0 := by
  unfold cntFrom
  rw [List.length_eq_zero, List.filter_eq_nil_iff]
  intro c hc
  simp [h c (List.mem_range.mp hc)]

theorem cntFrom_reverse (Q : Nat → Bool) (f : Nat) :
    cntFrom (fun b => Q (f - 1 - b)) 0 f = cntFrom Q 0 f := by
  induction f with
  | zero => rfl
  | succ f ih =>
    have e1 : cntFrom (fun b => Q (f + 1 - 1 - b)) 0 (f + 1)
        = cntFrom (fun b => Q (f + 1 - 1 - b)) 0 1
          + cntFrom (fun b => Q (f + 1 - 1 - b)) (0 + 1) f := by
      rw [Nat.add_comm f 1]; exact cntFrom_add _ 0 1 f
    have e2 : cntFrom Q 0 (f + 1) = cntFrom Q 0 f + cntFrom Q (0 + f) 1 :=
      cntFrom_add _ 0 f 1
    have e3 : cntFrom (fun b => Q (f + 1 - 1 - b)) (0 + 1) f
        = cntFrom (fun b => Q (f - 1 - b)) 0 f := by
      apply cntFrom_congr
      intro c hc
      have : f + 1 - 1 - (0 + 1 + c) = f - 1 - (0 + c) := by omega
      simp only [this]
    have e4 : cntFrom (fun b => Q (f + 1 - 1 - b)) 0 1 = cntFrom Q (0 + f) 1 := by
      apply cntFrom_congr
      intro c hc
      have : f + 1 - 1 - (0 + c) = 0 + f + c := by omega
      simp only [this]
    rw [e1, e2, e3, e4, ih]; omega

theorem popcountl_eq (w : Nat) : popcountl w = cntFrom (fun b => w.testBit b) 0 64 := by
  unfold popcountl cntFrom
  simp

theorem popcount_words_eq (row : List Nat) (W : Nat) (hlen : row.length = W) :
    ∀ i, i ≤ W → popcount_words row i = cntFrom (rowBit row) (64 * (W - i)) (64 * i) := by
  intro i
  induction i with
  | zero => intro _; rfl
  | succ i ih =>
    intro hi
    rw [popcount_words, ih (by omega), popcountl_eq]
    have e : 64 * (i + 1) = 64 + 64 * i := by omega
    rw [e, cntFrom_add, Nat.add_comm]
    congr 1
    · apply cntFrom_congr
      intro c hc
      rw [rowBit_eq row W hlen _ (by omega)]
      have e1 : (64 * (W - (i + 1)) + c) / 64 = W - (i + 1) := by omega
      have e2 : (64 * (W - (i + 1)) + c) % 64 = c := by omega
      have e3 : W - 1 - (W - (i + 1)) = i := by omega
      rw [e1, e2, e3]; simp
    · have : 64 * (W - (i + 1)) + 64 = 64 * (W - i) := by omega
      rw [this]

theorem popcount_words_rowOK (row : List Nat) (W : Nat) (P : Nat → Bool) (f : Nat)
    (hok : RowOK W row P) (hf : f ≤ 64 * W) (hP : ∀ b, f ≤ b → P b = false) :
    popcount_words row W = cntFrom P 0 f := by
  rw [popcount_words_eq row W hok.1 W (Nat.le_refl W), Nat.sub_self]
  have e : 64 * W = f + (64 * W - f) := by omega
  rw [show 64 * 0 = 0 from rfl, e, cntFrom_add]
  have h1 : cntFrom (rowBit row) (0 + f) (64 * W - f) = 0 := by
    apply cntFrom_false
    intro c _
    rw [hok.2.2]; exact hP _ (by omega)
  rw [h1, Nat.add_zero]
  apply cntFrom_congr
  intro c _
  exact hok.2.2 _

theorem specBit_high (t x : List Nat) (f i j b : Nat) (h : f ≤ b) :
    specBit t x f i j b = false := by
  unfold specBit
  have : ¬ (b < f) := by omega
  simp [this]

theorem cntFrom_specBit (t x : List Nat) (f i j : Nat) (hi : f ≤ i) (hj : f ≤ j) :
    cntFrom (specBit t x f i j) 0 f = ham t x f i j := by
  unfold ham mismatches
  have h1 : cntFrom (specBit t x f i j) 0 f
      = cntFrom (fun b => (fun d => decide ((x.drop (i - f)).getD d 0
          ≠ (t.drop (j - f)).getD d 0)) (f - 1 - b)) 0 f := by
    apply cntFrom_congr
    intro c hc
    unfold specBit
    have c1 : 0 + c < f := by omega
    have c2 : 0 + c < i ∧ 0 + c < j := by omega
    have e1 : i - f + (f - 1 - (0 + c)) = i - 1 - (0 + c) := by omega
    have e2 : j - f + (f - 1 - (0 + c)) = j - 1 - (0 + c) := by omega
    simp only [c1, c2, decide_True, Bool.true_and, and_self, if_true, getD_drop, e1, e2]
  rw [h1, cntFrom_reverse (fun d => decide ((x.drop (i - f)).getD d 0
    ≠ (t.drop (j - f)).getD d 0)) f]
  unfold cntFrom
  simp

/-! ### Row operations of `flasm_hd` -/

theorem init_limit_words (f : Nat) : (init_limit f).words = (f + 63) / 64 := rfl

theorem testBit_yWord (f c : Nat) :
    (init_limit f).yWord.testBit c = decide ((64 - f % 64) % 64 + c < 64) := by
  unfold init_limit
  simp only [Nat.testBit_shiftRight, testBit_ULONG_MAX]

theorem shiftc_words_ok (words : List Nat) (f W : Nat) (hW : W = (f + 63) / 64)
    (hlen : words.length = W) :
    RowOK W (shiftc_words words (init_limit f))
      (fun b => decide (1 ≤ b ∧ b < f) && rowBit words (b - 1)) := by
  unfold shiftc_words
  rw [init_limit_words, ← hW]
  obtain ⟨hl, hbd, hbits⟩ := shift_words_ok words W hlen
  have hl' : ((shift_words words W).set 0
      ((shift_words words W).getD 0 0 &&& (init_limit f).yWord)).length = W := by
    rw [List.length_set]; exact hl
  refine ⟨hl', ?_, ?_⟩
  · intro k
    rw [getD_set]
    split
    · exact lt_of_le_of_lt Nat.and_le_left (hbd 0)
    · exact hbd k
  · intro b
    beta_reduce
    by_cases hb : b < 64 * W
    · rw [rowBit_eq _ W hl' b hb, getD_set]
      have hsh := hbits b
      rw [rowBit_eq _ W hl b hb] at hsh
      beta_reduce at hsh
      by_cases hk : W - 1 - b / 64 = 0
      · rw [hk] at hsh ⊢
        rw [if_pos ⟨rfl, by rw [hl]; omega⟩, Nat.testBit_and, testBit_yWord, hsh]
        have hiff : ((64 - f % 64) % 64 + b % 64 < 64) ↔ b < f := by omega
        by_cases hbf : b < f
        · have := hiff.mpr hbf
          simp [this, hbf, hb]
        · have : ¬ ((64 - f % 64) % 64 + b % 64 < 64) := fun h => hbf (hiff.mp h)
          simp [this, hbf]
      · rw [if_neg (by omega), hsh]
        have hbf : b < f := by omega
        simp [hbf, hb]
    · rw [rowBit_out _ W hl' b (by omega)]
      have : ¬ (b < f) := by omega
      simp [this]

theorem delta_le_one (a b : Nat) : delta a b ≤ 1 := by
  unfold delta; split <;> omega

theorem delta_testBit (a b c : Nat) :
    (delta a b).testBit c = (decide (c = 0) && decide (a ≠ b)) := by
  unfold delta
  by_cases h : a = b
  · simp [h]
  · by_cases hc : c = 0
    · subst hc; simp [h]
    · have : Nat.testBit 1 c = false := by
        rw [← Bool.not_eq_true, Nat.testBit_one_eq_true_iff_self_eq_zero]; exact hc
      simp [h, hc, this]

theorem specBit_zero (t x : List Nat) (f i j : Nat) (hf : 1 ≤ f) (hi : 1 ≤ i) (hj : 1 ≤ j) :
    specBit t x f i j 0 = decide (x.getD (i - 1) 0 ≠ t.getD (j - 1) 0) := by
  unfold specBit
  have h1 : 0 < f := by omega
  have h2 : 0 < i ∧ 0 < j := by omega
  simp [h1, h2]

theorem specBit_succ (t x : List Nat) (f i j b : Nat) (hi : 1 ≤ i) (hj : 1 ≤ j)
    (hb : 1 ≤ b) (hbf : b < f) :
    specBit t x f i j b = specBit t x f (i - 1) (j - 1) (b - 1) := by
  unfold specBit
  have h1 : b - 1 < f := by omega
  simp only [hbf, h1, decide_True, Bool.true_and]
  by_cases h2 : b < i ∧ b < j
  · have h3 : b - 1 < i - 1 ∧ b - 1 < j - 1 := by omega
    have e1 : i - 1 - 1 - (b - 1) = i - 1 - b := by omega
    have e2 : j - 1 - 1 - (b - 1) = j - 1 - b := by omega
    simp only [h2, h3, and_self, if_true, e1, e2]
  · have h3 : ¬ (b - 1 < i - 1 ∧ b - 1 < j - 1) := by omega
    simp only [h2, h3, if_false]
    congr 1
    apply propext
    constructor <;> intro h <;> omega

theorem hd_row_ok (t x : List Nat) (f W i j : Nat) (prev : List (List Nat)) (ones : List Nat)
    (hf : 1 ≤ f) (hW : W = (f + 63) / 64) (hi : 1 ≤ i) (hj : 1 ≤ j)
    (hprev : RowOK W (prev.getD (j - 1) []) (specBit t x f (i - 1) (j - 1))) :
    RowOK W (hd_row t x (init_limit f) prev ones i j) (specBit t x f i j) := by
  unfold hd_row
  have hj0 : ¬ (j = 0) := by omega
  simp only [hj0, if_false, init_limit_words, ← hW]
  obtain ⟨hl, hbd, hbits⟩ := shiftc_words_ok (prev.getD (j - 1) []) f W hW hprev.1
  have hW1 : 1 ≤ W := by omega
  have hl' : ((shiftc_words (prev.getD (j - 1) []) (init_limit f)).set (W - 1)
      ((shiftc_words (prev.getD (j - 1) []) (init_limit f)).getD (W - 1) 0
        ||| delta (x.getD (i - 1) 0) (t.getD (j - 1) 0))).length = W := by
    rw [List.length_set]; exact hl
  refine ⟨hl', ?_, ?_⟩
  · intro k
    rw [getD_set]
    split
    · exact Nat.or_lt_two_pow (hbd _) (lt_of_le_of_lt (delta_le_one _ _) (by norm_num))
    · exact hbd k
  · intro b
    by_cases hb : b < 64 * W
    · rw [rowBit_eq _ W hl' b hb, getD_set]
      have hsh := hbits b
      rw [rowBit_eq _ W hl b hb] at hsh
      beta_reduce at hsh
      by_cases hk : b / 64 = 0
      · have e : W - 1 - b / 64 = W - 1 := by omega
        rw [e] at hsh ⊢
        rw [if_pos ⟨rfl, by rw [hl]; omega⟩, Nat.testBit_or, delta_testBit, hsh]
        by_cases hb0 : b = 0
        · subst hb0
          rw [specBit_zero t x f i j hf hi hj]
          simp
        · have hc : ¬ (b % 64 = 0) := by omega
          by_cases hbf : b < f
          · rw [specBit_succ t x f i j b hi hj (by omega) hbf, hprev.2.2]
            have : 1 ≤ b ∧ b < f := by omega
            simp [hc, this]
          · rw [specBit_high t x f i j b (by omega)]
            have : ¬ (1 ≤ b ∧ b < f) := by omega
            simp [hc, this]
      · rw [if_neg (by omega), hsh]
        have hb1 : 1 ≤ b := by omega
        by_cases hbf : b < f
        · rw [specBit_succ t x f i j b hi hj hb1 hbf, hprev.2.2]
          have : 1 ≤ b ∧ b < f := by omega
          simp [this]
        · rw [specBit_high t x f i j b (by omega)]
          have : ¬ (1 ≤ b ∧ b < f) := by omega
          simp [this]
    · rw [rowBit_out _ W hl' b (by omega), specBit_high t x f i j b (by omega)]

/-! ### The vector `ones` -/

theorem succ_eq_or_one (w : Nat) (h0 : w.testBit 0 = false) (hw : w < 2 ^ 64) :
    (w + 1) % 2 ^ 64 = w ||| 1 := by
  have hev : w % 2 = 0 := by
    rw [Nat.testBit_zero] at h0
    simp only [decide_eq_false_iff_not] at h0
    omega
  have hlt : w + 1 < 2 ^ 64 := by
    have : (2 : Nat) ^ 64 = 18446744073709551616 := by norm_num
    omega
  rw [Nat.mod_eq_of_lt hlt]
  apply Nat.eq_of_testBit_eq
  intro c
  cases c with
  | zero =>
    rw [Nat.testBit_or, Nat.testBit_zero, Nat.testBit_zero, Nat.testBit_zero]
    have : (w + 1) % 2 = 1 := by omega
    simp [this]
  | succ c =>
    rw [Nat.testBit_or, Nat.testBit_succ, Nat.testBit_succ, Nat.testBit_succ]
    have e1 : (w + 1) / 2 = w / 2 := by omega
    rw [e1]
    simp

theorem ones_update_ok (ones : List Nat) (W a f : Nat) (hW : W = (f + 63) / 64)
    (hok : RowOK W ones (fun b => decide (b < a))) (ha : a < f) :
    RowOK W ((shift_words ones W).set (W - 1)
        (((shift_words ones W).getD (W - 1) 0 + 1) % 2 ^ 64))
      (fun b => decide (b < a + 1)) := by
  obtain ⟨hl, hbd, hbits⟩ := shift_words_ok ones W hok.1
  have hW1 : 1 ≤ W := by omega
  have hbit0 : ((shift_words ones W).getD (W - 1) 0).testBit 0 = false := by
    have := hbits 0
    rw [rowBit_eq _ W hl 0 (by omega)] at this
    simpa using this
  rw [succ_eq_or_one _ hbit0 (hbd _)]
  have hl' : ((shift_words ones W).set (W - 1)
      ((shift_words ones W).getD (W - 1) 0 ||| 1)).length = W := by
    rw [List.length_set]; exact hl
  refine ⟨hl', ?_, ?_⟩
  · intro k
    rw [getD_set]
    split
    · exact Nat.or_lt_two_pow (hbd _) (by norm_num)
    · exact hbd k
  · intro b
    beta_reduce
    by_cases hb : b < 64 * W
    · rw [rowBit_eq _ W hl' b hb, getD_set]
      have hsh := hbits b
      rw [rowBit_eq _ W hl b hb] at hsh
      beta_reduce at hsh
      rw [hok.2.2] at hsh
      beta_reduce at hsh
      by_cases hk : b / 64 = 0
      · have e : W - 1 - b / 64 = W - 1 := by omega
        rw [e] at hsh ⊢
        rw [if_pos ⟨rfl, by rw [hl]; omega⟩, Nat.testBit_or, hsh]
        by_cases hb0 : b = 0
        · subst hb0; simp
        · have h1 : Nat.testBit 1 (b % 64) = false := by
            rw [← Bool.not_eq_true, Nat.testBit_one_eq_true_iff_self_eq_zero]; omega
          rw [h1]
          have h2 : 1 ≤ b ∧ b < 64 * W := by omega
          simp only [h2, and_self, decide_True, Bool.true_and, Bool.or_false]
          congr 1
          apply propext
          constructor <;> intro h <;> omega
      · rw [if_neg (by omega), hsh]
        have h2 : 1 ≤ b ∧ b < 64 * W := by omega
        simp only [h2, and_self, decide_True, Bool.true_and]
        congr 1
        apply propext
        constructor <;> intro h <;> omega
    · rw [rowBit_out _ W hl' b (by omega)]
      have : ¬ (b < a + 1) := by omega
      simp [this]

theorem rowOK_congr (W : Nat) (row : List Nat) (P Q : Nat → Bool) (h : ∀ b, P b = Q b)
    (hok : RowOK W row P) : RowOK W row Q :=
  ⟨hok.1, hok.2.1, fun b => (hok.2.2 b).trans (h b)⟩

theorem rowOK_zero (W : Nat) (P : Nat → Bool) (h : ∀ b, P b = false) :
    RowOK W (List.replicate W 0) P := by
  refine ⟨by simp, ?_, ?_⟩
  · intro k
    rw [List.getD_eq_getElem?_getD, List.getElem?_replicate]
    split <;> simp
  · intro b
    rw [h b]
    unfold rowBit
    rw [List.getD_eq_getElem?_getD, List.getElem?_replicate]
    split <;> simp

/-! ### One cell of `flasm_hd` -/

theorem hd_cell_ones_ok (t x : List Nat) (f W n i j : Nat) (st : HdState)
    (hW : W = (f + 63) / 64) (hi : 1 ≤ i)
    (hinv : CellInv t x f W n i j st) :
    RowOK W (hd_ones f (init_limit f) i j st.ones) (fun b => decide (b < min i f)) := by
  obtain ⟨_, _, _, _, hones⟩ := hinv
  unfold hd_ones
  rw [init_limit_words, ← hW]
  by_cases hc : j = 0 ∧ i ≤ f
  · rw [if_pos hc]
    have h1 : RowOK W st.ones (fun b => decide (b < i - 1)) := by
      apply rowOK_congr W _ _ _ _ hones
      intro b
      simp only [hc.1, if_true]
      congr 1
      apply propext
      constructor <;> intro h <;> omega
    have h2 := ones_update_ok st.ones W (i - 1) f hW h1 (by omega)
    apply rowOK_congr W _ _ _ _ h2
    intro b
    congr 1
    apply propext
    constructor <;> intro h <;> omega
  · rw [if_neg hc]
    apply rowOK_congr W _ _ _ _ hones
    intro b
    congr 1
    apply propext
    by_cases hj : j = 0
    · simp only [hj, if_true]
      constructor <;> intro h <;> omega
    · simp only [hj, if_false]

theorem hd_cell_row_ok (t x : List Nat) (f W n i j : Nat) (st : HdState) (ones : List Nat)
    (hf : 1 ≤ f) (hW : W = (f + 63) / 64) (hi : 1 ≤ i) (hj : j ≤ n)
    (hinv : CellInv t x f W n i j st)
    (hones : RowOK W ones (fun b => decide (b < min i f))) :
    RowOK W (hd_row t x (init_limit f) (hd_prev i st) ones i j) (specBit t x f i j) := by
  obtain ⟨_, _, hprev, _, _⟩ := hinv
  by_cases hj0 : j = 0
  · subst hj0
    unfold hd_row
    simp only [if_true]
    apply rowOK_congr W _ _ _ _ hones
    intro b
    unfold specBit
    have : ¬ (b < i ∧ b < 0) := by omega
    simp only [this, if_false]
    by_cases h1 : b < f <;> by_cases h2 : b < i <;> simp [h1, h2]
  · exact hd_row_ok t x f W i j _ ones hf hW hi (by omega) (hprev (j - 1) (by omega))

theorem popcount_row (t x : List Nat) (f W i j : Nat) (row : List Nat)
    (hW : W = (f + 63) / 64) (hok : RowOK W row (specBit t x f i j))
    (hi : f ≤ i) (hj : f ≤ j) :
    popcount_words row W = ham t x f i j := by
  rw [popcount_words_rowOK row W _ f hok (by omega) (fun b hb => specBit_high t x f i j b hb)]
  exact cntFrom_specBit t x f i j hi hj

theorem hd_match_eq (t x : List Nat) (f max_error : Nat) (return_all : Bool) (W i j : Nat)
    (row : List Nat) (results : ResultTupleSet) (best : ResultTuple)
    (hW : W = (f + 63) / 64) (hok : RowOK W row (specBit t x f i j)) :
    hd_match f max_error return_all (init_limit f) i j row results best
      = ref_cell t x f max_error return_all i j (results, best) := by
  unfold hd_match ref_cell
  by_cases h : f ≤ j ∧ f ≤ i
  · simp only [h, and_self, if_true]
    rw [init_limit_words, ← hW, popcount_row t x f W i j row hW hok h.2 h.1]
  · simp only [h, if_false]

theorem hd_cell_step (t x : List Nat) (f max_error : Nat) (return_all : Bool)
    (W n i j : Nat) (st : HdState)
    (hf : 1 ≤ f) (hW : W = (f + 63) / 64) (hi : 1 ≤ i) (hj : j ≤ n)
    (hinv : CellInv t x f W n i j st) :
    CellInv t x f W n i (j + 1) (hd_cell t x f max_error return_all (init_limit f) i j st) ∧
    ((hd_cell t x f max_error return_all (init_limit f) i j st).results,
      (hd_cell t x f max_error return_all (init_limit f) i j st).best)
      = ref_cell t x f max_error return_all i j (st.results, st.best) := by
  have hones := hd_cell_ones_ok t x f W n i j st hW hi hinv
  have hrow := hd_cell_row_ok t x f W n i j st _ hf hW hi hj hinv hones
  obtain ⟨hcl, hpl, hprev, hcur, _⟩ := hinv
  have hones' : RowOK W (hd_ones f (init_limit f) i j st.ones)
      (fun b => decide (b < min (if j + 1 = 0 then i - 1 else i) f)) := by
    apply rowOK_congr W _ _ _ _ hones
    intro b; simp
  unfold hd_cell
  by_cases hpar : i % 2 = 0
  · simp only [hd_cur, hd_prev, hpar, if_true] at hcl hpl hprev hcur hrow
    simp only [hpar, if_true]
    have hget : (st.M1.set j (hd_row t x (init_limit f) st.M0
        (hd_ones f (init_limit f) i j st.ones) i j)).getD j []
        = hd_row t x (init_limit f) st.M0 (hd_ones f (init_limit f) i j st.ones) i j := by
      rw [getD_set_gen, if_pos ⟨rfl, by omega⟩]
    rw [hget, hd_match_eq t x f max_error return_all W i j _ _ _ hW hrow]
    refine ⟨⟨?_, ?_, ?_, ?_, hones'⟩, rfl⟩
    · simp only [hd_cur, hpar, if_true, List.length_set]; exact hcl
    · simp only [hd_prev, hpar, if_true]; exact hpl
    · simp only [hd_prev, hpar, if_true]; exact hprev
    · intro j' hj'
      simp only [hd_cur, hpar, if_true]
      rw [getD_set_gen]
      by_cases hjj : j = j'
      · subst hjj
        rw [if_pos ⟨rfl, by omega⟩]; exact hrow
      · rw [if_neg (by omega)]; exact hcur j' (by omega)
  · simp only [hd_cur, hd_prev, hpar, if_false] at hcl hpl hprev hcur hrow
    simp only [hpar, if_false]
    have hget : (st.M0.set j (hd_row t x (init_limit f) st.M1
        (hd_ones f (init_limit f) i j st.ones) i j)).getD j []
        = hd_row t x (init_limit f) st.M1 (hd_ones f (init_limit f) i j st.ones) i j := by
      rw [getD_set_gen, if_pos ⟨rfl, by omega⟩]
    rw [hget, hd_match_eq t x f max_error return_all W i j _ _ _ hW hrow]
    refine ⟨⟨?_, ?_, ?_, ?_, hones'⟩, rfl⟩
    · simp only [hd_cur, hpar, if_false, List.length_set]; exact hcl
    · simp only [hd_prev, hpar, if_false]; exact hpl
    · simp only [hd_prev, hpar, if_false]; exact hprev
    · intro j' hj'
      simp only [hd_cur, hpar, if_false]
      rw [getD_set_gen]
      by_cases hjj : j = j'
      · subst hjj
        rw [if_pos ⟨rfl, by omega⟩]; exact hrow
      · rw [if_neg (by omega)]; exact hcur j' (by omega)

theorem hd_loop_j_spec (t x : List Nat) (f max_error : Nat) (return_all : Bool)
    (W n i : Nat) (hf : 1 ≤ f) (hW : W = (f + 63) / 64) (hi : 1 ≤ i) :
    ∀ (cnt j : Nat) (st : HdState), j + cnt = n + 1 → CellInv t x f W n i j st →
      CellInv t x f W n i (n + 1)
        (hd_loop_j t x f max_error return_all (init_limit f) i cnt j st) ∧
      ((hd_loop_j t x f max_error return_all (init_limit f) i cnt j st).results,
        (hd_loop_j t x f max_error return_all (init_limit f) i cnt j st).best)
        = ref_loop_j t x f max_error return_all i cnt j (st.results, st.best) := by
  intro cnt
  induction cnt with
  | zero =>
    intro j st hj hinv
    have : j = n + 1 := by omega
    subst this
    exact ⟨hinv, rfl⟩
  | succ cnt ih =>
    intro j st hj hinv
    obtain ⟨h1, h2⟩ := hd_cell_step t x f max_error return_all W n i j st hf hW hi
      (by omega) hinv
    obtain ⟨h3, h4⟩ := ih (j + 1) _ (by omega) h1
    rw [hd_loop_j, ref_loop_j]
    refine ⟨h3, ?_⟩
    rw [h4, h2]

theorem cellInv_next_row (t x : List Nat) (f W n i : Nat) (st : HdState)
    (hinv : CellInv t x f W n i (n + 1) st) : CellInv t x f W n (i + 1) 0 st := by
  obtain ⟨hcl, hpl, _, hcur, hones⟩ := hinv
  have hcp : hd_prev (i + 1) st = hd_cur i st := by
    unfold hd_prev hd_cur
    by_cases h : i % 2 = 0
    · have : ¬ ((i + 1) % 2 = 0) := by omega
      simp [h, this]
    · have : (i + 1) % 2 = 0 := by omega
      simp [h, this]
  have hpc : hd_cur (i + 1) st = hd_prev i st := by
    unfold hd_prev hd_cur
    by_cases h : i % 2 = 0
    · have : ¬ ((i + 1) % 2 = 0) := by omega
      simp [h, this]
    · have : (i + 1) % 2 = 0 := by omega
      simp [h, this]
  refine ⟨by rw [hpc]; exact hpl, by rw [hcp]; exact hcl, ?_, ?_, ?_⟩
  · intro j' hj'
    rw [hcp, Nat.add_sub_cancel]
    exact hcur j' (by omega)
  · intro j' hj'; omega
  · apply rowOK_congr W _ _ _ _ hones
    intro b; simp

theorem cellInv_init (t x : List Nat) (f W n m : Nat) :
    CellInv t x f W n 1 0
      { ones := List.replicate W 0
        M0 := List.replicate (n + 1) (List.replicate W 0)
        M1 := List.replicate (n + 1) (List.replicate W 0)
        results := []
        best := ⟨0, 0, m⟩ } := by
  refine ⟨by simp [hd_cur], by simp [hd_prev], ?_, ?_, ?_⟩
  · intro j' hj'
    have h12 : ¬ (1 % 2 = 0) := by decide
    simp only [hd_prev, h12, if_false]
    rw [List.getD_eq_getElem?_getD, List.getElem?_replicate, if_pos (by omega),
      Option.getD_some]
    apply rowOK_zero
    intro b
    unfold specBit
    simp
  · intro j' hj'; omega
  · apply rowOK_zero
    intro b; simp

theorem hd_loop_i_spec (t x : List Nat) (f max_error : Nat) (return_all : Bool)
    (W n : Nat) (hf : 1 ≤ f) (hW : W = (f + 63) / 64) :
    ∀ (cnt i : Nat) (st : HdState), 1 ≤ i → CellInv t x f W n i 0 st →
      ((hd_loop_i t n x f max_error return_all (init_limit f) cnt i st).results,
        (hd_loop_i t n x f max_error return_all (init_limit f) cnt i st).best)
        = ref_loop_i t n x f max_error return_all cnt i (st.results, st.best) := by
  intro cnt
  induction cnt with
  | zero => intro i st _ _; rfl
  | succ cnt ih =>
    intro i st hi hinv
    obtain ⟨h1, h2⟩ := hd_loop_j_spec t x f max_error return_all W n i hf hW hi (n + 1) 0 st
      (by omega) hinv
    rw [hd_loop_i, ref_loop_i, ih (i + 1) _ (by omega) (cellInv_next_row t x f W n i _ h1), h2]

/-- The reference version of `flasm_hd`: the same loops with the error count of a cell
computed by direct comparison of the two windows. -/
theorem flasm_hd_eq_ref (t : List Nat) (n : Nat) (x : List Nat) (m f max_error : Nat)
    (return_all : Bool) (hf : 1 ≤ f) :
    flasm_hd t n x m f max_error return_all
      = (if !return_all ∧
            (ref_loop_i t n x f max_error return_all m 1 ([], ⟨0, 0, m⟩)).2.error ≠ m then
          ResultTupleSet.insert
            (ref_loop_i t n x f max_error return_all m 1 ([], ⟨0, 0, m⟩)).2
            (ref_loop_i t n x f max_error return_all m 1 ([], ⟨0, 0, m⟩)).1
        else (ref_loop_i t n x f max_error return_all m 1 ([], ⟨0, 0, m⟩)).1) := by
  have h := hd_loop_i_spec t x f max_error return_all ((f + 63) / 64) n hf rfl m 1 _
    (Nat.le_refl 1) (cellInv_init t x f ((f + 63) / 64) n m)
  unfold flasm_hd
  simp only [init_limit_words]
  rw [← h]

/-! ### The result multiset -/

theorem insert_perm (a : ResultTuple) (l : ResultTupleSet) :
    (ResultTupleSet.insert a l).Perm (a :: l) := by
  induction l with
  | nil => exact List.Perm.refl _
  | cons b rest ih =>
    rw [ResultTupleSet.insert]
    split
    · exact List.Perm.refl _
    · exact (List.Perm.cons b ih).trans (List.Perm.swap a b rest)

theorem insert_count (a r : ResultTuple) (l : ResultTupleSet) :
    (ResultTupleSet.insert a l).count r = l.count r + (if a = r then 1 else 0) := by
  rw [(insert_perm a l).count_eq, List.count_cons]
  simp

theorem mem_insert (a r : ResultTuple) (l : ResultTupleSet) :
    r ∈ ResultTupleSet.insert a l ↔ r = a ∨ r ∈ l := by
  rw [(insert_perm a l).mem_iff, List.mem_cons]

/-! ### The reference loops when every occurrence is reported -/

theorem ref_cell_all (t : List Nat) (n : Nat) (x : List Nat) (m f max_error i j : Nat)
    (rb : ResultTupleSet × ResultTuple) (hf : 1 ≤ f) (hi : 1 ≤ i) (him : i ≤ m) (hj : j ≤ n)
    (hinv : CountInv t n x m f max_error i j rb.1) :
    CountInv t n x m f max_error i (j + 1) (ref_cell t x f max_error true i j rb).1 ∧
    (ref_cell t x f max_error true i j rb).2 = rb.2 := by
  unfold ref_cell hd_record
  by_cases hc : f ≤ j ∧ f ≤ i
  · by_cases he : ham t x f i j ≤ max_error
    · simp only [hc, and_self, if_true, he]
      refine ⟨?_, trivial⟩
      intro r
      have hocc0 : Occurrence t n x m f max_error ⟨j - 1, i - 1, ham t x f i j⟩ := by
        refine ⟨by simp only []; omega, by simp only []; omega, by simp only []; omega,
          by simp only []; omega, ?_, he⟩
        simp only [ham]
        have e1 : i - 1 + 1 = i := by omega
        have e2 : j - 1 + 1 = j := by omega
        rw [e1, e2]
      have hnb0 : ¬ Before i j ⟨j - 1, i - 1, ham t x f i j⟩ := by
        unfold Before; simp only []; omega
      rw [insert_count]
      by_cases hr : (⟨j - 1, i - 1, ham t x f i j⟩ : ResultTuple) = r
      · subst hr
        rw [(hinv _).2 (fun h => hnb0 h.2)]
        refine ⟨fun _ => by simp, fun h => ?_⟩
        exfalso; apply h
        refine ⟨hocc0, ?_⟩
        unfold Before; simp only []; omega
      · simp only [hr, if_false, Nat.add_zero]
        have hiff : (Occurrence t n x m f max_error r ∧ Before i (j + 1) r)
            ↔ (Occurrence t n x m f max_error r ∧ Before i j r) := by
          constructor
          · rintro ⟨ho, hb⟩
            refine ⟨ho, ?_⟩
            unfold Before at hb ⊢
            rcases hb with hb | ⟨hb1, hb2⟩
            · exact Or.inl hb
            · by_cases hjt : r.pos_t + 1 < j
              · exact Or.inr ⟨hb1, hjt⟩
              · exfalso
                apply hr
                obtain ⟨_, _, _, _, h5, _⟩ := ho
                have e1 : r.pos_x = i - 1 := by omega
                have e2 : r.pos_t = j - 1 := by omega
                have e3 : r.error = ham t x f i j := by
                  rw [h5, ham]
                  have e1 : r.pos_x + 1 = i := by omega
                  have e2 : r.pos_t + 1 = j := by omega
                  rw [e1, e2]
                cases r
                simp only [] at e1 e2 e3
                rw [e1, e2, e3]
          · rintro ⟨ho, hb⟩
            refine ⟨ho, ?_⟩
            unfold Before at hb ⊢
            omega
        rw [hiff]
        exact hinv r
    · simp only [hc, and_self, if_true, he, if_false]
      refine ⟨?_, trivial⟩
      intro r
      have hiff : (Occurrence t n x m f max_error r ∧ Before i (j + 1) r)
          ↔ (Occurrence t n x m f max_error r ∧ Before i j r) := by
        constructor
        · rintro ⟨ho, hb⟩
          refine ⟨ho, ?_⟩
          unfold Before at hb ⊢
          rcases hb with hb | ⟨hb1, hb2⟩
          · exact Or.inl hb
          · by_cases hjt : r.pos_t + 1 < j
            · exact Or.inr ⟨hb1, hjt⟩
            · exfalso
              apply he
              obtain ⟨_, _, _, _, h5, h6⟩ := ho
              have e1 : r.pos_x + 1 = i := by omega
              have e2 : r.pos_t + 1 = j := by omega
              rw [e1, e2] at h5
              rw [ham, ← h5]; exact h6
        · rintro ⟨ho, hb⟩
          refine ⟨ho, ?_⟩
          unfold Before at hb ⊢
          omega
      rw [hiff]
      exact hinv r
  · simp only [hc, if_false]
    refine ⟨?_, trivial⟩
    intro r
    have hiff : (Occurrence t n x m f max_error r ∧ Before i (j + 1) r)
        ↔ (Occurrence t n x m f max_error r ∧ Before i j r) := by
      constructor
      · rintro ⟨ho, hb⟩
        refine ⟨ho, ?_⟩
        obtain ⟨h1, _, h3, _, _, _⟩ := ho
        unfold Before at hb ⊢
        omega
      · rintro ⟨ho, hb⟩
        refine ⟨ho, ?_⟩
        unfold Before at hb ⊢
        omega
    rw [hiff]
    exact hinv r

theorem ref_loop_j_all (t : List Nat) (n : Nat) (x : List Nat) (m f max_error i : Nat)
    (hf : 1 ≤ f) (hi : 1 ≤ i) (him : i ≤ m) :
    ∀ (cnt j : Nat) (rb : ResultTupleSet × ResultTuple), j + cnt = n + 1 →
      CountInv t n x m f max_error i j rb.1 →
      CountInv t n x m f max_error i (n + 1)
        (ref_loop_j t x f max_error true i cnt j rb).1 ∧
      (ref_loop_j t x f max_error true i cnt j rb).2 = rb.2 := by
  intro cnt
  induction cnt with
  | zero =>
    intro j rb hj hinv
    have : j = n + 1 := by omega
    subst this
    exact ⟨hinv, rfl⟩
  | succ cnt ih =>
    intro j rb hj hinv
    obtain ⟨h1, h2⟩ := ref_cell_all t n x m f max_error i j rb hf hi him (by omega) hinv
    obtain ⟨h3, h4⟩ := ih (j + 1) _ (by omega) h1
    rw [ref_loop_j]
    exact ⟨h3, h4.trans h2⟩

theorem countInv_next_row (t : List Nat) (n : Nat) (x : List Nat) (m f max_error i : Nat)
    (l : ResultTupleSet) (hinv : CountInv t n x m f max_error i (n + 1) l) :
    CountInv t n x m f max_error (i + 1) 0 l := by
  intro r
  have hiff : (Occurrence t n x m f max_error r ∧ Before (i + 1) 0 r)
      ↔ (Occurrence t n x m f max_error r ∧ Before i (n + 1) r) := by
    constructor
    · rintro ⟨ho, hb⟩
      refine ⟨ho, ?_⟩
      obtain ⟨_, _, _, h4, _, _⟩ := ho
      unfold Before at hb ⊢
      omega
    · rintro ⟨ho, hb⟩
      refine ⟨ho, ?_⟩
      unfold Before at hb ⊢
      omega
  rw [hiff]
  exact hinv r

theorem ref_loop_i_all (t : List Nat) (n : Nat) (x : List Nat) (m f max_error : Nat)
    (hf : 1 ≤ f) :
    ∀ (cnt i : Nat) (rb : ResultTupleSet × ResultTuple), 1 ≤ i → i + cnt = m + 1 →
      CountInv t n x m f max_error i 0 rb.1 →
      CountInv t n x m f max_error (m + 1) 0
        (ref_loop_i t n x f max_error true cnt i rb).1 ∧
      (ref_loop_i t n x f max_error true cnt i rb).2 = rb.2 := by
  intro cnt
  induction cnt with
  | zero =>
    intro i rb _ hi hinv
    have : i = m + 1 := by omega
    subst this
    exact ⟨hinv, rfl⟩
  | succ cnt ih =>
    intro i rb hi1 hi hinv
    obtain ⟨h1, h2⟩ := ref_loop_j_all t n x m f max_error i hf hi1 (by omega) (n + 1) 0 rb
      (by omega) hinv
    obtain ⟨h3, h4⟩ := ih (i + 1) _ (by omega) (by omega)
      (countInv_next_row t n x m f max_error i _ h1)
    rw [ref_loop_i]
    exact ⟨h3, h4.trans h2⟩

theorem flasm_hd_all_count (t : List Nat) (n : Nat) (x : List Nat) (m f max_error : Nat)
    (hf : 1 ≤ f) (r : ResultTuple) :
    (Occurrence t n x m f max_error r → (flasm_hd t n x m f max_error true).count r = 1) ∧
    (¬ Occurrence t n x m f max_error r → (flasm_hd t n x m f max_error true).count r = 0) := by
  rw [flasm_hd_eq_ref t n x m f max_error true hf]
  have h0 : CountInv t n x m f max_error 1 0 ([] : ResultTupleSet) := by
    intro r
    refine ⟨?_, fun _ => rfl⟩
    rintro ⟨_, hb⟩
    unfold Before at hb
    omega
  obtain ⟨h1, _⟩ := ref_loop_i_all t n x m f max_error hf m 1 ([], ⟨0, 0, m⟩)
    (Nat.le_refl 1) (by omega) h0
  simp only [Bool.not_true, Bool.false_eq_true, false_and, if_false]
  have hiff : (Occurrence t n x m f max_error r ∧ Before (m + 1) 0 r)
      ↔ Occurrence t n x m f max_error r := by
    constructor
    · exact fun h => h.1
    · intro ho
      refine ⟨ho, ?_⟩
      obtain ⟨_, h2, _, _, _, _⟩ := ho
      unfold Before
      omega
  have := h1 r
  rw [hiff] at this
  exact this

/-! ### The comparator and the order of the results -/

theorem comp_iff (a b : ResultTuple) :
    ResultTuple.comp a b = true ↔
      (a.error < b.error ∨ (a.error = b.error ∧
        (a.pos_t < b.pos_t ∨ (a.pos_t = b.pos_t ∧ a.pos_x < b.pos_x)))) := by
  unfold ResultTuple.comp
  simp only [Bool.or_eq_true, Bool.and_eq_true, decide_eq_true_eq]
  constructor
  · rintro ((h | ⟨h1, h2⟩) | ⟨⟨h1, h2⟩, h3⟩)
    · exact Or.inl h
    · exact Or.inr ⟨h1, Or.inl h2⟩
    · exact Or.inr ⟨h1, Or.inr ⟨h2, h3⟩⟩
  · rintro (h | ⟨h1, h2 | ⟨h2, h3⟩⟩)
    · exact Or.inl (Or.inl h)
    · exact Or.inl (Or.inr ⟨h1, h2⟩)
    · exact Or.inr ⟨⟨h1, h2⟩, h3⟩

theorem comp_irrefl (a : ResultTuple) : ResultTuple.comp a a = false := by
  rw [← Bool.not_eq_true, comp_iff]
  omega

theorem comp_trans (a b c : ResultTuple) (h1 : ResultTuple.comp a b = true)
    (h2 : ResultTuple.comp b c = true) : ResultTuple.comp a c = true := by
  rw [comp_iff] at h1 h2 ⊢
  omega

theorem comp_total (a b : ResultTuple) (h : a ≠ b) :
    ResultTuple.comp a b = true ∨ ResultTuple.comp b a = true := by
  rw [comp_iff, comp_iff]
  have : a.error ≠ b.error ∨ a.pos_t ≠ b.pos_t ∨ a.pos_x ≠ b.pos_x := by
    by_contra hc
    apply h
    cases a; cases b
    simp only [] at hc
    simp only [ResultTuple.mk.injEq]
    omega
  omega

theorem le_of_comp (a b : ResultTuple) (h : ResultTuple.comp a b = true) :
    ResultTuple.le a b := by
  rw [comp_iff] at h
  unfold ResultTuple.le
  omega

theorem le_of_not_comp (a b : ResultTuple) (h : ¬ ResultTuple.comp a b = true) :
    ResultTuple.le b a := by
  rw [comp_iff] at h
  unfold ResultTuple.le
  omega

theorem le_trans' (a b c : ResultTuple) (h1 : ResultTuple.le a b) (h2 : ResultTuple.le b c) :
    ResultTuple.le a c := by
  unfold ResultTuple.le at h1 h2 ⊢
  omega

theorem insert_sorted (a : ResultTuple) (l : ResultTupleSet)
    (h : l.Pairwise ResultTuple.le) : (ResultTupleSet.insert a l).Pairwise ResultTuple.le := by
  induction l with
  | nil => simp [ResultTupleSet.insert]
  | cons b rest ih =>
    rw [List.pairwise_cons] at h
    rw [ResultTupleSet.insert]
    by_cases hc : ResultTuple.comp a b = true
    · rw [if_pos hc, List.pairwise_cons]
      refine ⟨?_, List.pairwise_cons.mpr h⟩
      intro c hcm
      rcases List.mem_cons.mp hcm with rfl | hcm
      · exact le_of_comp _ _ hc
      · exact le_trans' _ _ _ (le_of_comp _ _ hc) (h.1 c hcm)
    · rw [if_neg hc, List.pairwise_cons]
      refine ⟨?_, ih h.2⟩
      intro c hcm
      rcases (mem_insert a c rest).mp hcm with rfl | hcm
      · exact le_of_not_comp _ _ hc
      · exact h.1 c hcm

theorem hd_record_sorted (max_error : Nat) (return_all : Bool) (i j err : Nat)
    (results : ResultTupleSet) (best : ResultTuple) (h : results.Pairwise ResultTuple.le) :
    (hd_record max_error return_all i j err results best).1.Pairwise ResultTuple.le := by
  unfold hd_record
  split
  · split
    · exact insert_sorted _ _ h
    · split <;> exact h
  · exact h

theorem ref_cell_sorted (t x : List Nat) (f max_error : Nat) (return_all : Bool) (i j : Nat)
    (rb : ResultTupleSet × ResultTuple) (h : rb.1.Pairwise ResultTuple.le) :
    (ref_cell t x f max_error return_all i j rb).1.Pairwise ResultTuple.le := by
  unfold ref_cell
  split
  · exact hd_record_sorted _ _ _ _ _ _ _ h
  · exact h

theorem ref_loop_j_sorted (t x : List Nat) (f max_error : Nat) (return_all : Bool) (i : Nat) :
    ∀ (cnt j : Nat) (rb : ResultTupleSet × ResultTuple), rb.1.Pairwise ResultTuple.le →
      (ref_loop_j t x f max_error return_all i cnt j rb).1.Pairwise ResultTuple.le := by
  intro cnt
  induction cnt with
  | zero => intro j rb h; exact h
  | succ cnt ih =>
    intro j rb h
    rw [ref_loop_j]
    exact ih _ _ (ref_cell_sorted t x f max_error return_all i j rb h)

theorem ref_loop_i_sorted (t : List Nat) (n : Nat) (x : List Nat) (f max_error : Nat)
    (return_all : Bool) :
    ∀ (cnt i : Nat) (rb : ResultTupleSet × ResultTuple), rb.1.Pairwise ResultTuple.le →
      (ref_loop_i t n x f max_error return_all cnt i rb).1.Pairwise ResultTuple.le := by
  intro cnt
  induction cnt with
  | zero => intro i rb h; exact h
  | succ cnt ih =>
    intro i rb h
    rw [ref_loop_i]
    exact ih _ _ (ref_loop_j_sorted t x f max_error return_all i _ _ rb h)

theorem hd_cell_sorted (t x : List Nat) (f max_error : Nat) (return_all : Bool) (lim : Limit)
    (i j : Nat) (st : HdState) (h : st.results.Pairwise ResultTuple.le) :
    (hd_cell t x f max_error return_all lim i j st).results.Pairwise ResultTuple.le := by
  have hm : ∀ row, (hd_match f max_error return_all lim i j row st.results
      st.best).1.Pairwise ResultTuple.le := by
    intro row
    unfold hd_match
    split
    · exact hd_record_sorted _ _ _ _ _ _ _ h
    · exact h
  unfold hd_cell
  split
  · exact hm _
  · exact hm _

theorem hd_loop_j_sorted (t x : List Nat) (f max_error : Nat) (return_all : Bool)
    (lim : Limit) (i : Nat) :
    ∀ (cnt j : Nat) (st : HdState), st.results.Pairwise ResultTuple.le →
      (hd_loop_j t x f max_error return_all lim i cnt j st).results.Pairwise
        ResultTuple.le := by
  intro cnt
  induction cnt with
  | zero => intro j st h; exact h
  | succ cnt ih =>
    intro j st h
    rw [hd_loop_j]
    exact ih _ _ (hd_cell_sorted t x f max_error return_all lim i j st h)

theorem hd_loop_i_sorted (t : List Nat) (n : Nat) (x : List Nat) (f max_error : Nat)
    (return_all : Bool) (lim : Limit) :
    ∀ (cnt i : Nat) (st : HdState), st.results.Pairwise ResultTuple.le →
      (hd_loop_i t n x f max_error return_all lim cnt i st).results.Pairwise
        ResultTuple.le := by
  intro cnt
  induction cnt with
  | zero => intro i st h; exact h
  | succ cnt ih =>
    intro i st h
    rw [hd_loop_i]
    exact ih _ _ (hd_loop_j_sorted t x f max_error return_all lim i _ _ st h)

theorem ed_hits_sorted (return_all : Bool) (i f : Nat) :
    ∀ (hits : List (Nat × Int)) (rb : ResultTupleSet × ResultTuple),
      rb.1.Pairwise ResultTuple.le →
      (ed_hits return_all i f hits rb).1.Pairwise ResultTuple.le := by
  intro hits
  induction hits with
  | nil => intro rb h; exact h
  | cons hit rest ih =>
    intro rb h
    rw [ed_hits]
    apply ih
    split
    · exact insert_sorted _ _ h
    · split <;> exact h

theorem ed_loop_sorted (find : List Nat → List Nat → Int → List (Nat × Int))
    (haystack x : List Nat) (f max_error : Nat) (return_all : Bool) :
    ∀ (cnt i : Nat) (rb : ResultTupleSet × ResultTuple), rb.1.Pairwise ResultTuple.le →
      (ed_loop find haystack x f max_error return_all cnt i rb).1.Pairwise ResultTuple.le := by
  intro cnt
  induction cnt with
  | zero => intro i rb h; exact h
  | succ cnt ih =>
    intro i rb h
    rw [ed_loop]
    exact ih _ _ (ed_hits_sorted return_all i f _ rb h)

/-! ### The reference loops when only the best occurrence is kept -/

theorem ref_cell_best (t : List Nat) (n : Nat) (x : List Nat) (m f max_error i j : Nat)
    (rb : ResultTupleSet × ResultTuple) (hf : 1 ≤ f) (him : i ≤ m) (hj : j ≤ n)
    (h : rb.1 = [] ∧ (rb.2.error ≠ m → Occurrence t n x m f max_error rb.2)) :
    (ref_cell t x f max_error false i j rb).1 = [] ∧
    ((ref_cell t x f max_error false i j rb).2.error ≠ m →
      Occurrence t n x m f max_error (ref_cell t x f max_error false i j rb).2) := by
  unfold ref_cell hd_record
  by_cases hc : f ≤ j ∧ f ≤ i
  · by_cases he : ham t x f i j ≤ max_error
    · by_cases hb : ham t x f i j < rb.2.error
      · simp only [hc, and_self, if_true, he, hb, Bool.false_eq_true, if_false]
        refine ⟨h.1, fun _ => ?_⟩
        refine ⟨by simp only []; omega, by simp only []; omega, by simp only []; omega,
          by simp only []; omega, ?_, he⟩
        simp only [ham]
        have e1 : i - 1 + 1 = i := by omega
        have e2 : j - 1 + 1 = j := by omega
        rw [e1, e2]
      · simp only [hc, and_self, if_true, he, hb, Bool.false_eq_true, if_false]
        exact h
    · simp only [hc, and_self, if_true, he, if_false]
      exact h
  · simp only [hc, if_false]
    exact h

theorem ref_loop_j_best (t : List Nat) (n : Nat) (x : List Nat) (m f max_error i : Nat)
    (hf : 1 ≤ f) (him : i ≤ m) :
    ∀ (cnt j : Nat) (rb : ResultTupleSet × ResultTuple), j + cnt = n + 1 →
      (rb.1 = [] ∧ (rb.2.error ≠ m → Occurrence t n x m f max_error rb.2)) →
      (ref_loop_j t x f max_error false i cnt j rb).1 = [] ∧
      ((ref_loop_j t x f max_error false i cnt j rb).2.error ≠ m →
        Occurrence t n x m f max_error (ref_loop_j t x f max_error false i cnt j rb).2) := by
  intro cnt
  induction cnt with
  | zero => intro j rb _ h; exact h
  | succ cnt ih =>
    intro j rb hj h
    rw [ref_loop_j]
    exact ih (j + 1) _ (by omega)
      (ref_cell_best t n x m f max_error i j rb hf him (by omega) h)

theorem ref_loop_i_best (t : List Nat) (n : Nat) (x : List Nat) (m f max_error : Nat)
    (hf : 1 ≤ f) :
    ∀ (cnt i : Nat) (rb : ResultTupleSet × ResultTuple), i + cnt = m + 1 →
      (rb.1 = [] ∧ (rb.2.error ≠ m → Occurrence t n x m f max_error rb.2)) →
      (ref_loop_i t n x f max_error false cnt i rb).1 = [] ∧
      ((ref_loop_i t n x f max_error false cnt i rb).2.error ≠ m →
        Occurrence t n x m f max_error (ref_loop_i t n x f max_error false cnt i rb).2) := by
  intro cnt
  induction cnt with
  | zero => intro i rb _ h; exact h
  | succ cnt ih =>
    intro i rb hi h
    rw [ref_loop_i]
    exact ih (i + 1) _ (by omega)
      (ref_loop_j_best t n x m f max_error i hf (by omega) (n + 1) 0 rb (by omega) h)

theorem flasm_hd_mem_occurrence (t : List Nat) (n : Nat) (x : List Nat)
    (m f max_error : Nat) (return_all : Bool) (hf : 1 ≤ f) (r : ResultTuple)
    (hr : r ∈ flasm_hd t n x m f max_error return_all) :
    Occurrence t n x m f max_error r := by
  cases return_all with
  | true =>
    by_contra hno
    have := (flasm_hd_all_count t n x m f max_error hf r).2 hno
    exact (List.count_eq_zero.mp this) hr
  | false =>
    rw [flasm_hd_eq_ref t n x m f max_error false hf] at hr
    obtain ⟨h1, h2⟩ := ref_loop_i_best t n x m f max_error hf m 1 ([], ⟨0, 0, m⟩)
      (by omega) ⟨rfl, fun h => absurd rfl h⟩
    rw [h1] at hr
    by_cases hb : (ref_loop_i t n x f max_error false m 1 ([], ⟨0, 0, m⟩)).2.error ≠ m
    · rw [if_pos ⟨rfl, hb⟩, ResultTupleSet.insert, List.mem_singleton] at hr
      rw [hr]
      exact h2 hb
    · rw [if_neg (fun h => hb h.2)] at hr
      cases hr

/-- C7: every tuple `(pos_t, pos_x, error)` in the result of `flasm_hd`, for either value of
`return_all` and any factor length `f` with `1 <= f <= m` (one word or several), has
`f - 1 <= pos_t < n`, `f - 1 <= pos_x < m`, `error <= max_error`, and `error` is the number
of indices `d < f` at which the factor ending at `pos_x` and the text window ending at
`pos_t` differ. -/
theorem flasm_hd_tuples_sound (t x : List Nat) (f max_error : Nat) (return_all : Bool)
    (hf1 : 1 ≤ f) (_hfm : f ≤ x.length) (r : ResultTuple)
    (hr : r ∈ flasm_hd t t.length x x.length f max_error return_all) :
    f - 1 ≤ r.pos_t ∧ r.pos_t < t.length ∧ f - 1 ≤ r.pos_x ∧ r.pos_x < x.length ∧
    r.error ≤ max_error ∧
    r.error = ((List.range f).filter (fun d =>
      decide (x.getD (r.pos_x + 1 - f + d) 0 ≠ t.getD (r.pos_t + 1 - f + d) 0))).length := by
  obtain ⟨h1, h2, h3, h4, h5, h6⟩ :=
    flasm_hd_mem_occurrence t t.length x x.length f max_error return_all hf1 r hr
  refine ⟨by omega, by omega, by omega, by omega, h6, ?_⟩
  rw [h5, mismatches]
  simp only [getD_drop]

/-- Check of C7 on the first 19 symbols of the text of `main.cpp` and the pattern `Minsk`,
with `f = 5`, `max_error = 1` and `return_all = false`: the tuple `(18, 4, 1)` is reported
and is sound. -/
theorem flasm_hd_tuples_sound_witness :
    5 - 1 ≤ 18 ∧ 18 < (main_data.take 19).length ∧ 5 - 1 ≤ 4 ∧ 4 < main_search.length ∧
    1 ≤ 1 ∧
    1 = ((List.range 5).filter (fun d =>
      decide (main_search.getD (4 + 1 - 5 + d) 0
        ≠ (main_data.take 19).getD (18 + 1 - 5 + d) 0))).length :=
  flasm_hd_tuples_sound (main_data.take 19) main_search 5 1 false
    (by decide) (by decide) ⟨18, 4, 1⟩ (by decide)

/-- C8: with `return_all = true` and `1 <= f <= m`, the result of `flasm_hd` holds exactly
once every tuple `(j - 1, i - 1, e)` such that `f <= i <= m`, `f <= j <= n` and the windows
`x[i-f..i)` and `t[j-f..j)` are at Hamming distance `e <= max_error`, and holds no other
tuple. -/
theorem flasm_hd_return_all_exact (t x : List Nat) (f max_error : Nat)
    (hf1 : 1 ≤ f) (_hfm : f ≤ x.length) (r : ResultTuple) :
    ((f ≤ r.pos_x + 1 ∧ r.pos_x + 1 ≤ x.length ∧ f ≤ r.pos_t + 1 ∧ r.pos_t + 1 ≤ t.length ∧
        r.error = mismatches (x.drop (r.pos_x + 1 - f)) (t.drop (r.pos_t + 1 - f)) f ∧
        r.error ≤ max_error) →
      (flasm_hd t t.length x x.length f max_error true).count r = 1) ∧
    (¬ (f ≤ r.pos_x + 1 ∧ r.pos_x + 1 ≤ x.length ∧ f ≤ r.pos_t + 1 ∧ r.pos_t + 1 ≤ t.length ∧
        r.error = mismatches (x.drop (r.pos_x + 1 - f)) (t.drop (r.pos_t + 1 - f)) f ∧
        r.error ≤ max_error) →
      (flasm_hd t t.length x x.length f max_error true).count r = 0) :=
  flasm_hd_all_count t t.length x x.length f max_error hf1 r

/-- Check of C8 on the data of `main.cpp`: with the pattern `Minsk`, `f = 5` and
`max_error = 1` the tuple `(18, 4, 1)` is in the result exactly once. -/
theorem flasm_hd_return_all_exact_witness :
    (flasm_hd main_data main_data.length main_search main_search.length 5 1 true).count
      ⟨18, 4, 1⟩ = 1 :=
  (flasm_hd_return_all_exact main_data main_search 5 1 (by decide) (by decide)
    ⟨18, 4, 1⟩).1 (by decide)

/-- C9, the code at the failing input: text `b`, pattern `a`, `f = 1`, `max_error = 1`. The
only pair of windows is at distance `1 <= max_error`; it is reported when
`return_all = true` and lost when `return_all = false`, because its error equals the
initial value `m` of `best.error`. -/
theorem flasm_hd_best_lost_at_error_m :
    flasm_hd [98] 1 [97] 1 1 1 true = [⟨0, 0, 1⟩] ∧ flasm_hd [98] 1 [97] 1 1 1 false = [] := by
  decide

/-- C10: the comparator of `ResultTuple` is the strict lexicographic order on
`(error, pos_t, pos_x)`: irreflexive, transitive, and total on distinct tuples. Every result
of `flasm_hd` and of `flasm_ed` is in non-decreasing `(error, pos_t, pos_x)` order, and
inserting a tuple into a multiset that holds it already adds one more copy. -/
theorem resultTuple_order_and_multiset :
    (∀ a b : ResultTuple, ResultTuple.comp a b = true ↔
      (a.error < b.error ∨ (a.error = b.error ∧
        (a.pos_t < b.pos_t ∨ (a.pos_t = b.pos_t ∧ a.pos_x < b.pos_x))))) ∧
    (∀ a : ResultTuple, ResultTuple.comp a a = false) ∧
    (∀ a b c : ResultTuple, ResultTuple.comp a b = true → ResultTuple.comp b c = true →
      ResultTuple.comp a c = true) ∧
    (∀ a b : ResultTuple, a ≠ b → ResultTuple.comp a b = true ∨ ResultTuple.comp b a = true) ∧
    (∀ (t : List Nat) (n : Nat) (x : List Nat) (m f max_error : Nat) (return_all : Bool),
      (flasm_hd t n x m f max_error return_all).Pairwise ResultTuple.le) ∧
    (∀ (find : List Nat → List Nat → Int → List (Nat × Int)) (t : List Nat) (n : Nat)
      (x : List Nat) (m f max_error : Nat) (return_all : Bool) (l : ResultTupleSet),
      flasm_ed find t n x m f max_error return_all = some l → l.Pairwise ResultTuple.le) ∧
    (∀ (a : ResultTuple) (l : ResultTupleSet),
      (ResultTupleSet.insert a l).count a = l.count a + 1 ∧
      (ResultTupleSet.insert a l).length = l.length + 1) := by
  refine ⟨comp_iff, comp_irrefl, comp_trans, comp_total, ?_, ?_, ?_⟩
  · intro t n x m f max_error return_all
    unfold flasm_hd
    have h := hd_loop_i_sorted t n x f max_error return_all (init_limit f) m 1
      { ones := List.replicate (init_limit f).words 0,
        M0 := List.replicate (n + 1) (List.replicate (init_limit f).words 0),
        M1 := List.replicate (n + 1) (List.replicate (init_limit f).words 0),
        results := [],
        best := ⟨0, 0, m⟩ } List.Pairwise.nil
    simp only []
    split
    · exact insert_sorted _ _ h
    · exact h
  · intro find t n x m f max_error return_all l hl
    unfold flasm_ed at hl
    split at hl
    · cases hl
    · have h := ed_loop_sorted find (cstring t) x f max_error return_all (m + 1 - f) 0
        ([], ⟨0, 0, m⟩) List.Pairwise.nil
      simp only [Option.some.injEq] at hl
      rw [← hl]
      split
      · exact insert_sorted _ _ h
      · exact h
  · intro a l
    refine ⟨?_, ?_⟩
    · rw [insert_count]; simp
    · rw [(insert_perm a l).length_eq]; rfl

/-! ### The q-gram filter -/

theorem scan_loop_sound (text pattern T1 : List Nat) (k q : Nat) (mismatch : Bool)
    (tables : List Nat → Nat × Nat) :
    ∀ (fuel s p : Nat),
      scan_loop text pattern T1 k q mismatch tables fuel s = some p → p ≠ text.length →
      (if mismatch then validate_hamming (text.drop p) pattern k pattern.length
        else validate_levenshtein (text.drop p) pattern k pattern.length) = true := by
  intro fuel
  induction fuel with
  | zero => intro s p h; simp [scan_loop] at h
  | succ fuel ih =>
    intro s p h hp
    rw [scan_loop] at h
    split at h
    · simp only [] at h
      split at h
      · cases h
      · rename_i hchk
        simp only [Option.some.injEq] at h
        subst h
        split at hchk
        · split at hchk
          · cases hchk
          · split at hchk
            · rename_i hm
              simp only [Option.some.injEq] at hchk
              simp only [hm, if_true]
              exact hchk
            · rename_i hm
              simp only [Option.some.injEq] at hchk
              simp only [hm, if_false]
              exact hchk
        · cases hchk
      · split at h
        · simp only [Option.some.injEq] at h
          exact absurd h.symm hp
        · exact ih _ p h hp
    · simp only [Option.some.injEq] at h
      exact absurd h.symm hp

/-- C5: whenever `fuzzy_search` returns a position other than `last`, the validator selected
by the flag (`validate_hamming` when `mismatch` is true, `validate_levenshtein` otherwise)
returns true at that position of the original text, with the same pattern, `k` and `m`. -/
theorem fuzzy_search_result_validated (srt : List (Nat × Nat) → List (Nat × Nat))
    (text pattern : List Nat) (k : Nat) (mismatch : Bool) (p : Nat)
    (h : fuzzy_search srt text pattern k mismatch = some p) (hp : p ≠ text.length) :
    (if mismatch then validate_hamming (text.drop p) pattern k pattern.length
      else validate_levenshtein (text.drop p) pattern k pattern.length) = true := by
  cases mismatch with
  | true =>
    simp only [fuzzy_search, if_true] at h
    split at h
    · exact Option.noConfusion h
    · split at h
      · exact Option.noConfusion h
      · exact scan_loop_sound text pattern _ k 6 true _ _ _ p h hp
  | false =>
    simp only [fuzzy_search, Bool.false_eq_true, if_false] at h
    split at h
    · exact Option.noConfusion h
    · split at h
      · exact Option.noConfusion h
      · exact scan_loop_sound text pattern _ k 6 false _ _ _ p h hp

/-- Check of C5: in the text `abcdefghijklmnopa` the pattern `abcdefghijklmnop` is found at
offset `0` with `k = 0` in Hamming mode, and `validate_hamming` passes there. -/
theorem fuzzy_search_result_validated_witness :
    (if true then validate_hamming ((alphabet16 ++ [97]).drop 0) alphabet16 0 alphabet16.length
      else validate_levenshtein ((alphabet16 ++ [97]).drop 0) alphabet16 0 alphabet16.length)
      = true :=
  fuzzy_search_result_validated sort_by_count (alphabet16 ++ [97]) alphabet16 0 true 0
    (by decide) (by decide)

/-- C6, the code at the failing input: text and pattern both `abcdefghijklmnop`, `k = 0`,
Hamming mode. The preconditions hold (`m = 16 >= 6`, 16 distinct symbols), the validator
passes at offset `0`, and `fuzzy_search` returns `last` (offset `16`): the scan runs only
while more than `q` symbols remain after the cursor, so the gram that ends at the last text
symbol is never looked at. -/
theorem fuzzy_search_misses_match_at_end :
    validate_hamming (alphabet16.drop 0) alphabet16 0 alphabet16.length = true ∧
    fuzzy_search sort_by_count alphabet16 alphabet16 0 true = some alphabet16.length := by
  decide

/-! ### The Levenshtein validator and its matrix -/

theorem lev_matrix_succ_succ (T P : List Nat) (i j : Nat) :
    lev_matrix T P (i + 1) (j + 1)
      = min (lev_matrix T P i (j + 1) + 1)
          (min (lev_matrix T P (i + 1) j + 1)
            (lev_matrix T P i j + (if T.getD i 0 = P.getD j 0 then 0 else 1))) := by
  rw [lev_matrix, lev_next]

theorem lev_matrix_zero_left (T P : List Nat) (j : Nat) : lev_matrix T P 0 j = 0 := rfl

theorem lev_matrix_zero_right (T P : List Nat) (i : Nat) : lev_matrix T P i 0 = 0 := by
  cases i with
  | zero => rfl
  | succ i => rw [lev_matrix, lev_next]

theorem lev_inner_spec (T P : List Nat) (k m i : Nat) (prev : List Nat)
    (hprev : ∀ j', j' ≤ m → prev.getD j' 0 = lev_matrix T P i j') :
    ∀ (cnt j : Nat) (curr : List Nat), 1 ≤ j → j + cnt = m + 1 → curr.length = m + 1 →
      (∀ j', j' < j → curr.getD j' 0 = lev_matrix T P (i + 1) j') →
      ((∃ j', j ≤ j' ∧ j' ≤ m ∧ i + 1 = j' + k ∧ k < lev_matrix T P (i + 1) j') ∧
        lev_inner (T.getD i 0) P k (i + 1) prev cnt j curr = none) ∨
      ((∀ j', j ≤ j' → j' ≤ m → i + 1 = j' + k → lev_matrix T P (i + 1) j' ≤ k) ∧
        ∃ curr', lev_inner (T.getD i 0) P k (i + 1) prev cnt j curr = some curr' ∧
          curr'.length = m + 1 ∧ ∀ j', j' ≤ m → curr'.getD j' 0 = lev_matrix T P (i + 1) j') := by
  intro cnt
  induction cnt with
  | zero =>
    intro j curr _ hj hlen hcur
    right
    refine ⟨?_, curr, rfl, hlen, ?_⟩
    · intro j' h1 h2; omega
    · intro j' hj'; exact hcur j' (by omega)
  | succ cnt ih =>
    intro j curr hj1 hj hlen hcur
    obtain ⟨j0, rfl⟩ : ∃ j0, j = j0 + 1 := ⟨j - 1, by omega⟩
    have hval : min (prev.getD (j0 + 1) 0 + 1)
        (min (curr.getD (j0 + 1 - 1) 0 + 1)
          (prev.getD (j0 + 1 - 1) 0 + (if T.getD i 0 = P.getD (j0 + 1 - 1) 0 then 0 else 1)))
        = lev_matrix T P (i + 1) (j0 + 1) := by
      rw [lev_matrix_succ_succ, Nat.add_sub_cancel, hprev (j0 + 1) (by omega),
        hprev j0 (by omega), hcur j0 (by omega)]
    have hget : (curr.set (j0 + 1) (lev_matrix T P (i + 1) (j0 + 1))).getD (j0 + 1) 0
        = lev_matrix T P (i + 1) (j0 + 1) := by
      rw [getD_set, if_pos ⟨rfl, by omega⟩]
    rw [lev_inner, hval, hget]
    by_cases hchk : i + 1 = j0 + 1 + k ∧ lev_matrix T P (i + 1) (j0 + 1) > k
    · left
      rw [if_pos hchk]
      exact ⟨⟨j0 + 1, Nat.le_refl _, by omega, hchk.1, hchk.2⟩, rfl⟩
    · rw [if_neg hchk]
      have hcur' : ∀ j', j' < j0 + 1 + 1 →
          (curr.set (j0 + 1) (lev_matrix T P (i + 1) (j0 + 1))).getD j' 0
            = lev_matrix T P (i + 1) j' := by
        intro j' hj'
        rw [getD_set]
        by_cases hjj : j0 + 1 = j'
        · rw [if_pos ⟨hjj, by omega⟩, hjj]
        · rw [if_neg (fun h => hjj h.1)]
          exact hcur j' (by omega)
      rcases ih (j0 + 1 + 1) _ (by omega) (by omega) (by rw [List.length_set]; exact hlen)
          hcur' with ⟨⟨j', h1, h2, h3, h4⟩, h5⟩ | ⟨h1, h2⟩
      · left
        exact ⟨⟨j', by omega, h2, h3, h4⟩, h5⟩
      · right
        refine ⟨?_, h2⟩
        intro j' hj1' hj2' hj3'
        by_cases hjj : j' = j0 + 1
        · subst hjj
          by_contra hgt
          exact hchk ⟨hj3', by omega⟩
        · exact h1 j' (by omega) hj2' hj3'

theorem lev_outer_spec (T P : List Nat) (k m : Nat) :
    ∀ (cnt i : Nat) (curr prev : List Nat), i + cnt = m + k →
      curr.length = m + 1 → curr.getD 0 0 = 0 → prev.length = m + 1 →
      (∀ j', j' ≤ m → prev.getD j' 0 = lev_matrix T P i j') →
      (lev_outer T P k m cnt (i + 1) curr prev = true ↔
        (∀ i' j', i < i' → i' ≤ m + k → 1 ≤ j' → j' ≤ m → i' = j' + k →
          lev_matrix T P i' j' ≤ k) ∧ lev_matrix T P (m + k) m ≤ k) := by
  intro cnt
  induction cnt with
  | zero =>
    intro i curr prev hi _ _ _ hprev
    rw [lev_outer]
    have : i = m + k := by omega
    subst this
    rw [decide_eq_true_iff, hprev m (Nat.le_refl m)]
    constructor
    · intro h
      refine ⟨?_, h⟩
      intro i' j' h1 h2; omega
    · exact fun h => h.2
  | succ cnt ih =>
    intro i curr prev hi hlen h0 hplen hprev
    rw [lev_outer]
    simp only [Nat.add_sub_cancel]
    rcases lev_inner_spec T P k m i prev hprev m 1 curr (Nat.le_refl 1) (by omega) hlen
        (by
          intro j' hj'
          have : j' = 0 := by omega
          subst this
          rw [h0, lev_matrix_zero_right])
      with ⟨⟨j', h1, h2, h3, h4⟩, h5⟩ | ⟨h1, curr', h2, h3, h4⟩
    · rw [h5]
      simp only [Bool.false_eq_true, false_iff, not_and]
      intro hall
      exfalso
      have := hall (i + 1) j' (by omega) (by omega) h1 h2 h3
      omega
    · rw [h2]
      simp only []
      have hp0 : prev.getD 0 0 = 0 := by
        rw [hprev 0 (Nat.zero_le m), lev_matrix_zero_right]
      rw [ih (i + 1) prev curr' (by omega) hplen hp0 h3 h4]
      constructor
      · rintro ⟨ha, hb⟩
        refine ⟨?_, hb⟩
        intro i' j' hi1 hi2 hj1 hj2 hij
        by_cases hii : i' = i + 1
        · subst hii
          exact h1 j' hj1 hj2 hij
        · exact ha i' j' (by omega) hi2 hj1 hj2 hij
      · rintro ⟨ha, hb⟩
        refine ⟨?_, hb⟩
        intro i' j' hi1 hi2 hj1 hj2 hij
        exact ha i' j' (by omega) hi2 hj1 hj2 hij

theorem validate_levenshtein_iff_matrix (T P : List Nat) (k m : Nat) :
    validate_levenshtein T P k m = true ↔
      (∀ j', 1 ≤ j' → j' ≤ m → lev_matrix T P (j' + k) j' ≤ k) ∧
        lev_matrix T P (m + k) m ≤ k := by
  unfold validate_levenshtein
  rw [lev_outer_spec T P k m (m + k) 0 _ _ (by omega) (by simp) (by simp) (by simp)
    (by
      intro j' hj'
      rw [lev_matrix_zero_left, List.getD_eq_getElem?_getD, List.getElem?_replicate]
      split <;> rfl)]
  constructor
  · rintro ⟨ha, hb⟩
    refine ⟨?_, hb⟩
    intro j' h1 h2
    exact ha (j' + k) j' (by omega) (by omega) h1 h2 rfl
  · rintro ⟨ha, hb⟩
    refine ⟨?_, hb⟩
    intro i' j' _ _ h1 h2 h3
    subst h3
    exact ha j' h1 h2

/-! ### Shape of the matrix: neighbours differ by at most one, diagonals do not decrease -/

theorem lev_matrix_right_le (T P : List Nat) (i j : Nat) :
    lev_matrix T P i (j + 1) ≤ lev_matrix T P i j + 1 := by
  cases i with
  | zero => simp [lev_matrix_zero_left]
  | succ i => rw [lev_matrix_succ_succ]; omega

theorem lev_matrix_down_le (T P : List Nat) (i j : Nat) :
    lev_matrix T P (i + 1) j ≤ lev_matrix T P i j + 1 := by
  cases j with
  | zero => simp [lev_matrix_zero_right]
  | succ j => rw [lev_matrix_succ_succ]; omega

theorem lev_matrix_le_col (T P : List Nat) (i j : Nat) : lev_matrix T P i j ≤ j := by
  induction j with
  | zero => rw [lev_matrix_zero_right]
  | succ j ih => have := lev_matrix_right_le T P i j; omega

theorem lev_matrix_le_row (T P : List Nat) (i j : Nat) : lev_matrix T P i j ≤ i := by
  induction i with
  | zero => rw [lev_matrix_zero_left]
  | succ i ih => have := lev_matrix_down_le T P i j; omega

theorem lev_matrix_lower (T P : List Nat) :
    ∀ i j, lev_matrix T P i j ≤ lev_matrix T P i (j + 1) + 1 ∧
      lev_matrix T P i j ≤ lev_matrix T P (i + 1) j + 1 := by
  intro i
  induction i with
  | zero =>
    intro j
    simp [lev_matrix_zero_left]
  | succ i ihi =>
    intro j
    induction j with
    | zero =>
      simp [lev_matrix_zero_right]
    | succ j ihj =>
      have a1 := lev_matrix_succ_succ T P i (j + 1)
      have a2 := lev_matrix_succ_succ T P (i + 1) j
      have b1 := (ihi (j + 1)).1
      have c2 := ihj.2
      have u2 := lev_matrix_right_le T P (i + 1) j
      have u5 := lev_matrix_down_le T P i (j + 1)
      constructor
      · clear a2 c2 u2
        omega
      · clear a1 b1 u5
        omega

theorem lev_matrix_diag (T P : List Nat) (i j : Nat) :
    lev_matrix T P i j ≤ lev_matrix T P (i + 1) (j + 1) := by
  have h1 := (lev_matrix_lower T P i j).1
  have h2 := (lev_matrix_lower T P i j).2
  rw [lev_matrix_succ_succ]
  omega

theorem lev_matrix_diag_add (T P : List Nat) (i j d : Nat) :
    lev_matrix T P i j ≤ lev_matrix T P (i + d) (j + d) := by
  induction d with
  | zero => exact Nat.le_refl _
  | succ d ih => exact Nat.le_trans ih (lev_matrix_diag T P (i + d) (j + d))

theorem validate_levenshtein_iff_last (T P : List Nat) (k m : Nat) :
    validate_levenshtein T P k m = true ↔ lev_matrix T P (m + k) m ≤ k := by
  rw [validate_levenshtein_iff_matrix]
  constructor
  · exact fun h => h.2
  · intro h
    refine ⟨?_, h⟩
    intro j' _ hj'
    have := lev_matrix_diag_add T P (j' + k) j' (m - j')
    have e1 : j' + k + (m - j') = m + k := by omega
    have e2 : j' + (m - j') = m := by omega
    rw [e1, e2] at this
    omega

/-! ### Levenshtein distance: recurrence on the last symbols -/

theorem lev_nil_left (ys : List Nat) :
    levenshtein Levenshtein.defaultCost ([] : List Nat) ys = ys.length := by
  induction ys with
  | nil => simp
  | cons y ys ih => rw [levenshtein_nil_cons, ih]; simp; omega

theorem lev_nil_right (xs : List Nat) :
    levenshtein Levenshtein.defaultCost xs ([] : List Nat) = xs.length := by
  induction xs with
  | nil => simp
  | cons x xs ih => rw [levenshtein_cons_nil, ih]; simp; omega

theorem lev_cons_cons (x y : Nat) (xs ys : List Nat) :
    levenshtein Levenshtein.defaultCost (x :: xs) (y :: ys)
      = min (1 + levenshtein Levenshtein.defaultCost xs (y :: ys))
          (min (1 + levenshtein Levenshtein.defaultCost (x :: xs) ys)
            ((if x = y then 0 else 1) + levenshtein Levenshtein.defaultCost xs ys)) := by
  rw [levenshtein_cons_cons]
  simp

theorem min9 (d e v1 v2 v3 v4 v5 v6 v7 v8 v9 w1 w2 w3 w4 w5 w6 w7 : Nat)
    (h1 : w1 = min (1 + w2) (min (1 + w3) (d + w4)))
    (h2 : w5 = min (1 + v1) (min (1 + v4) (d + v7)))
    (h3 : w6 = min (1 + v2) (min (1 + v5) (d + v8)))
    (h4 : w7 = min (1 + v3) (min (1 + v6) (d + v9)))
    (h5 : w2 = min (1 + v1) (min (1 + v2) (e + v3)))
    (h6 : w4 = min (1 + v7) (min (1 + v8) (e + v9)))
    (h7 : w3 = min (1 + v4) (min (1 + v5) (e + v6))) :
    w1 = min (1 + w5) (min (1 + w6) (e + w7)) := by
  subst h2 h3 h4 h5 h6 h7 h1
  simp only [← Nat.add_min_add_left]
  ac_rfl

theorem lev_snoc_snoc (a b : Nat) :
    ∀ (xs ys : List Nat),
      levenshtein Levenshtein.defaultCost (xs ++ [a]) (ys ++ [b])
        = min (1 + levenshtein Levenshtein.defaultCost xs (ys ++ [b]))
            (min (1 + levenshtein Levenshtein.defaultCost (xs ++ [a]) ys)
              ((if a = b then 0 else 1) + levenshtein Levenshtein.defaultCost xs ys)) := by
  intro xs
  induction xs with
  | nil =>
    intro ys
    induction ys with
    | nil =>
      simp only [List.nil_append, lev_cons_cons, lev_nil_left, lev_nil_right, List.length_nil,
        List.length_cons]
    | cons y ys ih =>
      have h1 := lev_cons_cons a y [] (ys ++ [b])
      have h2 := lev_cons_cons a y [] ys
      simp only [List.nil_append, List.cons_append, lev_nil_left, lev_nil_right,
        List.length_nil, List.length_cons, List.length_append] at ih h1 h2 ⊢
      generalize levenshtein Levenshtein.defaultCost [a] (y :: (ys ++ [b])) = w1 at h1 ⊢
      generalize levenshtein Levenshtein.defaultCost [a] (ys ++ [b]) = w2 at h1 ih ⊢
      generalize levenshtein Levenshtein.defaultCost [a] (y :: ys) = w3 at h2 ⊢
      generalize levenshtein Levenshtein.defaultCost [a] ys = w4 at h2 ih ⊢
      generalize (if a = y then 0 else 1) = d at h1 h2 ⊢
      generalize (if a = b then 0 else 1) = e at ih ⊢
      generalize ys.length = n at h1 h2 ih ⊢
      subst h2 ih h1
      simp only [← Nat.add_min_add_left, Nat.zero_add]
      ac_rfl
  | cons x xs ihx =>
    intro ys
    induction ys with
    | nil =>
      have h1 := lev_cons_cons x b (xs ++ [a]) []
      have h2 := lev_cons_cons x b xs []
      have h3 := ihx []
      simp only [List.nil_append, List.cons_append, lev_nil_left, lev_nil_right,
        List.length_nil, List.length_cons, List.length_append] at h1 h2 h3 ⊢
      generalize levenshtein Levenshtein.defaultCost (x :: (xs ++ [a])) [b] = w1 at h1 ⊢
      generalize levenshtein Levenshtein.defaultCost (xs ++ [a]) [b] = w2 at h1 h3 ⊢
      generalize levenshtein Levenshtein.defaultCost (x :: xs) [b] = w3 at h2 ⊢
      generalize levenshtein Levenshtein.defaultCost xs [b] = w4 at h2 h3 ⊢
      generalize (if x = b then 0 else 1) = d at h1 h2 ⊢
      generalize (if a = b then 0 else 1) = e at h3 ⊢
      generalize xs.length = n at h1 h2 h3 ⊢
      subst h2 h3 h1
      simp only [← Nat.add_min_add_left, Nat.zero_add]
      ac_rfl
    | cons y ys ihy =>
      have h1 := lev_cons_cons x y (xs ++ [a]) (ys ++ [b])
      have h2 := lev_cons_cons x y xs (ys ++ [b])
      have h3 := lev_cons_cons x y (xs ++ [a]) ys
      have h4 := lev_cons_cons x y xs ys
      have h5 := ihx (y :: ys)
      have h6 := ihx ys
      simp only [List.cons_append] at h1 h2 h3 h4 h5 h6 ihy ⊢
      exact min9 _ _ _ _ _ _ _ _ _ _ _ _ _ _ _ _ _ _ h1 h2 h3 h4 h5 h6 ihy

theorem lev_length_le (xs : List Nat) :
    ∀ ys : List Nat, xs.length ≤ ys.length + levenshtein Levenshtein.defaultCost xs ys := by
  induction xs with
  | nil => intro ys; simp
  | cons x xs ihx =>
    intro ys
    induction ys with
    | nil => rw [lev_nil_right]; simp
    | cons y ys ihy =>
      rw [lev_cons_cons]
      have h1 := ihx (y :: ys)
      have h2 := ihx ys
      simp only [List.length_cons] at h1 h2 ihy ⊢
      split <;> omega

/-! ### Segments of a sequence -/

theorem seg_self (l : List Nat) (a : Nat) : seg l a a = [] := by
  unfold seg
  apply List.drop_eq_nil_of_le
  rw [List.length_take]
  omega

theorem seg_zero (l : List Nat) (b : Nat) : seg l 0 b = l.take b := by
  unfold seg; rfl

theorem seg_length (l : List Nat) (a b : Nat) (hb : b ≤ l.length) :
    (seg l a b).length = b - a := by
  unfold seg
  rw [List.length_drop, List.length_take]
  omega

theorem seg_succ (l : List Nat) (a b : Nat) (hab : a ≤ b) (hb : b < l.length) :
    seg l a (b + 1) = seg l a b ++ [l.getD b 0] := by
  unfold seg
  rw [List.take_succ, List.drop_append_of_le_length (by rw [List.length_take]; omega)]
  congr 1
  rw [List.getD_eq_getElem?_getD, List.getElem?_eq_getElem hb]
  rfl

theorem seg_suffix (l : List Nat) (a b : Nat) : seg l a b <:+ l.take b := by
  unfold seg
  exact List.drop_suffix a _

theorem suffix_eq_seg (l s : List Nat) (b : Nat) (hb : b ≤ l.length) (hs : s <:+ l.take b) :
    ∃ a, a ≤ b ∧ s = seg l a b := by
  refine ⟨b - s.length, by omega, ?_⟩
  have := List.suffix_iff_eq_drop.mp hs
  rw [List.length_take, Nat.min_eq_left hb] at this
  exact this

/-! ### Bounds on the distance when a symbol is appended -/

theorem lev_snoc_left_le (a : Nat) (xs ys : List Nat) :
    levenshtein Levenshtein.defaultCost (xs ++ [a]) ys
      ≤ 1 + levenshtein Levenshtein.defaultCost xs ys := by
  rcases List.eq_nil_or_concat ys with rfl | ⟨ys', b, rfl⟩
  · rw [lev_nil_right, lev_nil_right]; simp; omega
  · rw [List.concat_eq_append, lev_snoc_snoc]
    exact Nat.min_le_left _ _

theorem lev_snoc_right_le (b : Nat) (xs ys : List Nat) :
    levenshtein Levenshtein.defaultCost xs (ys ++ [b])
      ≤ 1 + levenshtein Levenshtein.defaultCost xs ys := by
  rcases List.eq_nil_or_concat xs with rfl | ⟨xs', a, rfl⟩
  · rw [lev_nil_left, lev_nil_left]; simp; omega
  · rw [List.concat_eq_append, lev_snoc_snoc]
    exact Nat.le_trans (Nat.min_le_right _ _) (Nat.min_le_left _ _)

theorem lev_snoc_both_le (a b : Nat) (xs ys : List Nat) :
    levenshtein Levenshtein.defaultCost (xs ++ [a]) (ys ++ [b])
      ≤ (if a = b then 0 else 1) + levenshtein Levenshtein.defaultCost xs ys := by
  rw [lev_snoc_snoc]
  exact Nat.le_trans (Nat.min_le_right _ _) (Nat.min_le_right _ _)

/-! ### Meaning of the matrix of the validator -/

theorem lev_matrix_ge (T P : List Nat) :
    ∀ i j, i ≤ T.length → j ≤ P.length →
      (∃ i', i' ≤ i ∧
        levenshtein Levenshtein.defaultCost (seg T i' i) (seg P 0 j) ≤ lev_matrix T P i j) ∨
      (∃ j', j' ≤ j ∧
        levenshtein Levenshtein.defaultCost (seg T 0 i) (seg P j' j) ≤ lev_matrix T P i j) := by
  intro i
  induction i with
  | zero =>
    intro j _ _
    right
    refine ⟨j, Nat.le_refl j, ?_⟩
    rw [seg_self, seg_self]; simp
  | succ i ihi =>
    intro j
    induction j with
    | zero =>
      intro _ _
      left
      refine ⟨i + 1, Nat.le_refl _, ?_⟩
      rw [seg_self, seg_self]; simp
    | succ j ihj =>
      intro hi hj
      have hD := lev_matrix_succ_succ T P i j
      have hcase : lev_matrix T P (i + 1) (j + 1) = lev_matrix T P i (j + 1) + 1 ∨
          lev_matrix T P (i + 1) (j + 1) = lev_matrix T P (i + 1) j + 1 ∨
          lev_matrix T P (i + 1) (j + 1)
            = lev_matrix T P i j + (if T.getD i 0 = P.getD j 0 then 0 else 1) := by
        omega
      rcases hcase with hc | hc | hc
      · rcases ihi (j + 1) (by omega) hj with ⟨i', h1, h2⟩ | ⟨j', h1, h2⟩
        · left
          refine ⟨i', by omega, ?_⟩
          rw [seg_succ T i' i h1 (by omega), hc]
          have := lev_snoc_left_le (T.getD i 0) (seg T i' i) (seg P 0 (j + 1))
          omega
        · right
          refine ⟨j', h1, ?_⟩
          rw [seg_succ T 0 i (Nat.zero_le i) (by omega), hc]
          have := lev_snoc_left_le (T.getD i 0) (seg T 0 i) (seg P j' (j + 1))
          omega
      · rcases ihj hi (by omega) with ⟨i', h1, h2⟩ | ⟨j', h1, h2⟩
        · left
          refine ⟨i', h1, ?_⟩
          rw [seg_succ P 0 j (Nat.zero_le j) (by omega), hc]
          have := lev_snoc_right_le (P.getD j 0) (seg T i' (i + 1)) (seg P 0 j)
          omega
        · right
          refine ⟨j', by omega, ?_⟩
          rw [seg_succ P j' j h1 (by omega), hc]
          have := lev_snoc_right_le (P.getD j 0) (seg T 0 (i + 1)) (seg P j' j)
          omega
      · rcases ihi j (by omega) (by omega) with ⟨i', h1, h2⟩ | ⟨j', h1, h2⟩
        · left
          refine ⟨i', by omega, ?_⟩
          rw [seg_succ T i' i h1 (by omega), seg_succ P 0 j (Nat.zero_le j) (by omega), hc]
          have := lev_snoc_both_le (T.getD i 0) (P.getD j 0) (seg T i' i) (seg P 0 j)
          omega
        · right
          refine ⟨j', by omega, ?_⟩
          rw [seg_succ T 0 i (Nat.zero_le i) (by omega), seg_succ P j' j h1 (by omega), hc]
          have := lev_snoc_both_le (T.getD i 0) (P.getD j 0) (seg T 0 i) (seg P j' j)
          omega

theorem lev_matrix_le (T P : List Nat) (i' : Nat) :
    ∀ i j, i' ≤ i → i ≤ T.length → j ≤ P.length →
      lev_matrix T P i j ≤ levenshtein Levenshtein.defaultCost (seg T i' i) (seg P 0 j) := by
  intro i
  induction i with
  | zero =>
    intro j _ _ _
    rw [lev_matrix_zero_left]; exact Nat.zero_le _
  | succ i ihi =>
    intro j
    induction j with
    | zero =>
      intro _ _ _
      rw [lev_matrix_zero_right]; exact Nat.zero_le _
    | succ j ihj =>
      intro hi' hi hj
      by_cases hii : i' = i + 1
      · subst hii
        rw [seg_self, lev_nil_left, seg_length P 0 (j + 1) hj]
        exact lev_matrix_le_col T P _ _
      · have h1 := ihi (j + 1) (by omega) (by omega) hj
        have h2 := ihj hi' hi (by omega)
        have h3 := ihi j (by omega) (by omega) (by omega)
        have hD := lev_matrix_succ_succ T P i j
        rw [seg_succ T i' i (by omega) (by omega), seg_succ P 0 j (Nat.zero_le j) (by omega),
          lev_snoc_snoc]
        rw [seg_succ P 0 j (Nat.zero_le j) (by omega)] at h1
        rw [seg_succ T i' i (by omega) (by omega)] at h2
        generalize levenshtein Levenshtein.defaultCost (seg T i' i)
          (seg P 0 j ++ [P.getD j 0]) = v1 at h1 ⊢
        generalize levenshtein Levenshtein.defaultCost (seg T i' i ++ [T.getD i 0])
          (seg P 0 j) = v2 at h2 ⊢
        generalize levenshtein Levenshtein.defaultCost (seg T i' i) (seg P 0 j) = v3 at h3 ⊢
        omega

/-- The verdict of `validate_levenshtein`: some suffix of the first `m + k` text symbols is
within Levenshtein distance `k` of the pattern. -/
theorem validate_levenshtein_iff_suffix (first s_first : List Nat) (k m : Nat)
    (hfirst : m + k ≤ first.length) (hs : m ≤ s_first.length) :
    validate_levenshtein first s_first k m = true ↔
      ∃ s, s <:+ first.take (m + k) ∧
        levenshtein Levenshtein.defaultCost s (s_first.take m) ≤ k := by
  rw [validate_levenshtein_iff_last]
  constructor
  · intro h
    rcases lev_matrix_ge first s_first (m + k) m hfirst hs with ⟨i', h1, h2⟩ | ⟨j', h1, h2⟩
    · exact ⟨seg first i' (m + k), seg_suffix _ _ _, by rw [seg_zero] at h2; omega⟩
    · have hlen := lev_length_le (seg first 0 (m + k)) (seg s_first j' m)
      rw [seg_length first 0 (m + k) hfirst, seg_length s_first j' m hs] at hlen
      have hj0 : j' = 0 := by omega
      subst hj0
      exact ⟨seg first 0 (m + k), seg_suffix _ _ _, by rw [seg_zero s_first] at h2; omega⟩
  · rintro ⟨s, hsuf, hle⟩
    obtain ⟨a, ha, rfl⟩ := suffix_eq_seg first s (m + k) hfirst hsuf
    have := lev_matrix_le first s_first a (m + k) m ha hfirst hs
    rw [seg_zero] at this
    omega

/-- C4 as stated fails, in both directions. With text `xyb`, pattern `ab`, `k = 1`, `m = 2`
the validator passes although the window `xy` is at Levenshtein distance `2` from `ab`; with
text `abdz`, pattern `abc`, `k = 1`, `m = 3` it fails although the window `abd` is at
distance `1` from `abc`. -/
theorem validate_levenshtein_not_window_distance :
    (validate_levenshtein [120, 121, 98] [97, 98] 1 2 = true ∧
      ¬ levenshtein Levenshtein.defaultCost ([120, 121, 98].take 2) ([97, 98].take 2) ≤ 1) ∧
    (validate_levenshtein [97, 98, 100, 122] [97, 98, 99] 1 3 = false ∧
      levenshtein Levenshtein.defaultCost ([97, 98, 100, 122].take 3) ([97, 98, 99].take 3)
        ≤ 1) := by
  decide

/-- C4, amended: for a pattern of `m` symbols and a text with at least `m + k` symbols,
`validate_levenshtein(first, s_first, k, m)` returns true exactly when some suffix of the
first `m + k` text symbols is at Levenshtein distance at most `k` from the pattern. -/
theorem validate_levenshtein_suffix_distance (first s_first : List Nat) (k m : Nat)
    (hfirst : m + k ≤ first.length) (hs : m ≤ s_first.length) :
    validate_levenshtein first s_first k m = true ↔
      ∃ s, s <:+ first.take (m + k) ∧
        levenshtein Levenshtein.defaultCost s (s_first.take m) ≤ k :=
  validate_levenshtein_iff_suffix first s_first k m hfirst hs

/-- Check of the amended C4 on the text `xyb`, the pattern `ab`, `k = 1`, `m = 2`. -/
theorem validate_levenshtein_suffix_distance_witness :
    validate_levenshtein [120, 121, 98] [97, 98] 1 2 = true ↔
      ∃ s, s <:+ [120, 121, 98].take (2 + 1) ∧
        levenshtein Levenshtein.defaultCost s ([97, 98].take 2) ≤ 1 :=
  validate_levenshtein_suffix_distance [120, 121, 98] [97, 98] 1 2 (by decide) (by decide)

/-! ## Substitution automaton: empty pattern, length bound, state invariant -/

/-- C11: for every text, the empty one included, and every `k`,
`bitap_fuzzy_bitwise_search_new` called with an empty pattern returns the span
`(corpus_begin, corpus_end)`, the offsets `0` and `corpus.length`: the entire text, and the
call does not fail. -/
theorem bitap_empty_pattern_whole_text (corpus : List Nat) (k : Nat) :
    bitap_fuzzy_bitwise_search_new corpus [] k
      = some ((0 : Int), (corpus.length : Int)) := by
  simp [bitap_fuzzy_bitwise_search_new]

/-- C12, the claim as stated fails: the state words are `unsigned long`, 64 bits wide
(`ULONG_MAX = 2 ^ 64 - 1`), so a pattern of 32 symbols does not exceed the bit width minus
one, and yet the call fails on `assert(m <= 31)`. -/
theorem bitap_rejects_pattern_of_32 :
    ULONG_MAX = 2 ^ ULONG_BITS - 1 ∧
    (List.replicate 32 97).length ≤ ULONG_BITS - 1 ∧
    List.replicate 32 97 ≠ [] ∧
    bitap_fuzzy_bitwise_search_new [97] (List.replicate 32 97) 0 = none := by
  decide

/-- C12, amended: `bitap_fuzzy_bitwise_search_new` fails exactly when the pattern is longer
than 31 symbols, whatever the text and `k`; the bound is the constant of `assert(m <= 31)`,
not the width of `unsigned long` minus one. Every non-empty pattern of at most 31 symbols is
accepted and searched: the result is that of the scan over the text, started at offset `0`
with all state words `~1`. -/
theorem bitap_fails_iff_longer_than_31 (corpus pattern : List Nat) (k : Nat) :
    (bitap_fuzzy_bitwise_search_new corpus pattern k = none ↔ 31 < pattern.length) ∧
    (pattern ≠ [] → pattern.length ≤ 31 →
      bitap_fuzzy_bitwise_search_new corpus pattern k
        = some (search_loop (pattern_mask pattern) pattern.length k corpus.length corpus 0
            (List.replicate ((k + 1) * 8) (bnot 1)))) := by
  unfold bitap_fuzzy_bitwise_search_new
  constructor
  · by_cases hp : pattern = []
    · subst hp; simp
    · by_cases hm : pattern.length ≤ 31
      · rw [if_neg hp, if_pos hm]
        constructor
        · intro h; exact Option.noConfusion h
        · intro h; omega
      · rw [if_neg hp, if_neg hm]
        constructor
        · intro _; omega
        · intro _; rfl
  · intro hp hm
    rw [if_neg hp, if_pos hm]

/-- One more text symbol: the state after `processed ++ [c]` is the state after `processed`
updated with the mask of `c`, which is the state `search_loop` tests and passes on. -/
theorem bitap_run_snoc (pattern : List Nat) (k : Nat) (processed : List Nat) (c : Nat) :
    bitap_run pattern k (processed ++ [c])
      = update ((pattern_mask pattern).getD c 0) k (bitap_run pattern k processed) := by
  simp [bitap_run, List.foldl_append]

theorem bitap_run_inv (pattern processed : List Nat) (k : Nat)
    (hm : pattern.length < 64) (hP : ∀ c ∈ pattern, c < 128)
    (hT : ∀ c ∈ processed, c < 128) :
    ∀ t, t ≤ processed.length →
      BitapInv processed pattern k t (bitap_run pattern k (processed.take t)) := by
  intro t
  induction t with
  | zero =>
    intro _
    simpa [bitap_run] using bitapInv_init processed pattern k hm
  | succ t ih =>
    intro ht
    have hlt : t < processed.length := by omega
    have htake : processed.take (t + 1) = processed.take t ++ [processed.getD t 0] := by
      rw [List.take_succ, List.getD_eq_getElem?_getD, List.getElem?_eq_getElem hlt]
      simp
    rw [htake, bitap_run_snoc]
    refine bitapInv_step processed pattern k t _ hm hP ?_ (ih (by omega))
    apply hT
    rw [List.getD_eq_getElem?_getD, List.getElem?_eq_getElem hlt]
    simp

/-- C19, the claim as stated fails: pattern `ab`, text `b`, `k = 0`. After the one text
symbol, bit `0` of `R[0]` is `0`, although the pattern prefix of length `0 + 1`, the symbol
`a`, does not match the text ending at the current position, the symbol `b`, with `0`
mismatches. -/
theorem bitap_bit_is_not_prefix_plus_one :
    (0 : Nat) ≤ 0 ∧ (0 : Nat) < [97, 98].length ∧
    ((bitap_run [97, 98] 0 [98]).getD 0 0).testBit 0 = false ∧
    ¬ (0 + 1 ≤ [98].length ∧
        mismatches ([98].drop ([98].length - (0 + 1))) [97, 98] (0 + 1) ≤ 0) := by
  decide

/-- C19, amended: in `bitap_fuzzy_bitwise_search_new`, for a pattern of `m <= 31` symbols and
symbols below 128, after the text symbols `processed` have been read, for every `d <= k` and
every `j <= m`: bit `j` of `R[d]` is `0` exactly when at least `j` symbols have been read
and the pattern prefix of length `j` (not `j + 1`) differs from the last `j` symbols read in
at most `d` positions; otherwise the bit is `1`. In particular bit `0` is always `0`, and
bit `m` of `R[k]` is the match test. -/
theorem bitap_state_bit_iff_prefix (pattern processed : List Nat) (k : Nat)
    (hm : pattern.length ≤ 31) (hP : ∀ c ∈ pattern, c < 128)
    (hT : ∀ c ∈ processed, c < 128) (d j : Nat) (hd : d ≤ k) (hj : j ≤ pattern.length) :
    (((bitap_run pattern k processed).getD d 0).testBit j = false ↔
      (j ≤ processed.length ∧
        mismatches (processed.drop (processed.length - j)) pattern j ≤ d)) ∧
    (((bitap_run pattern k processed).getD d 0).testBit j = true ↔
      ¬ (j ≤ processed.length ∧
        mismatches (processed.drop (processed.length - j)) pattern j ≤ d)) := by
  have h := bitap_run_inv pattern processed k (by omega) hP hT processed.length (le_refl _)
  rw [List.take_length] at h
  have hb := h.2 d hd j hj
  unfold win_mism at hb
  refine ⟨hb, ?_⟩
  rw [← hb]
  cases ((bitap_run pattern k processed).getD d 0).testBit j <;> simp

/-- Check of C19: pattern `ab`, text `xa`, `k = 1`, `d = 1`, `j = 2`: two symbols have been
read and `xa` differs from `ab` in two positions, so bit `2` of `R[1]` is `1`. -/
theorem bitap_state_bit_iff_prefix_witness :
    (((bitap_run [97, 98] 1 [120, 97]).getD 1 0).testBit 2 = false ↔
      (2 ≤ [120, 97].length ∧
        mismatches ([120, 97].drop ([120, 97].length - 2)) [97, 98] 2 ≤ 1)) ∧
    (((bitap_run [97, 98] 1 [120, 97]).getD 1 0).testBit 2 = true ↔
      ¬ (2 ≤ [120, 97].length ∧
        mismatches ([120, 97].drop ([120, 97].length - 2)) [97, 98] 2 ≤ 1)) :=
  bitap_state_bit_iff_prefix [97, 98] [120, 97] 1 (by decide) (by decide) (by decide) 1 2
    (by decide) (by decide)

/-! ## Q-gram filter: calls outside the working range of `fuzzy_search` -/

/-- C13, the code at the call of `main.cpp`: text `i live in fer Mensk and it's really
beautiful place for living.`, pattern `Minsk`, `k = 1`, Hamming mode. The substitution
automaton reports the window at offset `14` and `validate_hamming` passes there, but
`fuzzy_search` does not return `14`: the pattern has `5 < q = 6` symbols, so the start offset
`m - q` wraps to `2 ^ 64 - 1`, and the folded text has `6` distinct symbols, so the loop over
`freq[0 .. 15]` reads past the end of `freq`. The call has no defined result (`none`). -/
theorem fuzzy_search_main_call_undefined :
    bitap_fuzzy_bitwise_search_new main_data main_search 1 = some ((14 : Int), (19 : Int)) ∧
    validate_hamming (main_data.drop 14) main_search 1 main_search.length = true ∧
    size_sub main_search.length 6 = 2 ^ 64 - 1 ∧
    (sort_by_count (count_all (fold_text main_data main_search false 0))).length = 6 ∧
    fuzzy_search sort_by_count main_data main_search 1 true = none ∧
    fuzzy_search sort_by_count main_data main_search 1 true ≠ some 14 := by
  decide

/-- C14, the code at the failing input: text and pattern both `abcdefghijklmnop`, `k = 11`,
edit-distance mode, so `m = 16 < k + 6`. The frequency list has its 16 entries, so nothing
goes wrong before the scan; there is no check of `m` against `k + q`, the start offset
`m - k - q` is computed in wrapped arithmetic as `2 ^ 64 - 1`, and it is used: the cursor
`std::next(T1.begin(), start_search_position)` lies past the end of the 16 symbols of `T1`,
and the call has no defined result (`none`). In Hamming mode, for the five symbols of
`Minsk`, the start offset `m - q` wraps in the same way. -/
theorem fuzzy_search_short_pattern_offset_wraps :
    alphabet16.length < 11 + 6 ∧
    (sort_by_count (count_all (fold_text alphabet16 alphabet16 false 0))).length = 16 ∧
    size_sub (size_sub alphabet16.length 11) 6 = 2 ^ 64 - 1 ∧
    (fold_text alphabet16 alphabet16 false 0).length < size_sub (size_sub alphabet16.length 11) 6 ∧
    fuzzy_search sort_by_count alphabet16 alphabet16 11 false = none ∧
    main_search.length < 6 ∧ size_sub main_search.length 6 = 2 ^ 64 - 1 := by
  decide

/-- C15, the code at the failing input: text and pattern both `abcdefgh`, `k = 0`, Hamming
mode. The pattern is long enough (`m = 8 >= q`, start offset `2`), the frequency list has
`8 < 16` entries, and there is no check of its size: the loop
`for (i = 0; i < reduced_alphabet_size; ++i)` reads `freq[8 .. 15]` past its end, so the call
has no defined result (`none`). -/
theorem fuzzy_search_small_alphabet_undefined :
    6 ≤ (alphabet16.take 8).length ∧
    size_sub (alphabet16.take 8).length 6 = 2 ∧
    (sort_by_count (count_all (fold_text (alphabet16.take 8) (alphabet16.take 8) false 0))).length
      = 8 ∧
    fuzzy_search sort_by_count (alphabet16.take 8) (alphabet16.take 8) 0 true = none := by
  decide

set_option maxRecDepth 100000 in
/-- C16, the code at the failing input: text and pattern both `abcdefghijklmnop`, `k = 0`,
edit-distance mode. The preconditions hold (`m = 16 >= 6`, 16 distinct symbols), the pattern
occurs in the text at offset `0`, ending at the last text symbol, and `validate_levenshtein`
passes there; `fuzzy_search` returns `last` (offset `16`), the value for a pattern that does
not occur: the scan runs only while more than `q` symbols remain after the cursor. -/
theorem fuzzy_search_edit_zero_misses_match_at_end :
    6 ≤ alphabet16.length ∧
    (sort_by_count (count_all (fold_text alphabet16 alphabet16 false 0))).length = 16 ∧
    (alphabet16.drop 0).take alphabet16.length = alphabet16 ∧
    validate_levenshtein (alphabet16.drop 0) alphabet16 0 alphabet16.length = true ∧
    fuzzy_search sort_by_count alphabet16 alphabet16 0 false = some alphabet16.length ∧
    fuzzy_search sort_by_count alphabet16 alphabet16 0 false ≠ some 0 := by
  decide

/-! ## Multi-factor engine: factor longer than the pattern -/

theorem hd_cell_no_match (t x : List Nat) (f max_error : Nat) (return_all : Bool)
    (lim : Limit) (i j : Nat) (st : HdState) (hi : i < f) :
    (hd_cell t x f max_error return_all lim i j st).results = st.results ∧
    (hd_cell t x f max_error return_all lim i j st).best = st.best := by
  have hn : ¬ (f ≤ j ∧ f ≤ i) := by omega
  unfold hd_cell hd_match
  simp only []
  split <;> simp only [if_neg hn, and_self]

theorem hd_loop_j_no_match (t x : List Nat) (f max_error : Nat) (return_all : Bool)
    (lim : Limit) (i : Nat) (hi : i < f) :
    ∀ (cnt j : Nat) (st : HdState),
      (hd_loop_j t x f max_error return_all lim i cnt j st).results = st.results ∧
      (hd_loop_j t x f max_error return_all lim i cnt j st).best = st.best := by
  intro cnt
  induction cnt with
  | zero => intro j st; exact ⟨rfl, rfl⟩
  | succ cnt ih =>
    intro j st
    rw [hd_loop_j]
    have h1 := ih (j + 1) (hd_cell t x f max_error return_all lim i j st)
    have h2 := hd_cell_no_match t x f max_error return_all lim i j st hi
    exact ⟨h1.1.trans h2.1, h1.2.trans h2.2⟩

theorem hd_loop_i_no_match (t : List Nat) (n : Nat) (x : List Nat) (f max_error : Nat)
    (return_all : Bool) (lim : Limit) :
    ∀ (cnt i : Nat) (st : HdState), i + cnt ≤ f →
      (hd_loop_i t n x f max_error return_all lim cnt i st).results = st.results ∧
      (hd_loop_i t n x f max_error return_all lim cnt i st).best = st.best := by
  intro cnt
  induction cnt with
  | zero => intro i st _; exact ⟨rfl, rfl⟩
  | succ cnt ih =>
    intro i st h
    rw [hd_loop_i]
    have h1 := ih (i + 1) (hd_loop_j t x f max_error return_all lim i (n + 1) 0 st) (by omega)
    have h2 := hd_loop_j_no_match t x f max_error return_all lim i (by omega) (n + 1) 0 st
    exact ⟨h1.1.trans h2.1, h1.2.trans h2.2⟩

/-- C17, the claim as stated fails: text `a`, pattern `a` (`m = 1`), `factor_length = 2`.
Both functions end the call with a result collection, the empty one: `flasm_hd` for either
value of `return_all`, `flasm_ed` whatever the search primitive reports. -/
theorem flasm_long_factor_returns_empty :
    1 < 2 ∧
    flasm_hd [97] 1 [97] 1 2 0 true = [] ∧ flasm_hd [97] 1 [97] 1 2 0 false = [] ∧
    (∀ find : List Nat → List Nat → Int → List (Nat × Int),
      flasm_ed find [97] 1 [97] 1 2 0 true = some [] ∧
      flasm_ed find [97] 1 [97] 1 2 0 false = some []) := by
  refine ⟨by decide, by decide, by decide, ?_⟩
  intro find
  constructor <;> simp [flasm_ed, ed_loop]

/-- C17, amended: for every text and every pattern of length `m`, `flasm_hd` called with
`factor_length > m` ends the call with the empty result collection, not with an error:
no cell has `i >= factor_length`, so nothing is recorded and `best.error` keeps the value
`m`. `flasm_ed` called with `factor_length = m + 1` returns the empty collection too: the
bound `m - factor_length + 1` of its loop is `0`. -/
theorem flasm_factor_longer_than_pattern
    (find : List Nat → List Nat → Int → List (Nat × Int)) (t : List Nat) (n : Nat)
    (x : List Nat) (m f max_error : Nat) (return_all : Bool) (h : m < f) :
    flasm_hd t n x m f max_error return_all = [] ∧
    (f = m + 1 → flasm_ed find t n x m f max_error return_all = some []) := by
  constructor
  · unfold flasm_hd
    have h1 := hd_loop_i_no_match t n x f max_error return_all (init_limit f) m 1
      { ones := List.replicate (init_limit f).words 0,
        M0 := List.replicate (n + 1) (List.replicate (init_limit f).words 0),
        M1 := List.replicate (n + 1) (List.replicate (init_limit f).words 0),
        results := [],
        best := ⟨0, 0, m⟩ } (by omega)
    simp only [] at h1 ⊢
    rw [h1.1, h1.2]
    simp
  · intro hf
    subst hf
    simp [flasm_ed, ed_loop]

/-- Check of C17: text `ab`, pattern `a`, `factor_length = 2 = m + 1`, `max_error = 0`, with
the primitive that reports exact occurrences. -/
theorem flasm_factor_longer_than_pattern_witness :
    flasm_hd [97, 98] 2 [97] 1 2 0 true = [] ∧
    (2 = 1 + 1 → flasm_ed find_exact [97, 98] 2 [97] 1 2 0 true = some []) :=
  flasm_factor_longer_than_pattern find_exact [97, 98] 2 [97] 1 2 0 true (by decide)

/-! ## Multi-factor engine, edit distance: one search of the text for each factor -/

theorem cstring_eq_self (s : List Nat) (h : ∀ c ∈ s, c ≠ 0) : cstring s = s := by
  unfold cstring
  rw [List.takeWhile_eq_self_iff]
  intro c hc
  simpa using h c hc

theorem ed_hits_all (i f : Nat) :
    ∀ (hits : List (Nat × Int)) (rb : ResultTupleSet × ResultTuple),
      (ed_hits true i f hits rb).1.Perm
        (rb.1 ++ hits.map (fun hit => (⟨hit.1 - 1, i + f - 1, hit.2.natAbs⟩ : ResultTuple))) := by
  intro hits
  induction hits with
  | nil => intro rb; simp [ed_hits]
  | cons hit rest ih =>
    intro rb
    rw [ed_hits]
    simp only [if_true, List.map_cons]
    refine (ih _).trans ?_
    simp only []
    refine ((insert_perm _ rb.1).append_right _).trans ?_
    simp only [List.cons_append]
    exact List.perm_middle.symm

theorem ed_loop_all (find : List Nat → List Nat → Int → List (Nat × Int))
    (haystack x : List Nat) (f max_error : Nat) :
    ∀ (cnt i : Nat) (rb : ResultTupleSet × ResultTuple),
      (ed_loop find haystack x f max_error true cnt i rb).1.Perm
        (rb.1 ++ (List.range cnt).flatMap (fun c =>
          (find haystack (cstring ((x.drop (i + c)).take f)) (-(max_error : Int))).map
            (fun hit => (⟨hit.1 - 1, i + c + f - 1, hit.2.natAbs⟩ : ResultTuple)))) := by
  intro cnt
  induction cnt with
  | zero => intro i rb; simp [ed_loop]
  | succ cnt ih =>
    intro i rb
    rw [ed_loop]
    refine (ih (i + 1) _).trans ?_
    rw [List.range_succ_eq_map, List.flatMap_cons, List.flatMap_map, ← List.append_assoc]
    refine List.Perm.append ?_ ?_
    · simpa using ed_hits_all i f (find haystack (cstring ((x.drop i).take f))
        (-(max_error : Int))) rb
    · have : ∀ c, i + 1 + c = i + (c + 1) := by intro c; omega
      simp only [Function.comp, this, Nat.succ_eq_add_one]
      exact List.Perm.refl _

/-- C18, the claim as stated fails when a symbol `0` occurs: `flasm_ed` hands the text and
each factor to the primitive as C strings, which end at the first `0`. For the pattern
`[97, 0]` with `f = m = 2` the primitive is run on the needle `[97]`, so the result holds
the tuple `(0, 1, 0)` although the factor `x[0 .. 2)` has no hit in the text `[97]`; for the
text `[0, 97]` the primitive is run over the empty haystack, so the hit of the factor `[97]`
that ends at position `2` of the text is not in the result. -/
theorem flasm_ed_cuts_at_zero_symbol :
    flasm_ed find_exact [97] 1 [97, 0] 2 2 0 true = some [⟨0, 1, 0⟩] ∧
    find_exact [97] (([97, 0].drop 0).take 2) (-((0 : Nat) : Int)) = [] ∧
    flasm_ed find_exact [0, 97] 2 [97] 1 1 0 true = some [] ∧
    find_exact [0, 97] (([97].drop 0).take 1) (-((0 : Nat) : Int)) = [(2, 0)] := by
  decide

/-- C18, amended: for a text and a pattern of length `m` without the symbol `0`, a factor
length `f` with `1 <= f <= m`, and a search primitive whose hits have a score of absolute
value at most `max_error`: `flasm_ed` with `return_all = true` returns a collection; it
holds, with multiplicity, the tuple `(end - 1, i + f - 1, |score|)` for every hit
`(end, score)` that the primitive reports over the whole text for the factor
`x[i .. i + f)`, one run for each `i = 0 .. m - f`, and nothing else; each factor has `f`
symbols; and every tuple has `error <= max_error` and `f - 1 <= pos_x <= m - 1`. -/
theorem flasm_ed_return_all_hits
    (find : List Nat → List Nat → Int → List (Nat × Int)) (t : List Nat) (n : Nat)
    (x : List Nat) (m f max_error : Nat)
    (ht : ∀ c ∈ t, c ≠ 0) (hx : ∀ c ∈ x, c ≠ 0) (hm : x.length = m)
    (hf : 1 ≤ f) (hfm : f ≤ m)
    (hfind : ∀ (needle : List Nat) (hit : Nat × Int),
      hit ∈ find t needle (-(max_error : Int)) → hit.2.natAbs ≤ max_error) :
    ∃ l, flasm_ed find t n x m f max_error true = some l ∧
      l.Perm ((List.range (m - f + 1)).flatMap (fun i =>
        (find t ((x.drop i).take f) (-(max_error : Int))).map
          (fun hit => (⟨hit.1 - 1, i + f - 1, hit.2.natAbs⟩ : ResultTuple)))) ∧
      (∀ i, i < m - f + 1 → ((x.drop i).take f).length = f) ∧
      (∀ r ∈ l, r.error ≤ max_error ∧ f - 1 ≤ r.pos_x ∧ r.pos_x ≤ m - 1) := by
  have hcs : ∀ i, cstring ((x.drop i).take f) = (x.drop i).take f := by
    intro i
    apply cstring_eq_self
    intro c hc
    exact hx c (List.mem_of_mem_drop (List.mem_of_mem_take hc))
  have hperm := ed_loop_all find (cstring t) x f max_error (m + 1 - f) 0 ([], ⟨0, 0, m⟩)
  rw [cstring_eq_self t ht] at hperm
  simp only [hcs, Nat.zero_add, List.nil_append] at hperm
  have hcnt : m + 1 - f = m - f + 1 := by omega
  rw [hcnt] at hperm
  refine ⟨(ed_loop find (cstring t) x f max_error true (m + 1 - f) 0 ([], ⟨0, 0, m⟩)).1,
    ?_, ?_, ?_, ?_⟩
  · unfold flasm_ed
    rw [if_neg (by omega)]
    simp
  · rw [cstring_eq_self t ht, hcnt]
    exact hperm
  · intro i hi
    rw [List.length_take, List.length_drop]
    omega
  · intro r hr
    rw [cstring_eq_self t ht, hcnt] at hr
    rw [hperm.mem_iff, List.mem_flatMap] at hr
    obtain ⟨i, hi, hr⟩ := hr
    rw [List.mem_range] at hi
    rw [List.mem_map] at hr
    obtain ⟨hit, hhit, rfl⟩ := hr
    refine ⟨hfind _ hit hhit, ?_, ?_⟩ <;> simp only [] <;> omega

/-- Check of C18: text `abab`, pattern `bab`, `f = 2`, `max_error = 0`, with the primitive
that reports exact occurrences. -/
theorem flasm_ed_return_all_hits_witness :
    ∃ l, flasm_ed find_exact [97, 98, 97, 98] 4 [98, 97, 98] 3 2 0 true = some l ∧
      l.Perm ((List.range (3 - 2 + 1)).flatMap (fun i =>
        (find_exact [97, 98, 97, 98] (([98, 97, 98].drop i).take 2) (-((0 : Nat) : Int))).map
          (fun hit => (⟨hit.1 - 1, i + 2 - 1, hit.2.natAbs⟩ : ResultTuple)))) ∧
      (∀ i, i < 3 - 2 + 1 → (([98, 97, 98].drop i).take 2).length = 2) ∧
      (∀ r ∈ l, r.error ≤ 0 ∧ 2 - 1 ≤ r.pos_x ∧ r.pos_x ≤ 3 - 1) :=
  flasm_ed_return_all_hits find_exact [97, 98, 97, 98] 4 [98, 97, 98] 3 2 0
    (by decide) (by decide) (by decide) (by decide) (by decide)
    (by
      intro needle hit h
      unfold find_exact at h
      rw [List.mem_map] at h
      obtain ⟨e, _, rfl⟩ := h
      simp)

/-! ## Hamming preprocessing: the table `M` -/

theorem idx_row_col (m r j : Nat) (hj : j ≤ m) :
    (r * (m + 1) + j) / (m + 1) = r ∧ (r * (m + 1) + j) % (m + 1) = j := by
  constructor
  · rw [Nat.add_comm, Nat.add_mul_div_right _ _ (by omega), Nat.div_eq_of_lt (by omega)]
    simp
  · rw [Nat.add_comm, Nat.add_mul_mod_self_right, Nat.mod_eq_of_lt (by omega)]

theorem idx_inj (m r r' j j' : Nat) (hj : j ≤ m) (hj' : j' ≤ m)
    (h : r * (m + 1) + j = r' * (m + 1) + j') : r = r' ∧ j = j' := by
  have h1 := idx_row_col m r j hj
  have h2 := idx_row_col m r' j' hj'
  rw [h] at h1
  exact ⟨h1.1.symm.trans h2.1, h1.2.symm.trans h2.2⟩

theorem idx_lt (q m r j : Nat) (hr : r ≤ q) (hj : j ≤ m) :
    r * (m + 1) + j < (q + 1) * (m + 1) := by
  have h1 : r * (m + 1) ≤ q * (m + 1) := Nat.mul_le_mul_right _ hr
  have h2 : (q + 1) * (m + 1) = q * (m + 1) + (m + 1) := by ring
  omega

theorem hamming_fill_spec (pattern : List Nat) (m i c : Nat) (hi : 1 ≤ i) :
    ∀ (cnt j : Nat) (D : List Nat), 1 ≤ j → j + cnt = m + 1 →
      (hamming_fill pattern m i c cnt j D).length = D.length ∧
      ∀ r j', j' ≤ m → r * (m + 1) + j' < D.length →
        (hamming_fill pattern m i c cnt j D).getD (r * (m + 1) + j') 0
          = if r = i ∧ j ≤ j' then
              D.getD ((i - 1) * (m + 1) + (j' - 1)) 0
                + (if c = pattern.getD (j' - 1) 0 then 0 else 1)
            else D.getD (r * (m + 1) + j') 0 := by
  intro cnt
  induction cnt with
  | zero =>
    intro j D hj hcnt
    refine ⟨rfl, ?_⟩
    intro r j' hj' _
    rw [hamming_fill, if_neg (by omega)]
  | succ cnt ih =>
    intro j D hj hcnt
    rw [hamming_fill]
    obtain ⟨h1, h2⟩ := ih (j + 1)
      (D.set (i * (m + 1) + j)
        (D.getD ((i - 1) * (m + 1) + j - 1) 0 + (if c = pattern.getD (j - 1) 0 then 0 else 1)))
      (by omega) (by omega)
    refine ⟨by rw [h1, List.length_set], ?_⟩
    intro r j' hj' hlt
    rw [h2 r j' hj' (by rw [List.length_set]; exact hlt)]
    have hread : ∀ v, (D.set (i * (m + 1) + j) v).getD ((i - 1) * (m + 1) + (j' - 1)) 0
        = D.getD ((i - 1) * (m + 1) + (j' - 1)) 0 := by
      intro v
      rw [getD_set, if_neg]
      intro h
      have := (idx_inj m i (i - 1) j (j' - 1) (by omega) (by omega) h.1).1
      omega
    by_cases hr : r = i
    · subst hr
      by_cases hjj : j + 1 ≤ j'
      · have c1 : r = r ∧ j + 1 ≤ j' := ⟨rfl, hjj⟩
        have c2 : r = r ∧ j ≤ j' := ⟨rfl, by omega⟩
        rw [if_pos c1, if_pos c2, hread]
      · have c1 : ¬ (r = r ∧ j + 1 ≤ j') := fun h => hjj h.2
        rw [if_neg c1]
        by_cases hje : j = j'
        · subst hje
          have c2 : r = r ∧ j ≤ j := ⟨rfl, le_refl _⟩
          have c3 : r * (m + 1) + j = r * (m + 1) + j ∧ r * (m + 1) + j < D.length :=
            ⟨rfl, hlt⟩
          have : (r - 1) * (m + 1) + j - 1 = (r - 1) * (m + 1) + (j - 1) := by omega
          rw [getD_set, if_pos c3, if_pos c2, this]
        · have c2 : ¬ (r = r ∧ j ≤ j') := fun h => by omega
          have c3 : ¬ (r * (m + 1) + j = r * (m + 1) + j' ∧ r * (m + 1) + j < D.length) :=
            fun h => hje (idx_inj m r r j j' (by omega) hj' h.1).2
          rw [getD_set, if_neg c3, if_neg c2]
    · have c1 : ¬ (r = i ∧ j + 1 ≤ j') := fun h => hr h.1
      have c2 : ¬ (r = i ∧ j ≤ j') := fun h => hr h.1
      have c3 : ¬ (i * (m + 1) + j = r * (m + 1) + j' ∧ i * (m + 1) + j < D.length) :=
        fun h => hr (idx_inj m i r j j' (by omega) hj' h.1).1.symm
      rw [if_neg c1, if_neg c2, getD_set, if_neg c3]

theorem gram_last_row_snoc (row : Nat → List Nat → List Nat) (m : Nat) (p : List Nat)
    (c : Nat) : gram_last_row row m (p ++ [c]) = row c (gram_last_row row m p) := by
  simp [gram_last_row, List.foldl_append]

theorem hamming_row_getD_zero (pattern : List Nat) (c : Nat) (prev : List Nat) :
    (hamming_row pattern c prev).getD 0 0 = 0 := by
  simp [hamming_row]

theorem hamming_row_getD_succ (pattern : List Nat) (c : Nat) (prev : List Nat) (j : Nat)
    (hj : j < pattern.length) :
    (hamming_row pattern c prev).getD (j + 1) 0
      = prev.getD j 0 + (if c = pattern.getD j 0 then 0 else 1) := by
  unfold hamming_row
  rw [List.getD_eq_getElem?_getD, List.getElem?_cons_succ, List.getElem?_map,
    List.getElem?_range hj]
  rfl

theorem mismatches_congr (a a' b : List Nat) :
    ∀ n, (∀ i, i < n → a.getD i 0 = a'.getD i 0) → mismatches a b n = mismatches a' b n := by
  intro n
  induction n with
  | zero => intro _; rw [mismatches_zero, mismatches_zero]
  | succ n ih =>
    intro h
    rw [mismatches_succ, mismatches_succ, ih (fun i hi => h i (by omega)), h n (by omega)]

theorem gram_last_row_hamming (pattern : List Nat) :
    ∀ (p : List Nat) (j : Nat), p.length ≤ j → j ≤ pattern.length →
      (gram_last_row (hamming_row pattern) pattern.length p).getD j 0
        = mismatches p (pattern.drop (j - p.length)) p.length := by
  intro p
  induction p using List.reverseRecOn with
  | nil =>
    intro j _ hj
    rw [List.length_nil, mismatches_zero]
    simp only [gram_last_row, List.foldl_nil, List.getD_eq_getElem?_getD,
      List.getElem?_replicate]
    split <;> rfl
  | append_singleton p c ih =>
    intro j hpj hj
    rw [List.length_append, List.length_singleton] at hpj ⊢
    obtain ⟨j0, rfl⟩ : ∃ j0, j = j0 + 1 := ⟨j - 1, by omega⟩
    rw [gram_last_row_snoc, hamming_row_getD_succ _ _ _ _ (by omega), ih j0 (by omega) (by omega),
      mismatches_succ, getD_drop]
    have h1 : j0 + 1 - (p.length + 1) = j0 - p.length := by omega
    have h2 : j0 - p.length + p.length = j0 := by omega
    have h3 : (p ++ [c]).getD p.length 0 = c := by
      simp [List.getD_eq_getElem?_getD]
    rw [h1, h2, h3]
    have h4 : mismatches (p ++ [c]) (pattern.drop (j0 - p.length)) p.length
        = mismatches p (pattern.drop (j0 - p.length)) p.length := by
      apply mismatches_congr
      intro i hi
      rw [List.getD_eq_getElem?_getD, List.getD_eq_getElem?_getD, List.getElem?_append_left hi]
    rw [h4]
    by_cases hc : c = pattern.getD j0 0
    · simp [hc]
    · simp [hc]

theorem gram_get_assign (g s : List Nat) (v : Nat) :
    ∀ M : List (List Nat × Nat),
      gram_get g (gram_assign s v M) = if g = s then v else gram_get g M := by
  intro M
  induction M with
  | nil =>
    simp only [gram_assign, gram_get]
    by_cases h : g = s
    · rw [if_pos h.symm, if_pos h]
    · rw [if_neg (fun h' => h h'.symm), if_neg h]
  | cons p rest ih =>
    simp only [gram_assign]
    by_cases hp : p.1 = s
    · rw [if_pos hp]
      simp only [gram_get]
      by_cases h : g = s
      · rw [if_pos h.symm, if_pos h]
      · rw [if_neg (fun h' => h h'.symm), if_neg h, if_neg (fun h' => h (h'.symm.trans hp))]
    · rw [if_neg hp]
      simp only [gram_get]
      rw [ih]
      by_cases h : g = s
      · rw [if_pos h, if_neg (fun h' => hp (h'.trans h)), if_pos h]
      · rw [if_neg h, if_neg h]

theorem preInv_init (pattern : List Nat) (q : Nat) :
    PreInv pattern q [] (List.replicate ((q + 1) * (pattern.length + 1)) 0) := by
  have hz : ∀ n i, (List.replicate n 0).getD i 0 = 0 := by
    intro n i
    rw [List.getD_eq_getElem?_getD, List.getElem?_replicate]
    split <;> rfl
  refine ⟨by simp, fun r _ => hz _ _, ?_⟩
  intro r hr j hj
  rw [hz]
  simp only [List.length_nil, Nat.le_zero] at hr
  subst hr
  rw [List.take_zero]
  exact (hz _ _).symm

theorem preInv_weaken (pattern : List Nat) (q : Nat) (s0 : List Nat) (c : Nat) (D : List Nat)
    (h : PreInv pattern q (s0 ++ [c]) D) : PreInv pattern q s0 D := by
  obtain ⟨h1, h2, h3⟩ := h
  refine ⟨h1, h2, ?_⟩
  intro r hr j hj
  rw [h3 r (by rw [List.length_append]; omega) j hj, List.take_append_of_le_length hr]

theorem preInv_fill (pattern : List Nat) (q : Nat) (s0 : List Nat) (c : Nat) (D : List Nat)
    (hq : s0.length < q) (h : PreInv pattern q s0 D) :
    PreInv pattern q (s0 ++ [c])
      (hamming_fill pattern pattern.length (s0.length + 1) c pattern.length 1 D) := by
  obtain ⟨h1, h2, h3⟩ := h
  obtain ⟨f1, f2⟩ := hamming_fill_spec pattern pattern.length (s0.length + 1) c (by omega)
    pattern.length 1 D (le_refl _) (by omega)
  refine ⟨by rw [f1, h1], ?_, ?_⟩
  · intro r hr
    have := f2 r 0 (Nat.zero_le _) (by rw [h1]; exact idx_lt q _ r 0 hr (Nat.zero_le _))
    simp only [Nat.add_zero] at this
    have c1 : ¬ (r = s0.length + 1 ∧ 1 ≤ 0) := fun h => by omega
    rw [this, if_neg c1]
    exact h2 r hr
  · intro r hr j hj
    rw [List.length_append, List.length_singleton] at hr
    rw [f2 r j hj (by rw [h1]; exact idx_lt q _ r j (by omega) hj)]
    by_cases hrr : r = s0.length + 1
    · subst hrr
      have htake : (s0 ++ [c]).take (s0.length + 1) = s0 ++ [c] := by
        apply List.take_of_length_le
        simp
      rw [htake, gram_last_row_snoc]
      cases j with
      | zero =>
        have c1 : ¬ (s0.length + 1 = s0.length + 1 ∧ 1 ≤ 0) := fun h => by omega
        rw [if_neg c1, hamming_row_getD_zero]
        exact h2 _ (by omega)
      | succ j0 =>
        have c1 : s0.length + 1 = s0.length + 1 ∧ 1 ≤ j0 + 1 := ⟨rfl, by omega⟩
        rw [if_pos c1, hamming_row_getD_succ _ _ _ _ (by omega)]
        simp only [Nat.add_sub_cancel]
        rw [h3 s0.length (le_refl _) j0 (by omega), List.take_length]
    · have c1 : ¬ (r = s0.length + 1 ∧ 1 ≤ j) := fun h => hrr h.1
      rw [if_neg c1, h3 r (by omega) j hj,
        List.take_append_of_le_length (by omega)]

theorem gram_cond_iff (S1 s0 g : List Nat) (q : Nat) (hq : s0.length < q) :
    ((∃ c ∈ S1, g.take (s0.length + 1) = s0 ++ [c]) ∧ g.length = q ∧
        ∀ c ∈ g.drop (s0.length + 1), c ∈ S1) ↔
      (g.take s0.length = s0 ∧ g.length = q ∧ ∀ c ∈ g.drop s0.length, c ∈ S1) := by
  constructor
  · rintro ⟨⟨c, hc, ht⟩, hl, hd⟩
    have hg : g = s0 ++ (c :: g.drop (s0.length + 1)) := by
      conv_lhs => rw [← List.take_append_drop (s0.length + 1) g, ht]
      simp
    have hdrop : g.drop s0.length = c :: g.drop (s0.length + 1) := by
      conv_lhs => rw [hg]
      exact List.drop_left _ _
    have htake : g.take s0.length = s0 := by
      conv_lhs => rw [hg]
      exact List.take_left _ _
    refine ⟨htake, hl, ?_⟩
    intro c' hc'
    rw [hdrop, List.mem_cons] at hc'
    rcases hc' with rfl | h
    · exact hc
    · exact hd c' h
  · rintro ⟨ht, hl, hd⟩
    have hlt : s0.length < g.length := by omega
    have hdrop : g.drop s0.length = g[s0.length] :: g.drop (s0.length + 1) :=
      List.drop_eq_getElem_cons hlt
    refine ⟨⟨g[s0.length], hd _ (by rw [hdrop]; exact List.mem_cons_self _ _), ?_⟩, hl, ?_⟩
    · rw [List.take_succ, ht, List.getElem?_eq_getElem hlt]
      rfl
    · intro c hc
      exact hd c (by rw [hdrop]; exact List.mem_cons_of_mem _ hc)

theorem helper_fold_spec (pattern : List Nat) (k q : Nat) (S1 : List Nat) (depth : Nat)
    (s0 : List Nat) (ha : s0.length < q)
    (ih : ∀ st : PreState, st.s.length = s0.length + 1 → PreInv pattern q st.s st.D →
      (preprocess_helper_hamming pattern pattern.length k S1 depth (s0.length + 1 + 1) st).s
        = st.s ∧
      PreInv pattern q st.s
        (preprocess_helper_hamming pattern pattern.length k S1 depth (s0.length + 1 + 1) st).D ∧
      ∀ g : List Nat,
        ((g.take (s0.length + 1) = st.s ∧ g.length = q ∧
            ∀ c ∈ g.drop (s0.length + 1), c ∈ S1) →
          gram_get g
            (preprocess_helper_hamming pattern pattern.length k S1 depth (s0.length + 1 + 1) st).M
            = (gram_last_row (hamming_row pattern) pattern.length g).getD pattern.length 0) ∧
        (¬ (g.take (s0.length + 1) = st.s ∧ g.length = q ∧
            ∀ c ∈ g.drop (s0.length + 1), c ∈ S1) →
          gram_get g
            (preprocess_helper_hamming pattern pattern.length k S1 depth (s0.length + 1 + 1) st).M
            = gram_get g st.M)) :
    ∀ (cs : List Nat) (acc : PreState), acc.s.dropLast = s0 → PreInv pattern q s0 acc.D →
      (cs.foldl (fun (acc : PreState) c =>
          preprocess_helper_hamming pattern pattern.length k S1 depth (s0.length + 1 + 1)
            { s := acc.s.dropLast ++ [c]
              M := acc.M
              Ds := acc.Ds
              D := hamming_fill pattern pattern.length (s0.length + 1) c pattern.length 1
                acc.D }) acc).s.dropLast = s0 ∧
      PreInv pattern q s0
        (cs.foldl (fun (acc : PreState) c =>
          preprocess_helper_hamming pattern pattern.length k S1 depth (s0.length + 1 + 1)
            { s := acc.s.dropLast ++ [c]
              M := acc.M
              Ds := acc.Ds
              D := hamming_fill pattern pattern.length (s0.length + 1) c pattern.length 1
                acc.D }) acc).D ∧
      ∀ g : List Nat,
        (((∃ c ∈ cs, g.take (s0.length + 1) = s0 ++ [c]) ∧ g.length = q ∧
            ∀ c ∈ g.drop (s0.length + 1), c ∈ S1) →
          gram_get g
            (cs.foldl (fun (acc : PreState) c =>
              preprocess_helper_hamming pattern pattern.length k S1 depth (s0.length + 1 + 1)
                { s := acc.s.dropLast ++ [c]
                  M := acc.M
                  Ds := acc.Ds
                  D := hamming_fill pattern pattern.length (s0.length + 1) c pattern.length 1
                    acc.D }) acc).M
            = (gram_last_row (hamming_row pattern) pattern.length g).getD pattern.length 0) ∧
        (¬ ((∃ c ∈ cs, g.take (s0.length + 1) = s0 ++ [c]) ∧ g.length = q ∧
            ∀ c ∈ g.drop (s0.length + 1), c ∈ S1) →
          gram_get g
            (cs.foldl (fun (acc : PreState) c =>
              preprocess_helper_hamming pattern pattern.length k S1 depth (s0.length + 1 + 1)
                { s := acc.s.dropLast ++ [c]
                  M := acc.M
                  Ds := acc.Ds
                  D := hamming_fill pattern pattern.length (s0.length + 1) c pattern.length 1
                    acc.D }) acc).M
            = gram_get g acc.M) := by
  intro cs
  induction cs with
  | nil =>
    intro acc h1 h2
    refine ⟨h1, h2, fun g => ⟨fun h => ?_, fun _ => rfl⟩⟩
    obtain ⟨⟨c, hc, _⟩, _⟩ := h
    exact absurd hc (List.not_mem_nil _)
  | cons c cs ihc =>
    intro acc h1 h2
    subst h1
    rw [List.foldl_cons]
    obtain ⟨i1, i2, i3⟩ := ih
      { s := acc.s.dropLast ++ [c]
        M := acc.M
        Ds := acc.Ds
        D := hamming_fill pattern pattern.length (acc.s.dropLast.length + 1) c pattern.length 1
          acc.D }
      (by simp)
      (preInv_fill pattern q acc.s.dropLast c acc.D ha h2)
    obtain ⟨c1, c2, c3⟩ := ihc _
      (by rw [i1]; simp)
      (preInv_weaken pattern q acc.s.dropLast c _ i2)
    refine ⟨c1, c2, fun g => ⟨fun hcond => ?_, fun hncond => ?_⟩⟩
    · by_cases hcs : ((∃ c' ∈ cs, g.take (acc.s.dropLast.length + 1) = acc.s.dropLast ++ [c']) ∧
          g.length = q ∧ ∀ c ∈ g.drop (acc.s.dropLast.length + 1), c ∈ S1)
      · exact (c3 g).1 hcs
      · rw [(c3 g).2 hcs]
        obtain ⟨⟨c', hc', ht⟩, hl, hd⟩ := hcond
        rcases List.mem_cons.mp hc' with rfl | hmem
        · exact (i3 g).1 ⟨ht, hl, hd⟩
        · exact absurd ⟨⟨c', hmem, ht⟩, hl, hd⟩ hcs
    · have hcs : ¬ ((∃ c' ∈ cs, g.take (acc.s.dropLast.length + 1) = acc.s.dropLast ++ [c']) ∧
          g.length = q ∧ ∀ c ∈ g.drop (acc.s.dropLast.length + 1), c ∈ S1) := by
        rintro ⟨⟨c', hc', ht⟩, hl, hd⟩
        exact hncond ⟨⟨c', List.mem_cons_of_mem _ hc', ht⟩, hl, hd⟩
      rw [(c3 g).2 hcs]
      apply (i3 g).2
      rintro ⟨ht, hl, hd⟩
      exact hncond ⟨⟨c, List.mem_cons_self _ _, ht⟩, hl, hd⟩

theorem preInv_last (pattern : List Nat) (q : Nat) (s D : List Nat) (hs : s.length = q)
    (h : PreInv pattern q s D) :
    D.getLastD 0 = (gram_last_row (hamming_row pattern) pattern.length s).getD pattern.length 0 := by
  obtain ⟨h1, _, h3⟩ := h
  have h := h3 q (by omega) pattern.length (le_refl _)
  rw [List.take_of_length_le (by omega)] at h
  rw [← h, List.getLastD_eq_getLast?, List.getLast?_eq_getElem?, List.getD_eq_getElem?_getD, h1]
  have : (q + 1) * (pattern.length + 1) - 1 = q * (pattern.length + 1) + pattern.length := by
    have : (q + 1) * (pattern.length + 1) = q * (pattern.length + 1) + (pattern.length + 1) := by
      ring
    omega
  rw [this]

theorem preprocess_helper_hamming_spec (pattern : List Nat) (k q : Nat) (S1 : List Nat) :
    ∀ (depth : Nat) (st : PreState), st.s.length + depth = q → PreInv pattern q st.s st.D →
      (preprocess_helper_hamming pattern pattern.length k S1 depth (st.s.length + 1) st).s
        = st.s ∧
      PreInv pattern q st.s
        (preprocess_helper_hamming pattern pattern.length k S1 depth (st.s.length + 1) st).D ∧
      ∀ g : List Nat,
        ((g.take st.s.length = st.s ∧ g.length = q ∧ ∀ c ∈ g.drop st.s.length, c ∈ S1) →
          gram_get g
            (preprocess_helper_hamming pattern pattern.length k S1 depth (st.s.length + 1) st).M
            = (gram_last_row (hamming_row pattern) pattern.length g).getD pattern.length 0) ∧
        (¬ (g.take st.s.length = st.s ∧ g.length = q ∧ ∀ c ∈ g.drop st.s.length, c ∈ S1) →
          gram_get g
            (preprocess_helper_hamming pattern pattern.length k S1 depth (st.s.length + 1) st).M
            = gram_get g st.M) := by
  intro depth
  induction depth with
  | zero =>
    intro st ha hinv
    rw [preprocess_helper_hamming]
    refine ⟨rfl, hinv, fun g => ?_⟩
    simp only []
    rw [gram_get_assign, preInv_last pattern q st.s st.D (by omega) hinv]
    constructor
    · rintro ⟨ht, hl, _⟩
      have hg : g = st.s := by
        rw [← ht]
        exact (List.take_of_length_le (by omega)).symm
      rw [if_pos hg, hg]
    · intro hn
      have hg : g ≠ st.s := by
        intro hg
        apply hn
        subst hg
        refine ⟨List.take_of_length_le (le_refl _), by omega, ?_⟩
        intro c hc
        rw [List.drop_of_length_le (le_refl _)] at hc
        exact absurd hc (List.not_mem_nil _)
      rw [if_neg hg]
  | succ depth ihd =>
    intro st ha hinv
    rw [preprocess_helper_hamming]
    obtain ⟨f1, f2, f3⟩ := helper_fold_spec pattern k q S1 depth st.s (by omega)
      (fun st1 h1 h2 => by
        have := ihd st1 (by omega) h2
        rw [h1] at this
        exact this)
      S1 { s := st.s ++ [S1.headD 0], M := st.M, Ds := st.Ds, D := st.D }
      (by simp) hinv
    refine ⟨f1, f2, fun g => ⟨fun hc => ?_, fun hn => ?_⟩⟩
    · exact (f3 g).1 ((gram_cond_iff S1 st.s g q (by omega)).mpr hc)
    · exact (f3 g).2 (fun h => hn ((gram_cond_iff S1 st.s g q (by omega)).mp h))

/-- C20: for every pattern of length `m >= q`, every `k` and every reduced alphabet `S1`,
after `preprocess_hamming`, for every gram `g` of `q` symbols of `S1`, the entry `M[g]` is
the number of positions at which `g` differs from the last `q` symbols of the pattern, the
Hamming distance of the gram aligned at the end of the pattern. It is also the value that
`gram_tables` gives for `g`. -/
theorem preprocess_hamming_M_end_distance (pattern : List Nat) (k q : Nat) (S1 : List Nat)
    (M Ds : List (List Nat × Nat)) (g : List Nat)
    (hq : q ≤ pattern.length) (hg : g.length = q) (hS : ∀ c ∈ g, c ∈ S1) :
    gram_get g (preprocess_hamming pattern k q S1 M Ds).1
        = mismatches g (pattern.drop (pattern.length - q)) q ∧
    gram_get g (preprocess_hamming pattern k q S1 M Ds).1
        = (gram_tables (hamming_row pattern) pattern.length k q S1 g).1 := by
  have h := preprocess_helper_hamming_spec pattern k q S1 q
    { s := [], M := M, Ds := Ds, D := List.replicate ((q + 1) * (pattern.length + 1)) 0 }
    (by simp) (preInv_init pattern q)
  have hM := (h.2.2 g).1 ⟨rfl, hg, hS⟩
  have e1 : gram_get g (preprocess_hamming pattern k q S1 M Ds).1
      = (gram_last_row (hamming_row pattern) pattern.length g).getD pattern.length 0 := hM
  refine ⟨?_, ?_⟩
  · rw [e1, gram_last_row_hamming pattern g pattern.length (by omega) (le_refl _), hg]
  · rw [e1]
    unfold gram_tables
    rw [if_pos ⟨hg, hS⟩]

/-- Check of C20: pattern `[1, 2, 3]`, `q = 2`, alphabet `[1, 2, 3]`, gram `[2, 1]`: the
last two pattern symbols are `[2, 3]`, so `M[g] = 1`. -/
theorem preprocess_hamming_M_end_distance_witness :
    gram_get [2, 1] (preprocess_hamming [1, 2, 3] 1 2 [1, 2, 3] [] []).1
        = mismatches [2, 1] ([1, 2, 3].drop ([1, 2, 3].length - 2)) 2 ∧
    gram_get [2, 1] (preprocess_hamming [1, 2, 3] 1 2 [1, 2, 3] [] []).1
        = (gram_tables (hamming_row [1, 2, 3]) [1, 2, 3].length 1 2 [1, 2, 3] [2, 1]).1 :=
  preprocess_hamming_M_end_distance [1, 2, 3] 1 2 [1, 2, 3] [] [] [2, 1]
    (by decide) (by decide) (by decide)

/-! ## Levenshtein validator: verdict, early return, and the case `k = 0` -/

theorem lev_eq_zero_iff (xs : List Nat) :
    ∀ ys : List Nat, levenshtein Levenshtein.defaultCost xs ys = 0 ↔ xs = ys := by
  induction xs with
  | nil =>
    intro ys
    rw [lev_nil_left]
    constructor
    · intro h; exact (List.length_eq_zero.mp h).symm
    · intro h; rw [← h]; rfl
  | cons x xs ih =>
    intro ys
    cases ys with
    | nil =>
      rw [lev_nil_right]
      constructor
      · intro h; simp at h
      · intro h; exact absurd h (List.cons_ne_nil _ _)
    | cons y ys =>
      rw [lev_cons_cons]
      have h3 := ih ys
      generalize levenshtein Levenshtein.defaultCost xs (y :: ys) = v1
      generalize levenshtein Levenshtein.defaultCost (x :: xs) ys = v2
      generalize levenshtein Levenshtein.defaultCost xs ys = v3 at h3
      constructor
      · intro h
        by_cases hxy : x = y
        · rw [if_pos hxy] at h
          have : v3 = 0 := by omega
          rw [hxy, h3.mp this]
        · rw [if_neg hxy] at h
          omega
      · intro h
        injection h with h1 h2
        have : v3 = 0 := h3.mpr h2
        rw [if_pos h1, this]
        omega

theorem validate_hamming_zero_iff (first s_first : List Nat) (m : Nat)
    (hfirst : m ≤ first.length) (hs : s_first.length = m) :
    validate_hamming first s_first 0 m = true ↔ first.take m = s_first := by
  rw [validate_hamming_iff, Nat.le_zero, mismatches_eq_zero_iff]
  constructor
  · intro h; exact take_eq_of_getD first s_first m hfirst hs h
  · intro h; exact getD_of_take_eq first s_first m h

theorem validate_levenshtein_zero_iff (first s_first : List Nat) (m : Nat)
    (hfirst : m ≤ first.length) (hs : s_first.length = m) :
    validate_levenshtein first s_first 0 m = true ↔ first.take m = s_first := by
  rw [validate_levenshtein_iff_suffix first s_first 0 m (by omega) (by omega)]
  have htake : s_first.take m = s_first := List.take_of_length_le (by omega)
  rw [htake, Nat.add_zero]
  constructor
  · rintro ⟨s, hsuf, hlev⟩
    have hz : levenshtein Levenshtein.defaultCost s s_first = 0 := by omega
    have he : s = s_first := (lev_eq_zero_iff s s_first).mp hz
    subst he
    exact (List.IsSuffix.eq_of_length hsuf (by rw [List.length_take]; omega)).symm
  · intro h
    refine ⟨first.take m, List.suffix_refl _, ?_⟩
    rw [h, (lev_eq_zero_iff s_first s_first).mpr rfl]

/-- C25: for every `k`, every pattern of `m` symbols and every text with at least `m + k`
symbols, `validate_levenshtein(first, s_first, k, m)` returns true exactly when some suffix
of the first `m + k` text symbols, the empty one included, is at Levenshtein distance at
most `k` from the whole pattern. The verdict is the one of the final cell (row `m + k`,
column `m`): the early return at the band boundary never changes it. With `k = 0` the
function returns true exactly when the first `m` text symbols are the pattern, and it
agrees with `validate_hamming` at `k = 0`. -/
theorem validate_levenshtein_verdict (first s_first : List Nat) (k m : Nat)
    (hfirst : m + k ≤ first.length) (hs : s_first.length = m) :
    (validate_levenshtein first s_first k m = true ↔
      ∃ s, s <:+ first.take (m + k) ∧ levenshtein Levenshtein.defaultCost s s_first ≤ k) ∧
    (validate_levenshtein first s_first k m = true ↔ lev_matrix first s_first (m + k) m ≤ k) ∧
    (validate_levenshtein first s_first 0 m = true ↔ first.take m = s_first) ∧
    validate_levenshtein first s_first 0 m = validate_hamming first s_first 0 m := by
  have htake : s_first.take m = s_first := List.take_of_length_le (by omega)
  refine ⟨?_, validate_levenshtein_iff_last first s_first k m, ?_, ?_⟩
  · have h := validate_levenshtein_iff_suffix first s_first k m hfirst (by omega)
    rw [htake] at h
    exact h
  · exact validate_levenshtein_zero_iff first s_first m (by omega) hs
  · rw [Bool.eq_iff_iff, validate_levenshtein_zero_iff first s_first m (by omega) hs,
      validate_hamming_zero_iff first s_first m (by omega) hs]

/-- Check of C25: text `xabc`, pattern `abc`, `k = 1`: the suffix `abc` of the first four
text symbols is the pattern. -/
theorem validate_levenshtein_verdict_witness :
    (validate_levenshtein [120, 97, 98, 99] [97, 98, 99] 1 3 = true ↔
      ∃ s, s <:+ [120, 97, 98, 99].take (3 + 1) ∧
        levenshtein Levenshtein.defaultCost s [97, 98, 99] ≤ 1) ∧
    (validate_levenshtein [120, 97, 98, 99] [97, 98, 99] 1 3 = true ↔
      lev_matrix [120, 97, 98, 99] [97, 98, 99] (3 + 1) 3 ≤ 1) ∧
    (validate_levenshtein [120, 97, 98, 99] [97, 98, 99] 0 3 = true ↔
      [120, 97, 98, 99].take 3 = [97, 98, 99]) ∧
    validate_levenshtein [120, 97, 98, 99] [97, 98, 99] 0 3
      = validate_hamming [120, 97, 98, 99] [97, 98, 99] 0 3 :=
  validate_levenshtein_verdict [120, 97, 98, 99] [97, 98, 99] 1 3 (by decide) (by decide)

/-! ## Q-gram filter: the candidate offset -/

set_option maxRecDepth 100000 in
/-- C26, the code at the failing input: text `abcdefghijklmnopa`, pattern
`abcdefghijklmnop`, `k = 1`, Hamming mode, so `m = 16 >= q`, `n = 17 >= m`, and `freq` has
16 entries. The scan starts with the cursor at `m - q = 10`; the gram read there is the end
of the pattern, `M[gram] = 0 <= k`, and the candidate offset `s + q - m - k = -1` lies
before the start of the text: the iteration has no defined outcome and neither has the call.
In edit-distance mode (text `abcdefghijklmnopab`, start `m - k - q = 9`) the first candidate
offset is `-2`. -/
theorem fuzzy_search_candidate_before_text :
    6 ≤ alphabet16.length ∧ alphabet16.length ≤ (alphabet16 ++ [97]).length ∧
    (fuzzy_freq sort_by_count (alphabet16 ++ [97]) alphabet16).length = 16 ∧
    size_sub alphabet16.length 6 = 10 ∧
    (fuzzy_tables sort_by_count (alphabet16 ++ [97]) alphabet16 1 true
      (((fuzzy_T1m sort_by_count (alphabet16 ++ [97]) alphabet16).drop 10).take 6)).1 = 0 ∧
    (10 : Int) + 6 - (alphabet16.length : Int) - 1 = -1 ∧
    scan_step (alphabet16 ++ [97]) alphabet16
      (fuzzy_T1m sort_by_count (alphabet16 ++ [97]) alphabet16) 1 6 true
      (fuzzy_tables sort_by_count (alphabet16 ++ [97]) alphabet16 1 true) 10
        = ScanStep.undefined ∧
    fuzzy_search sort_by_count (alphabet16 ++ [97]) alphabet16 1 true = none ∧
    1 + 6 ≤ alphabet16.length ∧
    size_sub (size_sub alphabet16.length 1) 6 = 9 ∧
    (9 : Int) + 6 - (alphabet16.length : Int) - 1 = -2 ∧
    scan_step (alphabet16 ++ [97, 98]) alphabet16
      (fuzzy_T1m sort_by_count (alphabet16 ++ [97, 98]) alphabet16) 1 6 false
      (fuzzy_tables sort_by_count (alphabet16 ++ [97, 98]) alphabet16 1 false) 9
        = ScanStep.undefined ∧
    fuzzy_search sort_by_count (alphabet16 ++ [97, 98]) alphabet16 1 false = none := by
  decide

/-! ## Q-gram filter: the reduced alphabet and the mapping -/

theorem map_get_assign (c a b : Nat) :
    ∀ mp : List (Nat × Nat),
      map_get c (map_assign a b mp) = if c = a then b else map_get c mp := by
  intro mp
  induction mp with
  | nil =>
    simp only [map_assign, map_get]
    by_cases h : c = a
    · rw [if_pos h.symm, if_pos h]
    · rw [if_neg (fun h' => h h'.symm), if_neg h]
  | cons p rest ih =>
    simp only [map_assign]
    by_cases hp : p.1 = a
    · rw [if_pos hp]
      simp only [map_get]
      by_cases h : c = a
      · rw [if_pos h.symm, if_pos h]
      · rw [if_neg (fun h' => h h'.symm), if_neg h, if_neg (fun h' => h (h'.symm.trans hp))]
    · rw [if_neg hp]
      simp only [map_get]
      rw [ih]
      by_cases h : c = a
      · rw [if_pos h, if_neg (fun h' => hp (h'.trans h)), if_pos h]
      · rw [if_neg h, if_neg h]

theorem fold_text_length :
    ∀ (text S : List Nat) (added : Bool) (extra : Nat),
      (fold_text text S added extra).length = text.length := by
  intro text
  induction text with
  | nil => intro S added extra; rfl
  | cons c rest ih =>
    intro S added extra
    rw [fold_text]
    split
    · rw [List.length_cons, ih, List.length_cons]
    · split
      · rw [List.length_cons, ih, List.length_cons]
      · rw [List.length_cons, ih, List.length_cons]

theorem count_incr_keys (c x : Nat) :
    ∀ l : List (Nat × Nat),
      x ∈ (count_incr c l).map Prod.fst ↔ x = c ∨ x ∈ l.map Prod.fst := by
  intro l
  induction l with
  | nil => simp [count_incr]
  | cons p rest ih =>
    rw [count_incr]
    split
    · simp
    · split
      · rename_i h1 h2
        simp only [List.map_cons, List.mem_cons]
        constructor
        · intro h; exact Or.inr h
        · rintro (h | h)
          · exact Or.inl (h.trans h2)
          · exact h
      · simp only [List.map_cons, List.mem_cons, ih]
        tauto

theorem count_incr_sorted (c : Nat) :
    ∀ l : List (Nat × Nat), (l.map Prod.fst).Pairwise (fun a b => a < b) →
      ((count_incr c l).map Prod.fst).Pairwise (fun a b => a < b) := by
  intro l
  induction l with
  | nil => intro _; simp [count_incr]
  | cons p rest ih =>
    intro h
    rw [List.map_cons, List.pairwise_cons] at h
    rw [count_incr]
    split
    · rename_i h1
      simp only [List.map_cons, List.pairwise_cons, List.mem_cons]
      refine ⟨?_, h.1, h.2⟩
      rintro y (rfl | hy)
      · exact h1
      · exact Nat.lt_trans h1 (h.1 y hy)
    · split
      · simp only [List.map_cons, List.pairwise_cons]
        exact h
      · rename_i h1 h2
        simp only [List.map_cons, List.pairwise_cons]
        refine ⟨?_, ih h.2⟩
        intro y hy
        rcases (count_incr_keys c y rest).mp hy with rfl | hy'
        · omega
        · exact h.1 y hy'

theorem count_all_spec (T : List Nat) :
    ∀ acc : List (Nat × Nat), (acc.map Prod.fst).Pairwise (fun a b => a < b) →
      ((T.foldl (fun cnt c => count_incr c cnt) acc).map Prod.fst).Pairwise
          (fun a b => a < b) ∧
      ∀ x, x ∈ (T.foldl (fun cnt c => count_incr c cnt) acc).map Prod.fst ↔
        x ∈ T ∨ x ∈ acc.map Prod.fst := by
  induction T with
  | nil => intro acc h; exact ⟨h, fun x => by simp⟩
  | cons c rest ih =>
    intro acc h
    rw [List.foldl_cons]
    obtain ⟨h1, h2⟩ := ih (count_incr c acc) (count_incr_sorted c acc h)
    refine ⟨h1, fun x => ?_⟩
    rw [h2 x, count_incr_keys, List.mem_cons]
    tauto

theorem count_all_keys (T : List Nat) :
    ((count_all T).map Prod.fst).Nodup ∧ ∀ x, x ∈ (count_all T).map Prod.fst ↔ x ∈ T := by
  obtain ⟨h1, h2⟩ := count_all_spec T [] (by simp)
  refine ⟨?_, fun x => by rw [count_all, h2 x]; simp⟩
  rw [count_all]
  exact h1.imp (fun h => Nat.ne_of_lt h)

theorem mapping0_spec (c : Nat) :
    ∀ (l acc : List (Nat × Nat)),
      (c ∈ l.map Prod.fst →
        map_get c (l.foldl (fun mp p => map_assign p.1 p.1 mp) acc) = c) ∧
      (c ∉ l.map Prod.fst →
        map_get c (l.foldl (fun mp p => map_assign p.1 p.1 mp) acc) = map_get c acc) := by
  intro l
  induction l with
  | nil => intro acc; exact ⟨fun h => by simp at h, fun _ => rfl⟩
  | cons p rest ih =>
    intro acc
    rw [List.foldl_cons]
    obtain ⟨h1, h2⟩ := ih (map_assign p.1 p.1 acc)
    constructor
    · intro hc
      by_cases hr : c ∈ rest.map Prod.fst
      · exact h1 hr
      · rw [h2 hr, map_get_assign]
        rw [List.map_cons, List.mem_cons] at hc
        rcases hc with hc | hc
        · rw [if_pos hc, hc]
        · exact absurd hc hr
    · intro hc
      rw [List.map_cons, List.mem_cons, not_or] at hc
      rw [h2 hc.2, map_get_assign, if_neg hc.1]

theorem merge_rest_spec (srt : List (Nat × Nat) → List (Nat × Nat))
    (hsrt : ∀ l, (srt l).Perm l) (S : List Nat) (c : Nat) :
    ∀ (rest mapping fr : List (Nat × Nat)), fr ≠ [] →
      (∀ x, x ∈ fr.map Prod.fst ↔ x ∈ S) →
      (c ∈ rest.map Prod.fst → map_get c (merge_rest srt rest mapping fr) ∈ S) ∧
      (c ∉ rest.map Prod.fst → map_get c (merge_rest srt rest mapping fr) = map_get c mapping) := by
  intro rest
  induction rest with
  | nil => intro mapping fr _ _; exact ⟨fun h => by simp at h, fun _ => rfl⟩
  | cons p rest ih =>
    intro mapping fr hne hkeys
    rw [merge_rest]
    obtain ⟨init, b, rfl⟩ : ∃ init b, fr = init ++ [b] := by
      rcases List.eq_nil_or_concat fr with h | ⟨L, b, h⟩
      · exact absurd h hne
      · exact ⟨L, b, by rw [h, List.concat_eq_append]⟩
    have hback : (init ++ [b]).getLastD (0, 0) = b := by simp
    have hdrop : (init ++ [b]).dropLast = init := by simp
    simp only [hback, hdrop]
    have hb : b.1 ∈ S := (hkeys b.1).mp (by simp)
    have hperm := hsrt (init ++ [(b.1, b.2 + p.2)])
    obtain ⟨h1, h2⟩ := ih (map_assign p.1 b.1 mapping) (srt (init ++ [(b.1, b.2 + p.2)]))
      (by
        intro h
        have := hperm.length_eq
        rw [h] at this
        simp at this)
      (by
        intro x
        rw [(hperm.map Prod.fst).mem_iff, ← hkeys x]
        simp)
    constructor
    · intro hc
      by_cases hr : c ∈ rest.map Prod.fst
      · exact h1 hr
      · rw [h2 hr, map_get_assign]
        rw [List.map_cons, List.mem_cons] at hc
        rcases hc with hc | hc
        · rw [if_pos hc]; exact hb
        · exact absurd hc hr
    · intro hc
      rw [List.map_cons, List.mem_cons, not_or] at hc
      rw [h2 hc.2, map_get_assign, if_neg hc.1]

/-- The function `fuzzy_search` in terms of its intermediate values. -/
theorem fuzzy_search_unfold (srt : List (Nat × Nat) → List (Nat × Nat))
    (text pattern : List Nat) (k : Nat) (mismatch : Bool) :
    fuzzy_search srt text pattern k mismatch =
      if (fuzzy_freq srt text pattern).length < 16 then none
      else if (if mismatch then size_sub pattern.length 6
          else size_sub (size_sub pattern.length k) 6) > (fuzzy_T1m srt text pattern).length then
        none
      else scan_loop text pattern (fuzzy_T1m srt text pattern) k 6 mismatch
        (fuzzy_tables srt text pattern k mismatch) ((fuzzy_T1m srt text pattern).length + 1)
        (if mismatch then size_sub pattern.length 6
          else size_sub (size_sub pattern.length k) 6) := by
  rfl

theorem fuzzy_freq_keys (srt : List (Nat × Nat) → List (Nat × Nat))
    (hsrt : ∀ l, (srt l).Perm l) (text pattern : List Nat) :
    ((fuzzy_freq srt text pattern).map Prod.fst).Nodup ∧
    ∀ x, x ∈ (fuzzy_freq srt text pattern).map Prod.fst ↔ x ∈ fuzzy_T1 text pattern := by
  have hp := (hsrt (count_all (fuzzy_T1 text pattern))).map Prod.fst
  obtain ⟨h1, h2⟩ := count_all_keys (fuzzy_T1 text pattern)
  unfold fuzzy_freq
  exact ⟨hp.nodup_iff.mpr h1, fun x => by rw [hp.mem_iff, h2 x]⟩

theorem fuzzy_S1_nodup (srt : List (Nat × Nat) → List (Nat × Nat))
    (hsrt : ∀ l, (srt l).Perm l) (text pattern : List Nat)
    (h16 : 16 ≤ (fuzzy_freq srt text pattern).length) :
    (fuzzy_S1 srt text pattern).length = 16 ∧ (fuzzy_S1 srt text pattern).Nodup := by
  unfold fuzzy_S1
  constructor
  · rw [List.length_map, List.length_take]
    omega
  · have h := (fuzzy_freq_keys srt hsrt text pattern).1
    rw [← List.take_append_drop 16 (fuzzy_freq srt text pattern), List.map_append] at h
    exact (List.nodup_append.mp h).1

theorem fuzzy_mapping_spec (srt : List (Nat × Nat) → List (Nat × Nat))
    (hsrt : ∀ l, (srt l).Perm l) (text pattern : List Nat)
    (h16 : 16 ≤ (fuzzy_freq srt text pattern).length) :
    (∀ c ∈ fuzzy_T1 text pattern,
      map_get c (fuzzy_mapping srt text pattern) ∈ fuzzy_S1 srt text pattern) ∧
    (∀ c ∈ fuzzy_S1 srt text pattern, map_get c (fuzzy_mapping srt text pattern) = c) := by
  have hk := fuzzy_freq_keys srt hsrt text pattern
  have hsplit : (fuzzy_freq srt text pattern).map Prod.fst
      = ((fuzzy_freq srt text pattern).take 16).map Prod.fst
        ++ ((fuzzy_freq srt text pattern).drop 16).map Prod.fst := by
    rw [← List.map_append, List.take_append_drop]
  have hne : (fuzzy_freq srt text pattern).take 16 ≠ [] := by
    intro h
    have := congrArg List.length h
    rw [List.length_take, List.length_nil] at this
    omega
  have hm : ∀ c, _ := fun c => merge_rest_spec srt hsrt (fuzzy_S1 srt text pattern) c
    ((fuzzy_freq srt text pattern).drop 16)
    (((fuzzy_freq srt text pattern).take 16).foldl (fun mp p => map_assign p.1 p.1 mp) [])
    ((fuzzy_freq srt text pattern).take 16) hne (fun x => Iff.rfl)
  have h0 : ∀ c, _ := fun c => mapping0_spec c ((fuzzy_freq srt text pattern).take 16) []
  constructor
  · intro c hc
    have hc' := (hk.2 c).mpr hc
    rw [hsplit, List.mem_append] at hc'
    by_cases hd : c ∈ ((fuzzy_freq srt text pattern).drop 16).map Prod.fst
    · exact (hm c).1 hd
    · have ht : c ∈ ((fuzzy_freq srt text pattern).take 16).map Prod.fst := by tauto
      unfold fuzzy_mapping
      rw [(hm c).2 hd, (h0 c).1 ht]
      exact ht
  · intro c hc
    have hd : c ∉ ((fuzzy_freq srt text pattern).drop 16).map Prod.fst := by
      have hn := hk.1
      rw [hsplit] at hn
      exact fun h => (List.nodup_append.mp hn).2.2 hc h
    unfold fuzzy_mapping
    rw [(hm c).2 hd, (h0 c).1 hc]

theorem fuzzy_T1m_spec (srt : List (Nat × Nat) → List (Nat × Nat))
    (hsrt : ∀ l, (srt l).Perm l) (text pattern : List Nat)
    (h16 : 16 ≤ (fuzzy_freq srt text pattern).length) :
    (fuzzy_T1m srt text pattern).length = text.length ∧
    ∀ c ∈ fuzzy_T1m srt text pattern, c ∈ fuzzy_S1 srt text pattern := by
  unfold fuzzy_T1m
  constructor
  · rw [List.length_map]
    exact fold_text_length text pattern false 0
  · intro c hc
    rw [List.mem_map] at hc
    obtain ⟨a, ha, rfl⟩ := hc
    exact (fuzzy_mapping_spec srt hsrt text pattern h16).1 a ha

theorem sort_by_count_perm (l : List (Nat × Nat)) : (sort_by_count l).Perm l :=
  List.perm_insertionSort _ l

/-! ## The shift table `Ds`: bounds -/

theorem find_if_rev_bounds (D : List Nat) (k : Nat) :
    ∀ cnt o, o ≤ find_if_rev D k cnt o ∧ find_if_rev D k cnt o ≤ o + cnt := by
  intro cnt
  induction cnt with
  | zero => intro o; rw [find_if_rev]; omega
  | succ cnt ih =>
    intro o
    rw [find_if_rev]
    split
    · omega
    · have := ih (o + 1); omega

theorem find_if_rev_le (D : List Nat) (k m : Nat) (hz : D.getD (D.length - 1 - m) 0 = 0) :
    ∀ cnt o, o + cnt = m + 1 → o ≤ m → find_if_rev D k cnt o ≤ m := by
  intro cnt
  induction cnt with
  | zero => intro o h1 h2; omega
  | succ cnt ih =>
    intro o h1 h2
    rw [find_if_rev]
    split
    · exact h2
    · rename_i hgt
      by_cases hom : o = m
      · subst hom
        rw [hz] at hgt
        exact absurd (Nat.zero_le k) hgt
      · exact ih (o + 1) (by omega) (by omega)

theorem find_shift_bounds (row : List Nat) (m k : Nat) :
    ∀ cnt o, o ≤ find_shift row m k cnt o ∧ find_shift row m k cnt o ≤ o + cnt := by
  intro cnt
  induction cnt with
  | zero => intro o; rw [find_shift]; omega
  | succ cnt ih =>
    intro o
    rw [find_shift]
    split
    · omega
    · have := ih (o + 1); omega

theorem find_shift_le (row : List Nat) (m k : Nat) (hz : row.getD 0 0 = 0) :
    ∀ cnt o, o + cnt = m + 1 → o ≤ m → find_shift row m k cnt o ≤ m := by
  intro cnt
  induction cnt with
  | zero => intro o h1 h2; omega
  | succ cnt ih =>
    intro o h1 h2
    rw [find_shift]
    split
    · exact h2
    · rename_i hgt
      by_cases hom : o = m
      · subst hom
        rw [Nat.sub_self, hz] at hgt
        exact absurd (Nat.zero_le k) hgt
      · exact ih (o + 1) (by omega) (by omega)

theorem hamming_fill_other (pattern : List Nat) (m i c : Nat) :
    ∀ (cnt j : Nat) (D : List Nat),
      (hamming_fill pattern m i c cnt j D).length = D.length ∧
      ∀ idx, (∀ j', j ≤ j' → j' < j + cnt → idx ≠ i * (m + 1) + j') →
        (hamming_fill pattern m i c cnt j D).getD idx 0 = D.getD idx 0 := by
  intro cnt
  induction cnt with
  | zero => intro j D; exact ⟨rfl, fun _ _ => rfl⟩
  | succ cnt ih =>
    intro j D
    rw [hamming_fill]
    obtain ⟨h1, h2⟩ := ih (j + 1)
      (D.set (i * (m + 1) + j)
        (D.getD ((i - 1) * (m + 1) + j - 1) 0 + (if c = pattern.getD (j - 1) 0 then 0 else 1)))
    refine ⟨by rw [h1, List.length_set], ?_⟩
    intro idx hidx
    rw [h2 idx (fun j' a b => hidx j' (by omega) (by omega)), getD_set]
    have c1 : ¬ (i * (m + 1) + j = idx ∧ i * (m + 1) + j < D.length) :=
      fun h => hidx j (le_refl _) (by omega) h.1.symm
    rw [if_neg c1]

theorem levenshtein_fill_other (pattern : List Nat) (m i c : Nat) :
    ∀ (cnt j : Nat) (D : List Nat),
      (levenshtein_fill pattern m i c cnt j D).length = D.length ∧
      ∀ idx, (∀ j', j ≤ j' → j' < j + cnt → idx ≠ i * (m + 1) + j') →
        (levenshtein_fill pattern m i c cnt j D).getD idx 0 = D.getD idx 0 := by
  intro cnt
  induction cnt with
  | zero => intro j D; exact ⟨rfl, fun _ _ => rfl⟩
  | succ cnt ih =>
    intro j D
    rw [levenshtein_fill]
    obtain ⟨h1, h2⟩ := ih (j + 1)
      (D.set (i * (m + 1) + j)
        (min (D.getD ((i - 1) * (m + 1) + j) 0 + 1)
          (min (D.getD (i * (m + 1) + j - 1) 0 + 1)
            (D.getD ((i - 1) * (m + 1) + j - 1) 0
              + (if c = pattern.getD (j - 1) 0 then 0 else 1)))))
    refine ⟨by rw [h1, List.length_set], ?_⟩
    intro idx hidx
    rw [h2 idx (fun j' a b => hidx j' (by omega) (by omega)), getD_set]
    have c1 : ¬ (i * (m + 1) + j = idx ∧ i * (m + 1) + j < D.length) :=
      fun h => hidx j (le_refl _) (by omega) h.1.symm
    rw [if_neg c1]

theorem last_row_zero_ne (m q i : Nat) :
    ∀ j', 1 ≤ j' → j' < 1 + m → q * (m + 1) ≠ i * (m + 1) + j' := by
  intro j' h1 h2 h
  have := idx_inj m q i 0 j' (Nat.zero_le _) (by omega) (by rw [Nat.add_zero]; exact h)
  omega

theorem gram_assign_mem (s : List Nat) (v : Nat) (p : List Nat × Nat) :
    ∀ M : List (List Nat × Nat), p ∈ gram_assign s v M → p = (s, v) ∨ p ∈ M := by
  intro M
  induction M with
  | nil =>
    intro h
    simp only [gram_assign, List.mem_singleton] at h
    exact Or.inl h
  | cons a rest ih =>
    intro h
    simp only [gram_assign] at h
    split at h
    · rw [List.mem_cons] at h
      rcases h with h | h
      · exact Or.inl h
      · exact Or.inr (List.mem_cons_of_mem _ h)
    · rw [List.mem_cons] at h
      rcases h with h | h
      · exact Or.inr (by rw [h]; exact List.mem_cons_self _ _)
      · rcases ih h with h' | h'
        · exact Or.inl h'
        · exact Or.inr (List.mem_cons_of_mem _ h')

theorem foldl_inv {α β : Type} (P : α → Prop) (f : α → β → α)
    (h : ∀ a b, P a → P (f a b)) : ∀ (l : List β) (a : α), P a → P (l.foldl f a) := by
  intro l
  induction l with
  | nil => intro a ha; exact ha
  | cons b rest ih => intro a ha; exact ih (f a b) (h a b ha)

theorem dsInv_leaf (m q k : Nat) (hm : 1 ≤ m) (st : PreState) (h : DsInv m q st) :
    DsInv m q
      { s := st.s
        M := gram_assign st.s (st.D.getLastD 0) st.M
        Ds := gram_assign st.s (find_if_rev st.D k m 1) st.Ds
        D := st.D } := by
  obtain ⟨h1, h2, h3⟩ := h
  refine ⟨h1, h2, ?_⟩
  intro p hp
  rcases gram_assign_mem _ _ p _ hp with rfl | hp'
  · have hidx : st.D.length - 1 - m = q * (m + 1) := by
      have : (q + 1) * (m + 1) = q * (m + 1) + (m + 1) := by ring
      omega
    refine ⟨(find_if_rev_bounds st.D k m 1).1, ?_⟩
    exact find_if_rev_le st.D k m (by rw [hidx]; exact h2) m 1 (by omega) hm
  · exact h3 p hp'

theorem preprocess_helper_hamming_dsInv (pattern : List Nat) (k q : Nat) (S1 : List Nat)
    (hm : 1 ≤ pattern.length) :
    ∀ (depth i : Nat) (st : PreState), DsInv pattern.length q st →
      DsInv pattern.length q
        (preprocess_helper_hamming pattern pattern.length k S1 depth i st) := by
  intro depth
  induction depth with
  | zero =>
    intro i st h
    rw [preprocess_helper_hamming]
    exact dsInv_leaf pattern.length q k hm st h
  | succ depth ih =>
    intro i st h
    rw [preprocess_helper_hamming]
    have hfold := foldl_inv (DsInv pattern.length q)
      (fun (acc : PreState) c =>
        preprocess_helper_hamming pattern pattern.length k S1 depth (i + 1)
          { s := acc.s.dropLast ++ [c]
            M := acc.M
            Ds := acc.Ds
            D := hamming_fill pattern pattern.length i c pattern.length 1 acc.D })
      (by
        intro acc c hacc
        apply ih
        obtain ⟨a1, a2, a3⟩ := hacc
        obtain ⟨f1, f2⟩ := hamming_fill_other pattern pattern.length i c pattern.length 1 acc.D
        exact ⟨by rw [f1]; exact a1,
          by rw [f2 _ (last_row_zero_ne pattern.length q i)]; exact a2, a3⟩)
      S1 { s := st.s ++ [S1.headD 0], M := st.M, Ds := st.Ds, D := st.D } h
    exact hfold

theorem preprocess_helper_levenshtein_dsInv (pattern : List Nat) (k q : Nat) (S1 : List Nat)
    (hm : 1 ≤ pattern.length) :
    ∀ (depth i : Nat) (st : PreState), DsInv pattern.length q st →
      DsInv pattern.length q
        (preprocess_helper_levenshtein pattern pattern.length k S1 depth i st) := by
  intro depth
  induction depth with
  | zero =>
    intro i st h
    rw [preprocess_helper_levenshtein]
    exact dsInv_leaf pattern.length q k hm st h
  | succ depth ih =>
    intro i st h
    rw [preprocess_helper_levenshtein]
    have hfold := foldl_inv (DsInv pattern.length q)
      (fun (acc : PreState) c =>
        preprocess_helper_levenshtein pattern pattern.length k S1 depth (i + 1)
          { s := acc.s.dropLast ++ [c]
            M := acc.M
            Ds := acc.Ds
            D := levenshtein_fill pattern pattern.length i c pattern.length 1 acc.D })
      (by
        intro acc c hacc
        apply ih
        obtain ⟨a1, a2, a3⟩ := hacc
        obtain ⟨f1, f2⟩ :=
          levenshtein_fill_other pattern pattern.length i c pattern.length 1 acc.D
        exact ⟨by rw [f1]; exact a1,
          by rw [f2 _ (last_row_zero_ne pattern.length q i)]; exact a2, a3⟩)
      S1 { s := st.s ++ [S1.headD 0], M := st.M, Ds := st.Ds, D := st.D } h
    exact hfold

theorem dsInv_init (m q : Nat) (M : List (List Nat × Nat)) :
    DsInv m q { s := [], M := M, Ds := [], D := List.replicate ((q + 1) * (m + 1)) 0 } := by
  refine ⟨by simp, ?_, fun p hp => absurd hp (List.not_mem_nil _)⟩
  show (List.replicate ((q + 1) * (m + 1)) 0).getD (q * (m + 1)) 0 = 0
  rw [List.getD_eq_getElem?_getD, List.getElem?_replicate]
  split <;> rfl

/-! ## The scan of `fuzzy_search`: progress and termination -/

theorem scan_loop_succ (text pattern T1 : List Nat) (k q : Nat) (mismatch : Bool)
    (tables : List Nat → Nat × Nat) (fuel s : Nat) :
    scan_loop text pattern T1 k q mismatch tables (fuel + 1) s =
      match scan_step text pattern T1 k q mismatch tables s with
      | ScanStep.undefined => none
      | ScanStep.result p => some p
      | ScanStep.next s1 => scan_loop text pattern T1 k q mismatch tables fuel s1 := by
  rw [scan_loop]
  unfold scan_step
  by_cases h : T1.length - s > q
  · rw [if_pos h, if_pos h]
    simp only []
    split
    · rfl
    · rfl
    · split <;> rfl
  · rw [if_neg h, if_neg h]

theorem scan_step_next (text pattern T1 : List Nat) (k q : Nat) (mismatch : Bool)
    (tables : List Nat → Nat × Nat) (s s1 : Nat)
    (h : scan_step text pattern T1 k q mismatch tables s = ScanStep.next s1) :
    T1.length - s > q ∧ s1 = s + (tables ((T1.drop s).take q)).2 ∧
      ¬ (T1.length - s ≤ (tables ((T1.drop s).take q)).2 + q - 1) := by
  unfold scan_step at h
  by_cases hq : T1.length - s > q
  · rw [if_pos hq] at h
    simp only [] at h
    split at h
    · exact ScanStep.noConfusion h
    · exact ScanStep.noConfusion h
    · split at h
      · exact ScanStep.noConfusion h
      · rename_i hb
        injection h with h
        exact ⟨hq, h.symm, hb⟩
  · rw [if_neg hq] at h
    exact ScanStep.noConfusion h

theorem gram_last_row_zero (pattern : List Nat) (mismatch : Bool) (m : Nat) (g : List Nat) :
    (gram_last_row (if mismatch then hamming_row pattern else levenshtein_row pattern) m
      g).getD 0 0 = 0 := by
  rcases List.eq_nil_or_concat g with h | ⟨L, b, h⟩
  · subst h
    simp [gram_last_row]
  · rw [h, List.concat_eq_append, gram_last_row_snoc]
    cases mismatch
    · simp [levenshtein_row]
    · simp [hamming_row]

theorem gram_tables_Ds_bounds (pattern : List Nat) (mismatch : Bool) (k q : Nat)
    (S1 g : List Nat) (hg : g.length = q) (hS : ∀ c ∈ g, c ∈ S1) :
    1 ≤ (gram_tables (if mismatch then hamming_row pattern else levenshtein_row pattern)
      pattern.length k q S1 g).2 ∧
    (1 ≤ pattern.length →
      (gram_tables (if mismatch then hamming_row pattern else levenshtein_row pattern)
        pattern.length k q S1 g).2 ≤ pattern.length) := by
  unfold gram_tables
  rw [if_pos ⟨hg, hS⟩]
  simp only []
  refine ⟨(find_shift_bounds _ _ _ _ _).1, fun hm => ?_⟩
  exact find_shift_le _ pattern.length k (gram_last_row_zero pattern mismatch _ g)
    pattern.length 1 (by omega) hm

theorem fuzzy_scan_step_progress (srt : List (Nat × Nat) → List (Nat × Nat))
    (text pattern : List Nat) (k : Nat) (mismatch : Bool) (hsrt : ∀ l, (srt l).Perm l)
    (h16 : 16 ≤ (fuzzy_freq srt text pattern).length) (s s1 : Nat)
    (h : scan_step text pattern (fuzzy_T1m srt text pattern) k 6 mismatch
      (fuzzy_tables srt text pattern k mismatch) s = ScanStep.next s1) :
    s < s1 ∧ s + 6 < text.length ∧ s1 + 6 ≤ text.length := by
  obtain ⟨h1, h2, h3⟩ := scan_step_next _ _ _ _ _ _ _ _ _ h
  obtain ⟨hlen, hmem⟩ := fuzzy_T1m_spec srt hsrt text pattern h16
  rw [hlen] at h1 h3
  have hg : (((fuzzy_T1m srt text pattern).drop s).take 6).length = 6 := by
    rw [List.length_take, List.length_drop, hlen]
    omega
  have hS : ∀ c ∈ ((fuzzy_T1m srt text pattern).drop s).take 6,
      c ∈ fuzzy_S1 srt text pattern :=
    fun c hc => hmem c (List.mem_of_mem_drop (List.mem_of_mem_take hc))
  have hb := (gram_tables_Ds_bounds pattern mismatch k 6 (fuzzy_S1 srt text pattern) _ hg hS).1
  unfold fuzzy_tables at h2 h3
  omega

theorem scan_cursor_bounds (text pattern T1 : List Nat) (k q : Nat) (mismatch : Bool)
    (tables : List Nat → Nat × Nat) (n : Nat)
    (hstep : ∀ s s1, scan_step text pattern T1 k q mismatch tables s = ScanStep.next s1 →
      s < s1 ∧ s1 + q ≤ n) :
    ∀ j s s1, scan_cursor text pattern T1 k q mismatch tables j s = some s1 →
      s + j ≤ s1 ∧ (1 ≤ j → s1 + q ≤ n) := by
  intro j
  induction j with
  | zero =>
    intro s s1 h
    rw [scan_cursor] at h
    injection h with h
    omega
  | succ j ih =>
    intro s s1 h
    rw [scan_cursor] at h
    split at h
    · rename_i s2 hs2
      have h1 := hstep s s2 hs2
      have h2 := ih s2 s1 h
      refine ⟨by omega, fun _ => ?_⟩
      by_cases hj : 1 ≤ j
      · exact h2.2 hj
      · have hj0 : j = 0 := by omega
        subst hj0
        rw [scan_cursor] at h
        injection h with h
        omega
    · exact Option.noConfusion h

theorem scan_loop_none (text pattern T1 : List Nat) (k q : Nat) (mismatch : Bool)
    (tables : List Nat → Nat × Nat) (n : Nat)
    (hstep : ∀ s s1, scan_step text pattern T1 k q mismatch tables s = ScanStep.next s1 →
      s < s1 ∧ s1 + q ≤ n) :
    ∀ fuel s, n < fuel + s → (s ≤ n ∨ 0 < fuel) →
      scan_loop text pattern T1 k q mismatch tables fuel s = none →
      ∃ j s1, scan_cursor text pattern T1 k q mismatch tables j s = some s1 ∧
        scan_step text pattern T1 k q mismatch tables s1 = ScanStep.undefined := by
  intro fuel
  induction fuel with
  | zero => intro s h1 h2 _; omega
  | succ fuel ih =>
    intro s h1 _ h3
    rw [scan_loop_succ] at h3
    split at h3
    · rename_i hu
      exact ⟨0, s, rfl, hu⟩
    · exact Option.noConfusion h3
    · rename_i s2 hs2
      have hp := hstep s s2 hs2
      obtain ⟨j, s1, hj1, hj2⟩ := ih s2 (by omega) (Or.inl (by omega)) h3
      refine ⟨j + 1, s1, ?_, hj2⟩
      rw [scan_cursor, hs2]
      exact hj1



/-! ## Hamming preprocessing: the table `Ds` -/

theorem find_if_rev_eq_find_shift (D row : List Nat) (m k : Nat)
    (h : ∀ j, j ≤ m → D.getD (D.length - 1 - (m - j)) 0 = row.getD j 0) :
    ∀ cnt o, o + cnt ≤ m + 1 → find_if_rev D k cnt o = find_shift row m k cnt o := by
  intro cnt
  induction cnt with
  | zero => intro o _; rfl
  | succ cnt ih =>
    intro o ho
    rw [find_if_rev, find_shift, ih (o + 1) (by omega)]
    have := h (m - o) (by omega)
    have e : m - (m - o) = o := by omega
    rw [e] at this
    rw [this]

theorem preInv_find_if_rev (pattern : List Nat) (q k : Nat) (s D : List Nat)
    (hs : s.length = q) (h : PreInv pattern q s D) :
    find_if_rev D k pattern.length 1
      = find_shift (gram_last_row (hamming_row pattern) pattern.length s) pattern.length k
          pattern.length 1 := by
  obtain ⟨h1, _, h3⟩ := h
  apply find_if_rev_eq_find_shift
  · intro j hj
    have h := h3 q (by omega) j hj
    rw [List.take_of_length_le (by omega)] at h
    rw [← h, h1]
    have : (q + 1) * (pattern.length + 1) - 1 - (pattern.length - j)
        = q * (pattern.length + 1) + j := by
      have : (q + 1) * (pattern.length + 1)
          = q * (pattern.length + 1) + (pattern.length + 1) := by ring
      omega
    rw [this]
  · omega

theorem helper_fold_spec_Ds (pattern : List Nat) (k q : Nat) (S1 : List Nat) (depth : Nat)
    (s0 : List Nat) (ha : s0.length < q)
    (ih : ∀ st : PreState, st.s.length = s0.length + 1 → PreInv pattern q st.s st.D →
      (preprocess_helper_hamming pattern pattern.length k S1 depth (s0.length + 1 + 1) st).s
        = st.s ∧
      PreInv pattern q st.s
        (preprocess_helper_hamming pattern pattern.length k S1 depth (s0.length + 1 + 1) st).D ∧
      ∀ g : List Nat,
        ((g.take (s0.length + 1) = st.s ∧ g.length = q ∧
            ∀ c ∈ g.drop (s0.length + 1), c ∈ S1) →
          gram_get g
            (preprocess_helper_hamming pattern pattern.length k S1 depth (s0.length + 1 + 1) st).Ds
            = find_shift (gram_last_row (hamming_row pattern) pattern.length g) pattern.length k
              pattern.length 1) ∧
        (¬ (g.take (s0.length + 1) = st.s ∧ g.length = q ∧
            ∀ c ∈ g.drop (s0.length + 1), c ∈ S1) →
          gram_get g
            (preprocess_helper_hamming pattern pattern.length k S1 depth (s0.length + 1 + 1) st).Ds
            = gram_get g st.Ds)) :
    ∀ (cs : List Nat) (acc : PreState), acc.s.dropLast = s0 → PreInv pattern q s0 acc.D →
      (cs.foldl (fun (acc : PreState) c =>
          preprocess_helper_hamming pattern pattern.length k S1 depth (s0.length + 1 + 1)
            { s := acc.s.dropLast ++ [c]
              M := acc.M
              Ds := acc.Ds
              D := hamming_fill pattern pattern.length (s0.length + 1) c pattern.length 1
                acc.D }) acc).s.dropLast = s0 ∧
      PreInv pattern q s0
        (cs.foldl (fun (acc : PreState) c =>
          preprocess_helper_hamming pattern pattern.length k S1 depth (s0.length + 1 + 1)
            { s := acc.s.dropLast ++ [c]
              M := acc.M
              Ds := acc.Ds
              D := hamming_fill pattern pattern.length (s0.length + 1) c pattern.length 1
                acc.D }) acc).D ∧
      ∀ g : List Nat,
        (((∃ c ∈ cs, g.take (s0.length + 1) = s0 ++ [c]) ∧ g.length = q ∧
            ∀ c ∈ g.drop (s0.length + 1), c ∈ S1) →
          gram_get g
            (cs.foldl (fun (acc : PreState) c =>
              preprocess_helper_hamming pattern pattern.length k S1 depth (s0.length + 1 + 1)
                { s := acc.s.dropLast ++ [c]
                  M := acc.M
                  Ds := acc.Ds
                  D := hamming_fill pattern pattern.length (s0.length + 1) c pattern.length 1
                    acc.D }) acc).Ds
            = find_shift (gram_last_row (hamming_row pattern) pattern.length g) pattern.length k
              pattern.length 1) ∧
        (¬ ((∃ c ∈ cs, g.take (s0.length + 1) = s0 ++ [c]) ∧ g.length = q ∧
            ∀ c ∈ g.drop (s0.length + 1), c ∈ S1) →
          gram_get g
            (cs.foldl (fun (acc : PreState) c =>
              preprocess_helper_hamming pattern pattern.length k S1 depth (s0.length + 1 + 1)
                { s := acc.s.dropLast ++ [c]
                  M := acc.M
                  Ds := acc.Ds
                  D := hamming_fill pattern pattern.length (s0.length + 1) c pattern.length 1
                    acc.D }) acc).Ds
            = gram_get g acc.Ds) := by
  intro cs
  induction cs with
  | nil =>
    intro acc h1 h2
    refine ⟨h1, h2, fun g => ⟨fun h => ?_, fun _ => rfl⟩⟩
    obtain ⟨⟨c, hc, _⟩, _⟩ := h
    exact absurd hc (List.not_mem_nil _)
  | cons c cs ihc =>
    intro acc h1 h2
    subst h1
    rw [List.foldl_cons]
    obtain ⟨i1, i2, i3⟩ := ih
      { s := acc.s.dropLast ++ [c]
        M := acc.M
        Ds := acc.Ds
        D := hamming_fill pattern pattern.length (acc.s.dropLast.length + 1) c pattern.length 1
          acc.D }
      (by simp)
      (preInv_fill pattern q acc.s.dropLast c acc.D ha h2)
    obtain ⟨c1, c2, c3⟩ := ihc _
      (by rw [i1]; simp)
      (preInv_weaken pattern q acc.s.dropLast c _ i2)
    refine ⟨c1, c2, fun g => ⟨fun hcond => ?_, fun hncond => ?_⟩⟩
    · by_cases hcs : ((∃ c' ∈ cs, g.take (acc.s.dropLast.length + 1) = acc.s.dropLast ++ [c']) ∧
          g.length = q ∧ ∀ c ∈ g.drop (acc.s.dropLast.length + 1), c ∈ S1)
      · exact (c3 g).1 hcs
      · rw [(c3 g).2 hcs]
        obtain ⟨⟨c', hc', ht⟩, hl, hd⟩ := hcond
        rcases List.mem_cons.mp hc' with rfl | hmem
        · exact (i3 g).1 ⟨ht, hl, hd⟩
        · exact absurd ⟨⟨c', hmem, ht⟩, hl, hd⟩ hcs
    · have hcs : ¬ ((∃ c' ∈ cs, g.take (acc.s.dropLast.length + 1) = acc.s.dropLast ++ [c']) ∧
          g.length = q ∧ ∀ c ∈ g.drop (acc.s.dropLast.length + 1), c ∈ S1) := by
        rintro ⟨⟨c', hc', ht⟩, hl, hd⟩
        exact hncond ⟨⟨c', List.mem_cons_of_mem _ hc', ht⟩, hl, hd⟩
      rw [(c3 g).2 hcs]
      apply (i3 g).2
      rintro ⟨ht, hl, hd⟩
      exact hncond ⟨⟨c, List.mem_cons_self _ _, ht⟩, hl, hd⟩

theorem preprocess_helper_hamming_spec_Ds (pattern : List Nat) (k q : Nat) (S1 : List Nat) :
    ∀ (depth : Nat) (st : PreState), st.s.length + depth = q → PreInv pattern q st.s st.D →
      (preprocess_helper_hamming pattern pattern.length k S1 depth (st.s.length + 1) st).s
        = st.s ∧
      PreInv pattern q st.s
        (preprocess_helper_hamming pattern pattern.length k S1 depth (st.s.length + 1) st).D ∧
      ∀ g : List Nat,
        ((g.take st.s.length = st.s ∧ g.length = q ∧ ∀ c ∈ g.drop st.s.length, c ∈ S1) →
          gram_get g
            (preprocess_helper_hamming pattern pattern.length k S1 depth (st.s.length + 1) st).Ds
            = find_shift (gram_last_row (hamming_row pattern) pattern.length g) pattern.length k
              pattern.length 1) ∧
        (¬ (g.take st.s.length = st.s ∧ g.length = q ∧ ∀ c ∈ g.drop st.s.length, c ∈ S1) →
          gram_get g
            (preprocess_helper_hamming pattern pattern.length k S1 depth (st.s.length + 1) st).Ds
            = gram_get g st.Ds) := by
  intro depth
  induction depth with
  | zero =>
    intro st ha hinv
    rw [preprocess_helper_hamming]
    refine ⟨rfl, hinv, fun g => ?_⟩
    simp only []
    rw [gram_get_assign, preInv_find_if_rev pattern q k st.s st.D (by omega) hinv]
    constructor
    · rintro ⟨ht, hl, _⟩
      have hg : g = st.s := by
        rw [← ht]
        exact (List.take_of_length_le (by omega)).symm
      rw [if_pos hg, hg]
    · intro hn
      have hg : g ≠ st.s := by
        intro hg
        apply hn
        subst hg
        refine ⟨List.take_of_length_le (le_refl _), by omega, ?_⟩
        intro c hc
        rw [List.drop_of_length_le (le_refl _)] at hc
        exact absurd hc (List.not_mem_nil _)
      rw [if_neg hg]
  | succ depth ihd =>
    intro st ha hinv
    rw [preprocess_helper_hamming]
    obtain ⟨f1, f2, f3⟩ := helper_fold_spec_Ds pattern k q S1 depth st.s (by omega)
      (fun st1 h1 h2 => by
        have := ihd st1 (by omega) h2
        rw [h1] at this
        exact this)
      S1 { s := st.s ++ [S1.headD 0], M := st.M, Ds := st.Ds, D := st.D }
      (by simp) hinv
    refine ⟨f1, f2, fun g => ⟨fun hc => ?_, fun hn => ?_⟩⟩
    · exact (f3 g).1 ((gram_cond_iff S1 st.s g q (by omega)).mpr hc)
    · exact (f3 g).2 (fun h => hn ((gram_cond_iff S1 st.s g q (by omega)).mp h))

theorem mismatches_add (w p : List Nat) (a : Nat) :
    ∀ l, mismatches w p (a + l) = mismatches w p a + mismatches (w.drop a) (p.drop a) l := by
  intro l
  induction l with
  | zero => rw [Nat.add_zero, mismatches_zero, Nat.add_zero]
  | succ l ih =>
    rw [← Nat.add_assoc, mismatches_succ, mismatches_succ, ih, getD_drop, getD_drop,
      Nat.add_assoc]

theorem mismatches_mono (w p : List Nat) (n : Nat) :
    ∀ d, mismatches w p n ≤ mismatches w p (n + d) := by
  intro d
  rw [mismatches_add]
  exact Nat.le_add_right _ _

theorem gram_last_row_overlap (pattern : List Nat) :
    ∀ (p : List Nat) (j : Nat), j ≤ pattern.length →
      (gram_last_row (hamming_row pattern) pattern.length p).getD j 0
        = overlap_mism p pattern j := by
  intro p
  induction p using List.reverseRecOn with
  | nil =>
    intro j hj
    unfold overlap_mism
    rw [List.length_nil, Nat.min_zero, mismatches_zero]
    simp only [gram_last_row, List.foldl_nil, List.getD_eq_getElem?_getD,
      List.getElem?_replicate]
    split <;> rfl
  | append_singleton p c ih =>
    intro j hj
    rw [gram_last_row_snoc]
    cases j with
    | zero =>
      rw [hamming_row_getD_zero]
      unfold overlap_mism
      rw [Nat.zero_min, mismatches_zero]
    | succ j0 =>
      rw [hamming_row_getD_succ _ _ _ _ (by omega), ih j0 (by omega)]
      unfold overlap_mism
      rw [List.length_append, List.length_singleton]
      have e1 : p.length + 1 - (j0 + 1) = p.length - j0 := by omega
      have e2 : j0 + 1 - (p.length + 1) = j0 - p.length := by omega
      have e3 : min (j0 + 1) (p.length + 1) = min j0 p.length + 1 := by omega
      rw [e1, e2, e3, mismatches_succ, getD_drop, getD_drop]
      have e4 : p.length - j0 + min j0 p.length = p.length := by omega
      have e5 : j0 - p.length + min j0 p.length = j0 := by omega
      have e6 : (p ++ [c]).getD p.length 0 = c := by
        simp [List.getD_eq_getElem?_getD]
      rw [e4, e5, e6]
      have e7 : mismatches ((p ++ [c]).drop (p.length - j0)) (pattern.drop (j0 - p.length))
          (min j0 p.length)
          = mismatches (p.drop (p.length - j0)) (pattern.drop (j0 - p.length))
              (min j0 p.length) := by
        apply mismatches_congr
        intro i hi
        rw [getD_drop, getD_drop, List.getD_eq_getElem?_getD, List.getD_eq_getElem?_getD,
          List.getElem?_append_left (by omega)]
      rw [e7]
      by_cases hc : c = pattern.getD j0 0
      · simp [hc]
      · simp [hc]

theorem find_shift_skipped (row : List Nat) (m k : Nat) :
    ∀ cnt o t, o ≤ t → t < find_shift row m k cnt o → k < row.getD (m - t) 0 := by
  intro cnt
  induction cnt with
  | zero => intro o t h1 h2; rw [find_shift] at h2; omega
  | succ cnt ih =>
    intro o t h1 h2
    rw [find_shift] at h2
    split at h2
    · omega
    · rename_i hgt
      by_cases hto : t = o
      · subst hto; omega
      · exact ih (o + 1) t (by omega) h2

theorem overlap_le_window (g pattern w : List Nat) (j : Nat) (hj : j ≤ pattern.length)
    (hw : ∀ i, i < min j g.length →
      w.getD (j - min j g.length + i) 0 = g.getD (g.length - min j g.length + i) 0) :
    overlap_mism g pattern j ≤ mismatches w pattern pattern.length := by
  unfold overlap_mism
  have e1 : g.length - j = g.length - min j g.length := by omega
  have e2 : j - g.length = j - min j g.length := by omega
  rw [e1, e2]
  have hc : mismatches (g.drop (g.length - min j g.length))
      (pattern.drop (j - min j g.length)) (min j g.length)
      = mismatches (w.drop (j - min j g.length)) (pattern.drop (j - min j g.length))
          (min j g.length) := by
    apply mismatches_congr
    intro i hi
    rw [getD_drop, getD_drop, hw i hi]
  rw [hc]
  have h1 := mismatches_add w pattern (j - min j g.length) (min j g.length)
  have h2 := mismatches_mono w pattern (j - min j g.length + min j g.length)
    (pattern.length - j)
  have e3 : j - min j g.length + min j g.length + (pattern.length - j) = pattern.length := by
    omega
  rw [e3] at h2
  omega

theorem preprocess_hamming_Ds_eq (pattern : List Nat) (k q : Nat) (S1 : List Nat)
    (M Ds : List (List Nat × Nat)) (g : List Nat) (hg : g.length = q)
    (hS : ∀ c ∈ g, c ∈ S1) :
    gram_get g (preprocess_hamming pattern k q S1 M Ds).2
      = find_shift (gram_last_row (hamming_row pattern) pattern.length g) pattern.length k
          pattern.length 1 := by
  have h := preprocess_helper_hamming_spec_Ds pattern k q S1 q
    { s := [], M := M, Ds := Ds, D := List.replicate ((q + 1) * (pattern.length + 1)) 0 }
    (by simp) (preInv_init pattern q)
  exact (h.2.2 g).1 ⟨rfl, hg, hS⟩

/-- C21: for every pattern, of length `m >= q` or shorter, every `k` and every gram `g` of
`q` symbols of `S1`, after `preprocess_hamming` the entry `Ds[g]` is the value that
`gram_tables` gives
for `g`, and it never exceeds the safe shift: for every `t` with `1 <= t < Ds[g]`, `t < m`
and the gram placed so that it ends `t` symbols before the end of the pattern differs from
the pattern in more than `k` of the positions where the two overlap; so every window `w`
that holds the gram at that alignment differs from the pattern in more than `k` of its `m`
positions. -/
theorem preprocess_hamming_Ds_safe (pattern : List Nat) (k q : Nat) (S1 : List Nat)
    (M Ds : List (List Nat × Nat)) (g : List Nat)
    (hg : g.length = q) (hS : ∀ c ∈ g, c ∈ S1) :
    gram_get g (preprocess_hamming pattern k q S1 M Ds).2
        = (gram_tables (hamming_row pattern) pattern.length k q S1 g).2 ∧
    ∀ t, 1 ≤ t → t < gram_get g (preprocess_hamming pattern k q S1 M Ds).2 →
      t < pattern.length ∧
      k < overlap_mism g pattern (pattern.length - t) ∧
      ∀ w : List Nat,
        (∀ i, i < min (pattern.length - t) q →
          w.getD (pattern.length - t - min (pattern.length - t) q + i) 0
            = g.getD (q - min (pattern.length - t) q + i) 0) →
        k < mismatches w pattern pattern.length := by
  have he := preprocess_hamming_Ds_eq pattern k q S1 M Ds g hg hS
  refine ⟨?_, ?_⟩
  · rw [he]
    unfold gram_tables
    rw [if_pos ⟨hg, hS⟩]
  · intro t ht1 ht
    rw [he] at ht
    have hz : (gram_last_row (hamming_row pattern) pattern.length g).getD 0 0 = 0 := by
      rw [gram_last_row_overlap pattern g 0 (Nat.zero_le _)]
      unfold overlap_mism
      rw [Nat.zero_min, mismatches_zero]
    have htm : t < pattern.length := by
      by_cases hm : 1 ≤ pattern.length
      · have := find_shift_le _ pattern.length k hz pattern.length 1 (by omega) hm
        omega
      · have hm0 : pattern.length = 0 := by omega
        rw [hm0, find_shift] at ht
        omega
    have hk := find_shift_skipped _ pattern.length k pattern.length 1 t ht1 ht
    rw [gram_last_row_overlap pattern g _ (by omega)] at hk
    refine ⟨htm, hk, ?_⟩
    intro w hw
    have := overlap_le_window g pattern w (pattern.length - t) (by omega)
      (by rw [hg]; exact hw)
    omega

/-- Check of C21: pattern `[1, 2, 3]`, `k = 1`, `q = 2`, alphabet `[1, 2, 3]`, gram
`[2, 1]`: `Ds[g] = 2`, and the gram ending one symbol before the end of the pattern lies on
`[1, 2]`, from which it differs in both positions. -/
theorem preprocess_hamming_Ds_safe_witness :
    gram_get [2, 1] (preprocess_hamming [1, 2, 3] 1 2 [1, 2, 3] [] []).2
        = (gram_tables (hamming_row [1, 2, 3]) [1, 2, 3].length 1 2 [1, 2, 3] [2, 1]).2 ∧
    ∀ t, 1 ≤ t → t < gram_get [2, 1] (preprocess_hamming [1, 2, 3] 1 2 [1, 2, 3] [] []).2 →
      t < [1, 2, 3].length ∧
      1 < overlap_mism [2, 1] [1, 2, 3] ([1, 2, 3].length - t) ∧
      ∀ w : List Nat,
        (∀ i, i < min ([1, 2, 3].length - t) 2 →
          w.getD ([1, 2, 3].length - t - min ([1, 2, 3].length - t) 2 + i) 0
            = [2, 1].getD (2 - min ([1, 2, 3].length - t) 2 + i) 0) →
        1 < mismatches w [1, 2, 3] [1, 2, 3].length :=
  preprocess_hamming_Ds_safe [1, 2, 3] 1 2 [1, 2, 3] [] [] [2, 1] (by decide) (by decide)

/-! ## Damerau-Levenshtein validator: the source's test never changes a cell -/

theorem dl_inner_eq_lev_inner (T P : List Nat) (k i : Nat) (prev pprev : List Nat)
    (h : 1 < i → ∀ j, 2 ≤ j → prev.getD (j - 1) 0 ≤ pprev.getD (j - 2) 0 + 1) :
    ∀ (cnt j : Nat) (curr : List Nat),
      dl_inner 1 T P k i prev pprev cnt j curr
        = lev_inner (T.getD (i - 1) 0) P k i prev cnt j curr := by
  intro cnt
  induction cnt with
  | zero => intro j curr; rfl
  | succ cnt ih =>
    intro j curr
    rw [dl_inner, lev_inner]
    have hmin : min (prev.getD (j - 1) 0 + (if T.getD (i - 1) 0 = P.getD (j - 1) 0 then 0 else 1))
        (if i > 1 ∧ j > 1 ∧ T.getD (i - 1) 0 = P.getD (j - 2) 0 ∧
            T.getD (i - 1) 0 = P.getD (j - 1) 0 then
          pprev.getD (j - 2) 0 + 1
        else prev.getD (j - 1) 0 + (if T.getD (i - 1) 0 = P.getD (j - 1) 0 then 0 else 1))
        = prev.getD (j - 1) 0 + (if T.getD (i - 1) 0 = P.getD (j - 1) 0 then 0 else 1) := by
      by_cases hg : i > 1 ∧ j > 1 ∧ T.getD (i - 1) 0 = P.getD (j - 2) 0 ∧
          T.getD (i - 1) 0 = P.getD (j - 1) 0
      · rw [if_pos hg, if_pos hg.2.2.2]
        have := h hg.1 j hg.2.1
        omega
      · rw [if_neg hg]
        exact Nat.min_self _
    rw [hmin, ih]

theorem dl_outer_spec (T P : List Nat) (k m : Nat) :
    ∀ (cnt i : Nat) (curr prev pprev : List Nat), i + cnt = m + k →
      curr.length = m + 1 → curr.getD 0 0 = 0 → prev.length = m + 1 →
      (∀ j', j' ≤ m → prev.getD j' 0 = lev_matrix T P i j') →
      pprev.length = m + 1 → pprev.getD 0 0 = 0 →
      (1 ≤ i → ∀ j', j' ≤ m → pprev.getD j' 0 = lev_matrix T P (i - 1) j') →
      (dl_outer 1 T P k m cnt (i + 1) curr prev pprev = true ↔
        (∀ i' j', i < i' → i' ≤ m + k → 1 ≤ j' → j' ≤ m → i' = j' + k →
          lev_matrix T P i' j' ≤ k) ∧ lev_matrix T P (m + k) m ≤ k) := by
  intro cnt
  induction cnt with
  | zero =>
    intro i curr prev pprev hi _ _ _ hprev _ _ _
    rw [dl_outer]
    have : i = m + k := by omega
    subst this
    rw [decide_eq_true_iff, hprev m (Nat.le_refl m)]
    constructor
    · intro h
      refine ⟨?_, h⟩
      intro i' j' h1 h2; omega
    · exact fun h => h.2
  | succ cnt ih =>
    intro i curr prev pprev hi hlen h0 hplen hprev hpplen hpp0 hpprev
    rw [dl_outer]
    have hdiag : 1 < i + 1 → ∀ j, 2 ≤ j → prev.getD (j - 1) 0 ≤ pprev.getD (j - 2) 0 + 1 := by
      intro hi1 j hj
      by_cases hjm : j - 1 ≤ m
      · obtain ⟨i0, rfl⟩ : ∃ i0, i = i0 + 1 := ⟨i - 1, by omega⟩
        obtain ⟨j0, rfl⟩ : ∃ j0, j = j0 + 2 := ⟨j - 2, by omega⟩
        have e1 : j0 + 2 - 1 = j0 + 1 := by omega
        have e2 : j0 + 2 - 2 = j0 := by omega
        rw [e1, e2, hprev (j0 + 1) (by omega), hpprev (by omega) j0 (by omega),
          lev_matrix_succ_succ]
        simp only [Nat.add_sub_cancel]
        have : (if T.getD i0 0 = P.getD j0 0 then 0 else 1) ≤ 1 := by split <;> omega
        omega
      · have : prev.getD (j - 1) 0 = 0 := by
          rw [List.getD_eq_getElem?_getD, List.getElem?_eq_none (by omega)]
          rfl
        omega
    rw [dl_inner_eq_lev_inner T P k (i + 1) prev pprev hdiag]
    simp only [Nat.add_sub_cancel]
    rcases lev_inner_spec T P k m i prev hprev m 1 curr (Nat.le_refl 1) (by omega) hlen
        (by
          intro j' hj'
          have : j' = 0 := by omega
          subst this
          rw [h0, lev_matrix_zero_right])
      with ⟨⟨j', h1, h2, h3, h4⟩, h5⟩ | ⟨h1, curr', h2, h3, h4⟩
    · rw [h5]
      simp only [Bool.false_eq_true, false_iff, not_and]
      intro hall
      exfalso
      have := hall (i + 1) j' (by omega) (by omega) h1 h2 h3
      omega
    · rw [h2]
      simp only []
      have hp0 : prev.getD 0 0 = 0 := by
        rw [hprev 0 (Nat.zero_le m), lev_matrix_zero_right]
      rw [ih (i + 1) pprev curr' prev (by omega) hpplen hpp0 h3 h4 hplen hp0
        (by intro _ j' hj'; simp only [Nat.add_sub_cancel]; exact hprev j' hj')]
      constructor
      · rintro ⟨ha, hb⟩
        refine ⟨?_, hb⟩
        intro i' j' hi1 hi2 hj1 hj2 hij
        by_cases hii : i' = i + 1
        · subst hii
          exact h1 j' hj1 hj2 hij
        · exact ha i' j' (by omega) hi2 hj1 hj2 hij
      · rintro ⟨ha, hb⟩
        refine ⟨?_, hb⟩
        intro i' j' hi1 hi2 hj1 hj2 hij
        exact ha i' j' (by omega) hi2 hj1 hj2 hij

theorem validate_damerau_levenshtein_eq (first s_first : List Nat) (k m : Nat) :
    validate_damerau_levenshtein first s_first k m = validate_levenshtein first s_first k m := by
  have hz : ∀ j', (List.replicate (m + 1) 0).getD j' 0 = 0 := by
    intro j'
    rw [List.getD_eq_getElem?_getD, List.getElem?_replicate]
    split <;> rfl
  rw [Bool.eq_iff_iff, validate_levenshtein_iff_matrix]
  unfold validate_damerau_levenshtein
  rw [dl_outer_spec first s_first k m (m + k) 0 _ _ _ (by omega) (by simp) (hz 0) (by simp)
    (by intro j' _; rw [lev_matrix_zero_left]; exact hz j') (by simp) (hz 0)
    (by intro h; omega)]
  constructor
  · rintro ⟨ha, hb⟩
    refine ⟨?_, hb⟩
    intro j' h1 h2
    exact ha (j' + k) j' (by omega) (by omega) h1 h2 rfl
  · rintro ⟨ha, hb⟩
    refine ⟨?_, hb⟩
    intro i' j' _ _ hj1 hj2 hij
    subst hij
    exact ha j' hj1 hj2

/-- C24, the code at the failing input: text `xabdc`, pattern `abcd`, `k = 1`, `m = 4`. The
suffix `abdc` of the text becomes the pattern by one adjacent transposition, so with the
transposition move as the claim states it the verdict is true. In the source the second
comparison of the test reads `std::prev(first, 1)`, which is the current text symbol again
(`first` has been advanced already), not the previous one: the move is offered only when
the current text symbol equals both pattern symbols, where it cannot lower the cell. The
verdict is false, and for every input the function returns what `validate_levenshtein`
returns. -/
theorem validate_damerau_levenshtein_misses_transposition :
    validate_damerau_levenshtein_spec [120, 97, 98, 100, 99] [97, 98, 99, 100] 1 4 = true ∧
    validate_damerau_levenshtein [120, 97, 98, 100, 99] [97, 98, 99, 100] 1 4 = false ∧
    ∀ (first s_first : List Nat) (k m : Nat),
      validate_damerau_levenshtein first s_first k m
        = validate_levenshtein first s_first k m :=
  ⟨by decide, by decide, validate_damerau_levenshtein_eq⟩

/-! ## Levenshtein preprocessing: the tables `M` and `Ds` -/

theorem levenshtein_row_loop_getD (c : Nat) (prev P : List Nat) :
    ∀ (ps : List Nat) (j : Nat), ps = P.drop j → ∀ i, i < ps.length →
      (levenshtein_row_loop c prev ps j
          (lev_next c P (fun x => prev.getD x 0) j)).getD i 0
        = lev_next c P (fun x => prev.getD x 0) (j + i + 1) := by
  intro ps
  induction ps with
  | nil => intro j _ i hi; exact absurd hi (Nat.not_lt_zero _)
  | cons p rest ih =>
    intro j hps i hi
    have hjlt : j < P.length := by
      by_contra hn
      rw [List.drop_eq_nil_of_le (by omega)] at hps
      exact List.cons_ne_nil _ _ hps
    have hcons : P.drop j = P.getD j 0 :: P.drop (j + 1) := by
      rw [List.drop_eq_getElem_cons hjlt, List.getD_eq_getElem?_getD,
        List.getElem?_eq_getElem hjlt]
      rfl
    rw [hcons] at hps
    injection hps with hp hrest
    rw [levenshtein_row_loop]
    have hv : min (prev.getD (j + 1) 0 + 1)
        (min (lev_next c P (fun x => prev.getD x 0) j + 1)
          (prev.getD j 0 + (if c = p then 0 else 1)))
        = lev_next c P (fun x => prev.getD x 0) (j + 1) := by
      rw [hp]
      rfl
    rw [hv]
    cases i with
    | zero => rfl
    | succ i0 =>
      have := ih (j + 1) hrest i0 (by rw [List.length_cons] at hi; omega)
      have e : j + (i0 + 1) + 1 = j + 1 + i0 + 1 := by omega
      rw [e, ← this]
      rfl

theorem levenshtein_row_getD (pattern : List Nat) (c : Nat) (prev : List Nat) (j : Nat)
    (hj : j ≤ pattern.length) :
    (levenshtein_row pattern c prev).getD j 0
      = lev_next c pattern (fun x => prev.getD x 0) j := by
  unfold levenshtein_row
  cases j with
  | zero => rfl
  | succ j0 =>
    have h := levenshtein_row_loop_getD c prev pattern pattern 0 rfl j0 (by omega)
    have e : 0 + j0 + 1 = j0 + 1 := by omega
    rw [e] at h
    rw [← h]
    rfl

theorem lev_next_congr (c : Nat) (P : List Nat) (f g : Nat → Nat) :
    ∀ j, (∀ x, x ≤ j → f x = g x) → lev_next c P f j = lev_next c P g j := by
  intro j
  induction j with
  | zero => intro _; rfl
  | succ j ih =>
    intro h
    rw [lev_next, lev_next, ih (fun x hx => h x (by omega)), h (j + 1) (le_refl _),
      h j (by omega)]

theorem levenshtein_fill_spec (pattern : List Nat) (m i c : Nat) (hi : 1 ≤ i)
    (prevf : Nat → Nat) :
    ∀ (cnt j : Nat) (D : List Nat), 1 ≤ j → j + cnt = m + 1 →
      i * (m + 1) + m < D.length →
      (∀ x, x ≤ m → D.getD ((i - 1) * (m + 1) + x) 0 = prevf x) →
      (∀ j', j' < j → D.getD (i * (m + 1) + j') 0 = lev_next c pattern prevf j') →
      ∀ j', j' ≤ m →
        (levenshtein_fill pattern m i c cnt j D).getD (i * (m + 1) + j') 0
          = lev_next c pattern prevf j' := by
  intro cnt
  induction cnt with
  | zero =>
    intro j D hj hcnt _ _ hcur j' hj'
    rw [levenshtein_fill]
    exact hcur j' (by omega)
  | succ cnt ih =>
    intro j D hj hcnt hlen hprev hcur j' hj'
    rw [levenshtein_fill]
    obtain ⟨j0, rfl⟩ : ∃ j0, j = j0 + 1 := ⟨j - 1, by omega⟩
    have e1 : (i - 1) * (m + 1) + (j0 + 1) - 1 = (i - 1) * (m + 1) + j0 := by omega
    have e2 : i * (m + 1) + (j0 + 1) - 1 = i * (m + 1) + j0 := by omega
    have e3 : j0 + 1 - 1 = j0 := by omega
    have hv : min (D.getD ((i - 1) * (m + 1) + (j0 + 1)) 0 + 1)
        (min (D.getD (i * (m + 1) + (j0 + 1) - 1) 0 + 1)
          (D.getD ((i - 1) * (m + 1) + (j0 + 1) - 1) 0
            + (if c = pattern.getD (j0 + 1 - 1) 0 then 0 else 1)))
        = lev_next c pattern prevf (j0 + 1) := by
      rw [e1, e2, e3, hprev (j0 + 1) (by omega), hprev j0 (by omega), hcur j0 (by omega)]
      rfl
    rw [hv]
    apply ih (j0 + 1 + 1) _ (by omega) (by omega) (by rw [List.length_set]; exact hlen)
    · intro x hx
      have c1 : ¬ (i * (m + 1) + (j0 + 1) = (i - 1) * (m + 1) + x ∧
          i * (m + 1) + (j0 + 1) < D.length) := by
        intro h
        have := (idx_inj m i (i - 1) (j0 + 1) x (by omega) hx h.1).1
        omega
      rw [getD_set, if_neg c1]
      exact hprev x hx
    · intro j1 hj1
      by_cases hje : j1 = j0 + 1
      · subst hje
        have c1 : i * (m + 1) + (j0 + 1) = i * (m + 1) + (j0 + 1) ∧
            i * (m + 1) + (j0 + 1) < D.length := ⟨rfl, by omega⟩
        rw [getD_set, if_pos c1]
      · have c1 : ¬ (i * (m + 1) + (j0 + 1) = i * (m + 1) + j1 ∧
            i * (m + 1) + (j0 + 1) < D.length) := by
          intro h
          have := (idx_inj m i i (j0 + 1) j1 (by omega) (by omega) h.1).2
          omega
        rw [getD_set, if_neg c1]
        exact hcur j1 (by omega)
    · exact hj'

theorem preInvL_init (pattern : List Nat) (q : Nat) :
    PreInvL pattern q [] (List.replicate ((q + 1) * (pattern.length + 1)) 0) := by
  have hz : ∀ n i, (List.replicate n 0).getD i 0 = 0 := by
    intro n i
    rw [List.getD_eq_getElem?_getD, List.getElem?_replicate]
    split <;> rfl
  refine ⟨by simp, fun r _ => hz _ _, ?_⟩
  intro r hr j hj
  rw [hz]
  simp only [List.length_nil, Nat.le_zero] at hr
  subst hr
  rw [List.take_zero]
  exact (hz _ _).symm

theorem preInvL_weaken (pattern : List Nat) (q : Nat) (s0 : List Nat) (c : Nat) (D : List Nat)
    (h : PreInvL pattern q (s0 ++ [c]) D) : PreInvL pattern q s0 D := by
  obtain ⟨h1, h2, h3⟩ := h
  refine ⟨h1, h2, ?_⟩
  intro r hr j hj
  rw [h3 r (by rw [List.length_append]; omega) j hj, List.take_append_of_le_length hr]

theorem preInvL_fill (pattern : List Nat) (q : Nat) (s0 : List Nat) (c : Nat) (D : List Nat)
    (hq : s0.length < q) (h : PreInvL pattern q s0 D) :
    PreInvL pattern q (s0 ++ [c])
      (levenshtein_fill pattern pattern.length (s0.length + 1) c pattern.length 1 D) := by
  obtain ⟨h1, h2, h3⟩ := h
  obtain ⟨f1, f2⟩ :=
    levenshtein_fill_other pattern pattern.length (s0.length + 1) c pattern.length 1 D
  have hother : ∀ r j, j ≤ pattern.length → (r ≠ s0.length + 1 ∨ j = 0) →
      (levenshtein_fill pattern pattern.length (s0.length + 1) c pattern.length 1 D).getD
        (r * (pattern.length + 1) + j) 0 = D.getD (r * (pattern.length + 1) + j) 0 := by
    intro r j hj hrj
    apply f2
    intro j' hj1 hj2 he
    have := idx_inj pattern.length r (s0.length + 1) j j' hj (by omega) he
    omega
  refine ⟨by rw [f1, h1], ?_, ?_⟩
  · intro r hr
    have := hother r 0 (Nat.zero_le _) (Or.inr rfl)
    simp only [Nat.add_zero] at this
    rw [this]
    exact h2 r hr
  · intro r hr j hj
    rw [List.length_append, List.length_singleton] at hr
    by_cases hrr : r = s0.length + 1
    · subst hrr
      have htake : (s0 ++ [c]).take (s0.length + 1) = s0 ++ [c] := by
        apply List.take_of_length_le
        simp
      rw [htake, gram_last_row_snoc, levenshtein_row_getD pattern c _ j hj]
      apply levenshtein_fill_spec pattern pattern.length (s0.length + 1) c (by omega) _
        pattern.length 1 D (le_refl _) (by omega)
      · rw [h1]
        exact idx_lt q pattern.length (s0.length + 1) pattern.length (by omega) (le_refl _)
      · intro x hx
        simp only [Nat.add_sub_cancel]
        rw [h3 s0.length (le_refl _) x hx, List.take_length]
      · intro j' hj'
        have : j' = 0 := by omega
        subst this
        rw [Nat.add_zero, h2 _ (by omega)]
        rfl
      · exact hj
    · rw [hother r j hj (Or.inl hrr), h3 r (by omega) j hj,
        List.take_append_of_le_length (by omega)]

theorem preInvL_last (pattern : List Nat) (q : Nat) (s D : List Nat) (hs : s.length = q)
    (h : PreInvL pattern q s D) :
    D.getLastD 0
      = (gram_last_row (levenshtein_row pattern) pattern.length s).getD pattern.length 0 := by
  obtain ⟨h1, _, h3⟩ := h
  have h := h3 q (by omega) pattern.length (le_refl _)
  rw [List.take_of_length_le (by omega)] at h
  rw [← h, List.getLastD_eq_getLast?, List.getLast?_eq_getElem?, List.getD_eq_getElem?_getD, h1]
  have : (q + 1) * (pattern.length + 1) - 1 = q * (pattern.length + 1) + pattern.length := by
    have : (q + 1) * (pattern.length + 1) = q * (pattern.length + 1) + (pattern.length + 1) := by
      ring
    omega
  rw [this]

theorem preInvL_find_if_rev (pattern : List Nat) (q k : Nat) (s D : List Nat)
    (hs : s.length = q) (h : PreInvL pattern q s D) :
    find_if_rev D k pattern.length 1
      = find_shift (gram_last_row (levenshtein_row pattern) pattern.length s) pattern.length k
          pattern.length 1 := by
  obtain ⟨h1, _, h3⟩ := h
  apply find_if_rev_eq_find_shift
  · intro j hj
    have h := h3 q (by omega) j hj
    rw [List.take_of_length_le (by omega)] at h
    rw [← h, h1]
    have : (q + 1) * (pattern.length + 1) - 1 - (pattern.length - j)
        = q * (pattern.length + 1) + j := by
      have : (q + 1) * (pattern.length + 1)
          = q * (pattern.length + 1) + (pattern.length + 1) := by ring
      omega
    rw [this]
  · omega

theorem lev_helper_fold_spec (pattern : List Nat) (k q : Nat) (S1 : List Nat) (depth : Nat)
    (s0 : List Nat) (ha : s0.length < q)
    (ih : ∀ st : PreState, st.s.length = s0.length + 1 → PreInvL pattern q st.s st.D →
      (preprocess_helper_levenshtein pattern pattern.length k S1 depth (s0.length + 1 + 1) st).s
        = st.s ∧
      PreInvL pattern q st.s
        (preprocess_helper_levenshtein pattern pattern.length k S1 depth (s0.length + 1 + 1) st).D ∧
      ∀ g : List Nat,
        ((g.take (s0.length + 1) = st.s ∧ g.length = q ∧
            ∀ c ∈ g.drop (s0.length + 1), c ∈ S1) →
          gram_get g
            (preprocess_helper_levenshtein pattern pattern.length k S1 depth (s0.length + 1 + 1) st).M
            = (gram_last_row (levenshtein_row pattern) pattern.length g).getD pattern.length 0) ∧
        (¬ (g.take (s0.length + 1) = st.s ∧ g.length = q ∧
            ∀ c ∈ g.drop (s0.length + 1), c ∈ S1) →
          gram_get g
            (preprocess_helper_levenshtein pattern pattern.length k S1 depth (s0.length + 1 + 1) st).M
            = gram_get g st.M)) :
    ∀ (cs : List Nat) (acc : PreState), acc.s.dropLast = s0 → PreInvL pattern q s0 acc.D →
      (cs.foldl (fun (acc : PreState) c =>
          preprocess_helper_levenshtein pattern pattern.length k S1 depth (s0.length + 1 + 1)
            { s := acc.s.dropLast ++ [c]
              M := acc.M
              Ds := acc.Ds
              D := levenshtein_fill pattern pattern.length (s0.length + 1) c pattern.length 1
                acc.D }) acc).s.dropLast = s0 ∧
      PreInvL pattern q s0
        (cs.foldl (fun (acc : PreState) c =>
          preprocess_helper_levenshtein pattern pattern.length k S1 depth (s0.length + 1 + 1)
            { s := acc.s.dropLast ++ [c]
              M := acc.M
              Ds := acc.Ds
              D := levenshtein_fill pattern pattern.length (s0.length + 1) c pattern.length 1
                acc.D }) acc).D ∧
      ∀ g : List Nat,
        (((∃ c ∈ cs, g.take (s0.length + 1) = s0 ++ [c]) ∧ g.length = q ∧
            ∀ c ∈ g.drop (s0.length + 1), c ∈ S1) →
          gram_get g
            (cs.foldl (fun (acc : PreState) c =>
              preprocess_helper_levenshtein pattern pattern.length k S1 depth (s0.length + 1 + 1)
                { s := acc.s.dropLast ++ [c]
                  M := acc.M
                  Ds := acc.Ds
                  D := levenshtein_fill pattern pattern.length (s0.length + 1) c pattern.length 1
                    acc.D }) acc).M
            = (gram_last_row (levenshtein_row pattern) pattern.length g).getD pattern.length 0) ∧
        (¬ ((∃ c ∈ cs, g.take (s0.length + 1) = s0 ++ [c]) ∧ g.length = q ∧
            ∀ c ∈ g.drop (s0.length + 1), c ∈ S1) →
          gram_get g
            (cs.foldl (fun (acc : PreState) c =>
              preprocess_helper_levenshtein pattern pattern.length k S1 depth (s0.length + 1 + 1)
                { s := acc.s.dropLast ++ [c]
                  M := acc.M
                  Ds := acc.Ds
                  D := levenshtein_fill pattern pattern.length (s0.length + 1) c pattern.length 1
                    acc.D }) acc).M
            = gram_get g acc.M) := by
  intro cs
  induction cs with
  | nil =>
    intro acc h1 h2
    refine ⟨h1, h2, fun g => ⟨fun h => ?_, fun _ => rfl⟩⟩
    obtain ⟨⟨c, hc, _⟩, _⟩ := h
    exact absurd hc (List.not_mem_nil _)
  | cons c cs ihc =>
    intro acc h1 h2
    subst h1
    rw [List.foldl_cons]
    obtain ⟨i1, i2, i3⟩ := ih
      { s := acc.s.dropLast ++ [c]
        M := acc.M
        Ds := acc.Ds
        D := levenshtein_fill pattern pattern.length (acc.s.dropLast.length + 1) c pattern.length 1
          acc.D }
      (by simp)
      (preInvL_fill pattern q acc.s.dropLast c acc.D ha h2)
    obtain ⟨c1, c2, c3⟩ := ihc _
      (by rw [i1]; simp)
      (preInvL_weaken pattern q acc.s.dropLast c _ i2)
    refine ⟨c1, c2, fun g => ⟨fun hcond => ?_, fun hncond => ?_⟩⟩
    · by_cases hcs : ((∃ c' ∈ cs, g.take (acc.s.dropLast.length + 1) = acc.s.dropLast ++ [c']) ∧
          g.length = q ∧ ∀ c ∈ g.drop (acc.s.dropLast.length + 1), c ∈ S1)
      · exact (c3 g).1 hcs
      · rw [(c3 g).2 hcs]
        obtain ⟨⟨c', hc', ht⟩, hl, hd⟩ := hcond
        rcases List.mem_cons.mp hc' with rfl | hmem
        · exact (i3 g).1 ⟨ht, hl, hd⟩
        · exact absurd ⟨⟨c', hmem, ht⟩, hl, hd⟩ hcs
    · have hcs : ¬ ((∃ c' ∈ cs, g.take (acc.s.dropLast.length + 1) = acc.s.dropLast ++ [c']) ∧
          g.length = q ∧ ∀ c ∈ g.drop (acc.s.dropLast.length + 1), c ∈ S1) := by
        rintro ⟨⟨c', hc', ht⟩, hl, hd⟩
        exact hncond ⟨⟨c', List.mem_cons_of_mem _ hc', ht⟩, hl, hd⟩
      rw [(c3 g).2 hcs]
      apply (i3 g).2
      rintro ⟨ht, hl, hd⟩
      exact hncond ⟨⟨c, List.mem_cons_self _ _, ht⟩, hl, hd⟩

theorem preprocess_helper_levenshtein_spec (pattern : List Nat) (k q : Nat) (S1 : List Nat) :
    ∀ (depth : Nat) (st : PreState), st.s.length + depth = q → PreInvL pattern q st.s st.D →
      (preprocess_helper_levenshtein pattern pattern.length k S1 depth (st.s.length + 1) st).s
        = st.s ∧
      PreInvL pattern q st.s
        (preprocess_helper_levenshtein pattern pattern.length k S1 depth (st.s.length + 1) st).D ∧
      ∀ g : List Nat,
        ((g.take st.s.length = st.s ∧ g.length = q ∧ ∀ c ∈ g.drop st.s.length, c ∈ S1) →
          gram_get g
            (preprocess_helper_levenshtein pattern pattern.length k S1 depth (st.s.length + 1) st).M
            = (gram_last_row (levenshtein_row pattern) pattern.length g).getD pattern.length 0) ∧
        (¬ (g.take st.s.length = st.s ∧ g.length = q ∧ ∀ c ∈ g.drop st.s.length, c ∈ S1) →
          gram_get g
            (preprocess_helper_levenshtein pattern pattern.length k S1 depth (st.s.length + 1) st).M
            = gram_get g st.M) := by
  intro depth
  induction depth with
  | zero =>
    intro st ha hinv
    rw [preprocess_helper_levenshtein]
    refine ⟨rfl, hinv, fun g => ?_⟩
    simp only []
    rw [gram_get_assign, preInvL_last pattern q st.s st.D (by omega) hinv]
    constructor
    · rintro ⟨ht, hl, _⟩
      have hg : g = st.s := by
        rw [← ht]
        exact (List.take_of_length_le (by omega)).symm
      rw [if_pos hg, hg]
    · intro hn
      have hg : g ≠ st.s := by
        intro hg
        apply hn
        subst hg
        refine ⟨List.take_of_length_le (le_refl _), by omega, ?_⟩
        intro c hc
        rw [List.drop_of_length_le (le_refl _)] at hc
        exact absurd hc (List.not_mem_nil _)
      rw [if_neg hg]
  | succ depth ihd =>
    intro st ha hinv
    rw [preprocess_helper_levenshtein]
    obtain ⟨f1, f2, f3⟩ := lev_helper_fold_spec pattern k q S1 depth st.s (by omega)
      (fun st1 h1 h2 => by
        have := ihd st1 (by omega) h2
        rw [h1] at this
        exact this)
      S1 { s := st.s ++ [S1.headD 0], M := st.M, Ds := st.Ds, D := st.D }
      (by simp) hinv
    refine ⟨f1, f2, fun g => ⟨fun hc => ?_, fun hn => ?_⟩⟩
    · exact (f3 g).1 ((gram_cond_iff S1 st.s g q (by omega)).mpr hc)
    · exact (f3 g).2 (fun h => hn ((gram_cond_iff S1 st.s g q (by omega)).mp h))

theorem lev_helper_fold_spec_Ds (pattern : List Nat) (k q : Nat) (S1 : List Nat) (depth : Nat)
    (s0 : List Nat) (ha : s0.length < q)
    (ih : ∀ st : PreState, st.s.length = s0.length + 1 → PreInvL pattern q st.s st.D →
      (preprocess_helper_levenshtein pattern pattern.length k S1 depth (s0.length + 1 + 1) st).s
        = st.s ∧
      PreInvL pattern q st.s
        (preprocess_helper_levenshtein pattern pattern.length k S1 depth (s0.length + 1 + 1) st).D ∧
      ∀ g : List Nat,
        ((g.take (s0.length + 1) = st.s ∧ g.length = q ∧
            ∀ c ∈ g.drop (s0.length + 1), c ∈ S1) →
          gram_get g
            (preprocess_helper_levenshtein pattern pattern.length k S1 depth (s0.length + 1 + 1) st).Ds
            = find_shift (gram_last_row (levenshtein_row pattern) pattern.length g) pattern.length k
              pattern.length 1) ∧
        (¬ (g.take (s0.length + 1) = st.s ∧ g.length = q ∧
            ∀ c ∈ g.drop (s0.length + 1), c ∈ S1) →
          gram_get g
            (preprocess_helper_levenshtein pattern pattern.length k S1 depth (s0.length + 1 + 1) st).Ds
            = gram_get g st.Ds)) :
    ∀ (cs : List Nat) (acc : PreState), acc.s.dropLast = s0 → PreInvL pattern q s0 acc.D →
      (cs.foldl (fun (acc : PreState) c =>
          preprocess_helper_levenshtein pattern pattern.length k S1 depth (s0.length + 1 + 1)
            { s := acc.s.dropLast ++ [c]
              M := acc.M
              Ds := acc.Ds
              D := levenshtein_fill pattern pattern.length (s0.length + 1) c pattern.length 1
                acc.D }) acc).s.dropLast = s0 ∧
      PreInvL pattern q s0
        (cs.foldl (fun (acc : PreState) c =>
          preprocess_helper_levenshtein pattern pattern.length k S1 depth (s0.length + 1 + 1)
            { s := acc.s.dropLast ++ [c]
              M := acc.M
              Ds := acc.Ds
              D := levenshtein_fill pattern pattern.length (s0.length + 1) c pattern.length 1
                acc.D }) acc).D ∧
      ∀ g : List Nat,
        (((∃ c ∈ cs, g.take (s0.length + 1) = s0 ++ [c]) ∧ g.length = q ∧
            ∀ c ∈ g.drop (s0.length + 1), c ∈ S1) →
          gram_get g
            (cs.foldl (fun (acc : PreState) c =>
              preprocess_helper_levenshtein pattern pattern.length k S1 depth (s0.length + 1 + 1)
                { s := acc.s.dropLast ++ [c]
                  M := acc.M
                  Ds := acc.Ds
                  D := levenshtein_fill pattern pattern.length (s0.length + 1) c pattern.length 1
                    acc.D }) acc).Ds
            = find_shift (gram_last_row (levenshtein_row pattern) pattern.length g) pattern.length k
              pattern.length 1) ∧
        (¬ ((∃ c ∈ cs, g.take (s0.length + 1) = s0 ++ [c]) ∧ g.length = q ∧
            ∀ c ∈ g.drop (s0.length + 1), c ∈ S1) →
          gram_get g
            (cs.foldl (fun (acc : PreState) c =>
              preprocess_helper_levenshtein pattern pattern.length k S1 depth (s0.length + 1 + 1)
                { s := acc.s.dropLast ++ [c]
                  M := acc.M
                  Ds := acc.Ds
                  D := levenshtein_fill pattern pattern.length (s0.length + 1) c pattern.length 1
                    acc.D }) acc).Ds
            = gram_get g acc.Ds) := by
  intro cs
  induction cs with
  | nil =>
    intro acc h1 h2
    refine ⟨h1, h2, fun g => ⟨fun h => ?_, fun _ => rfl⟩⟩
    obtain ⟨⟨c, hc, _⟩, _⟩ := h
    exact absurd hc (List.not_mem_nil _)
  | cons c cs ihc =>
    intro acc h1 h2
    subst h1
    rw [List.foldl_cons]
    obtain ⟨i1, i2, i3⟩ := ih
      { s := acc.s.dropLast ++ [c]
        M := acc.M
        Ds := acc.Ds
        D := levenshtein_fill pattern pattern.length (acc.s.dropLast.length + 1) c pattern.length 1
          acc.D }
      (by simp)
      (preInvL_fill pattern q acc.s.dropLast c acc.D ha h2)
    obtain ⟨c1, c2, c3⟩ := ihc _
      (by rw [i1]; simp)
      (preInvL_weaken pattern q acc.s.dropLast c _ i2)
    refine ⟨c1, c2, fun g => ⟨fun hcond => ?_, fun hncond => ?_⟩⟩
    · by_cases hcs : ((∃ c' ∈ cs, g.take (acc.s.dropLast.length + 1) = acc.s.dropLast ++ [c']) ∧
          g.length = q ∧ ∀ c ∈ g.drop (acc.s.dropLast.length + 1), c ∈ S1)
      · exact (c3 g).1 hcs
      · rw [(c3 g).2 hcs]
        obtain ⟨⟨c', hc', ht⟩, hl, hd⟩ := hcond
        rcases List.mem_cons.mp hc' with rfl | hmem
        · exact (i3 g).1 ⟨ht, hl, hd⟩
        · exact absurd ⟨⟨c', hmem, ht⟩, hl, hd⟩ hcs
    · have hcs : ¬ ((∃ c' ∈ cs, g.take (acc.s.dropLast.length + 1) = acc.s.dropLast ++ [c']) ∧
          g.length = q ∧ ∀ c ∈ g.drop (acc.s.dropLast.length + 1), c ∈ S1) := by
        rintro ⟨⟨c', hc', ht⟩, hl, hd⟩
        exact hncond ⟨⟨c', List.mem_cons_of_mem _ hc', ht⟩, hl, hd⟩
      rw [(c3 g).2 hcs]
      apply (i3 g).2
      rintro ⟨ht, hl, hd⟩
      exact hncond ⟨⟨c, List.mem_cons_self _ _, ht⟩, hl, hd⟩

theorem preprocess_helper_levenshtein_spec_Ds (pattern : List Nat) (k q : Nat) (S1 : List Nat) :
    ∀ (depth : Nat) (st : PreState), st.s.length + depth = q → PreInvL pattern q st.s st.D →
      (preprocess_helper_levenshtein pattern pattern.length k S1 depth (st.s.length + 1) st).s
        = st.s ∧
      PreInvL pattern q st.s
        (preprocess_helper_levenshtein pattern pattern.length k S1 depth (st.s.length + 1) st).D ∧
      ∀ g : List Nat,
        ((g.take st.s.length = st.s ∧ g.length = q ∧ ∀ c ∈ g.drop st.s.length, c ∈ S1) →
          gram_get g
            (preprocess_helper_levenshtein pattern pattern.length k S1 depth (st.s.length + 1) st).Ds
            = find_shift (gram_last_row (levenshtein_row pattern) pattern.length g) pattern.length k
              pattern.length 1) ∧
        (¬ (g.take st.s.length = st.s ∧ g.length = q ∧ ∀ c ∈ g.drop st.s.length, c ∈ S1) →
          gram_get g
            (preprocess_helper_levenshtein pattern pattern.length k S1 depth (st.s.length + 1) st).Ds
            = gram_get g st.Ds) := by
  intro depth
  induction depth with
  | zero =>
    intro st ha hinv
    rw [preprocess_helper_levenshtein]
    refine ⟨rfl, hinv, fun g => ?_⟩
    simp only []
    rw [gram_get_assign, preInvL_find_if_rev pattern q k st.s st.D (by omega) hinv]
    constructor
    · rintro ⟨ht, hl, _⟩
      have hg : g = st.s := by
        rw [← ht]
        exact (List.take_of_length_le (by omega)).symm
      rw [if_pos hg, hg]
    · intro hn
      have hg : g ≠ st.s := by
        intro hg
        apply hn
        subst hg
        refine ⟨List.take_of_length_le (le_refl _), by omega, ?_⟩
        intro c hc
        rw [List.drop_of_length_le (le_refl _)] at hc
        exact absurd hc (List.not_mem_nil _)
      rw [if_neg hg]
  | succ depth ihd =>
    intro st ha hinv
    rw [preprocess_helper_levenshtein]
    obtain ⟨f1, f2, f3⟩ := lev_helper_fold_spec_Ds pattern k q S1 depth st.s (by omega)
      (fun st1 h1 h2 => by
        have := ihd st1 (by omega) h2
        rw [h1] at this
        exact this)
      S1 { s := st.s ++ [S1.headD 0], M := st.M, Ds := st.Ds, D := st.D }
      (by simp) hinv
    refine ⟨f1, f2, fun g => ⟨fun hc => ?_, fun hn => ?_⟩⟩
    · exact (f3 g).1 ((gram_cond_iff S1 st.s g q (by omega)).mpr hc)
    · exact (f3 g).2 (fun h => hn ((gram_cond_iff S1 st.s g q (by omega)).mp h))

theorem preprocess_levenshtein_eq_gram_tables (pattern : List Nat) (k q : Nat) (S1 : List Nat)
    (M Ds : List (List Nat × Nat)) (g : List Nat) (hg : g.length = q)
    (hS : ∀ c ∈ g, c ∈ S1) :
    gram_get g (preprocess_levenshtein pattern k q S1 M Ds).1
        = (gram_tables (levenshtein_row pattern) pattern.length k q S1 g).1 ∧
    gram_get g (preprocess_levenshtein pattern k q S1 M Ds).2
        = (gram_tables (levenshtein_row pattern) pattern.length k q S1 g).2 := by
  have h1 := preprocess_helper_levenshtein_spec pattern k q S1 q
    { s := [], M := M, Ds := Ds, D := List.replicate ((q + 1) * (pattern.length + 1)) 0 }
    (by simp) (preInvL_init pattern q)
  have h2 := preprocess_helper_levenshtein_spec_Ds pattern k q S1 q
    { s := [], M := M, Ds := Ds, D := List.replicate ((q + 1) * (pattern.length + 1)) 0 }
    (by simp) (preInvL_init pattern q)
  have e1 := (h1.2.2 g).1 ⟨rfl, hg, hS⟩
  have e2 := (h2.2.2 g).1 ⟨rfl, hg, hS⟩
  unfold gram_tables
  rw [if_pos ⟨hg, hS⟩]
  exact ⟨e1, e2⟩

theorem preprocess_hamming_eq_gram_tables (pattern : List Nat) (k q : Nat) (S1 : List Nat)
    (M Ds : List (List Nat × Nat)) (g : List Nat) (hg : g.length = q)
    (hS : ∀ c ∈ g, c ∈ S1) :
    gram_get g (preprocess_hamming pattern k q S1 M Ds).1
        = (gram_tables (hamming_row pattern) pattern.length k q S1 g).1 ∧
    gram_get g (preprocess_hamming pattern k q S1 M Ds).2
        = (gram_tables (hamming_row pattern) pattern.length k q S1 g).2 := by
  have h1 := preprocess_helper_hamming_spec pattern k q S1 q
    { s := [], M := M, Ds := Ds, D := List.replicate ((q + 1) * (pattern.length + 1)) 0 }
    (by simp) (preInv_init pattern q)
  have e1 := (h1.2.2 g).1 ⟨rfl, hg, hS⟩
  have e2 := preprocess_hamming_Ds_eq pattern k q S1 M Ds g hg hS
  unfold gram_tables
  rw [if_pos ⟨hg, hS⟩]
  exact ⟨e1, e2⟩

/-! ## The table `Ds` and the scan: what holds, and the start outside the text -/

theorem preprocess_Ds_bounds (pattern : List Nat) (k : Nat) (hm : 1 ≤ pattern.length) :
    (∀ (q : Nat) (S1 : List Nat) (M : List (List Nat × Nat)),
      ∀ p ∈ (preprocess_hamming pattern k q S1 M []).2, 1 ≤ p.2 ∧ p.2 ≤ pattern.length) ∧
    (∀ (q : Nat) (S1 : List Nat) (M : List (List Nat × Nat)),
      ∀ p ∈ (preprocess_levenshtein pattern k q S1 M []).2,
        1 ≤ p.2 ∧ p.2 ≤ pattern.length) := by
  constructor
  · intro q S1 M
    exact (preprocess_helper_hamming_dsInv pattern k q S1 hm q 1 _
      (dsInv_init pattern.length q M)).2.2
  · intro q S1 M
    exact (preprocess_helper_levenshtein_dsInv pattern k q S1 hm q 1 _
      (dsInv_init pattern.length q M)).2.2

theorem preprocess_Ds_gram_bounds (pattern : List Nat) (k q : Nat) (S1 g : List Nat)
    (hm : 1 ≤ pattern.length) (hg : g.length = q) (hS : ∀ c ∈ g, c ∈ S1) :
    (1 ≤ gram_get g (preprocess_hamming pattern k q S1 [] []).2 ∧
      gram_get g (preprocess_hamming pattern k q S1 [] []).2 ≤ pattern.length) ∧
    (1 ≤ gram_get g (preprocess_levenshtein pattern k q S1 [] []).2 ∧
      gram_get g (preprocess_levenshtein pattern k q S1 [] []).2 ≤ pattern.length) := by
  have e1 := (preprocess_hamming_eq_gram_tables pattern k q S1 [] [] g hg hS).2
  have e2 := (preprocess_levenshtein_eq_gram_tables pattern k q S1 [] [] g hg hS).2
  have b1 := gram_tables_Ds_bounds pattern true k q S1 g hg hS
  have b2 := gram_tables_Ds_bounds pattern false k q S1 g hg hS
  simp only [if_true] at b1
  simp only [Bool.false_eq_true, if_false] at b2
  rw [e1, e2]
  exact ⟨⟨b1.1, b1.2 hm⟩, ⟨b2.1, b2.2 hm⟩⟩

theorem fuzzy_tables_eq_preprocess (srt : List (Nat × Nat) → List (Nat × Nat))
    (text pattern : List Nat) (k : Nat) (mismatch : Bool) (g : List Nat) (hg : g.length = 6)
    (hS : ∀ c ∈ g, c ∈ fuzzy_S1 srt text pattern) :
    fuzzy_tables srt text pattern k mismatch g
      = (gram_get g (if mismatch then
            preprocess_hamming pattern k 6 (fuzzy_S1 srt text pattern) [] []
          else preprocess_levenshtein pattern k 6 (fuzzy_S1 srt text pattern) [] []).1,
         gram_get g (if mismatch then
            preprocess_hamming pattern k 6 (fuzzy_S1 srt text pattern) [] []
          else preprocess_levenshtein pattern k 6 (fuzzy_S1 srt text pattern) [] []).2) := by
  unfold fuzzy_tables
  cases mismatch
  · have e := preprocess_levenshtein_eq_gram_tables pattern k 6 (fuzzy_S1 srt text pattern)
      [] [] g hg hS
    simp only [Bool.false_eq_true, if_false]
    exact Prod.ext e.1.symm e.2.symm
  · have e := preprocess_hamming_eq_gram_tables pattern k 6 (fuzzy_S1 srt text pattern)
      [] [] g hg hS
    simp only [if_true]
    exact Prod.ext e.1.symm e.2.symm

theorem fuzzy_scan_facts (srt : List (Nat × Nat) → List (Nat × Nat))
    (text pattern : List Nat) (k : Nat) (mismatch : Bool) (hsrt : ∀ l, (srt l).Perm l)
    (h16 : 16 ≤ (fuzzy_freq srt text pattern).length) :
    (∀ s s1, scan_step text pattern (fuzzy_T1m srt text pattern) k 6 mismatch
        (fuzzy_tables srt text pattern k mismatch) s = ScanStep.next s1 →
      s < s1 ∧ s + 6 < text.length ∧ s1 + 6 ≤ text.length) ∧
    (∀ j s s1, scan_cursor text pattern (fuzzy_T1m srt text pattern) k 6 mismatch
        (fuzzy_tables srt text pattern k mismatch) j s = some s1 →
      s + j ≤ s1 ∧ (1 ≤ j → s1 + 6 ≤ text.length ∧ j + 6 ≤ text.length)) ∧
    (∀ s, s ≤ text.length →
      scan_loop text pattern (fuzzy_T1m srt text pattern) k 6 mismatch
        (fuzzy_tables srt text pattern k mismatch) ((fuzzy_T1m srt text pattern).length + 1) s
          = none →
      ∃ j s1, scan_cursor text pattern (fuzzy_T1m srt text pattern) k 6 mismatch
          (fuzzy_tables srt text pattern k mismatch) j s = some s1 ∧
        scan_step text pattern (fuzzy_T1m srt text pattern) k 6 mismatch
          (fuzzy_tables srt text pattern k mismatch) s1 = ScanStep.undefined) := by
  have hstep : ∀ s s1, scan_step text pattern (fuzzy_T1m srt text pattern) k 6 mismatch
      (fuzzy_tables srt text pattern k mismatch) s = ScanStep.next s1 →
      s < s1 ∧ s1 + 6 ≤ text.length := fun s s1 h =>
    ⟨(fuzzy_scan_step_progress srt text pattern k mismatch hsrt h16 s s1 h).1,
      (fuzzy_scan_step_progress srt text pattern k mismatch hsrt h16 s s1 h).2.2⟩
  refine ⟨fuzzy_scan_step_progress srt text pattern k mismatch hsrt h16, ?_, ?_⟩
  · intro j s s1 h
    have hb := scan_cursor_bounds text pattern (fuzzy_T1m srt text pattern) k 6 mismatch
      (fuzzy_tables srt text pattern k mismatch) text.length hstep j s s1 h
    refine ⟨hb.1, fun hj => ?_⟩
    have := hb.2 hj
    omega
  · intro s hs h
    exact scan_loop_none text pattern (fuzzy_T1m srt text pattern) k 6 mismatch
      (fuzzy_tables srt text pattern k mismatch) text.length hstep _ s
      (by rw [(fuzzy_T1m_spec srt hsrt text pattern h16).1]; omega) (Or.inl hs) h

set_option maxRecDepth 100000 in
/-- C23, the code at the failing input: text and pattern both `abcdefghijklmnop`, `k = 11`,
edit-distance mode, so `m = 16 >= 1` and `freq` has its 16 entries. The start offset
`m - k - q` wraps to `2 ^ 64 - 1`, so the scan does not begin at a position of the 16
symbols of `T1`: the first gram that the loop reads does not lie inside the text, and the
call has no defined result. The rest of the claim holds: for every pattern of length
`m >= 1`, every `k` and either metric, every value in the table `Ds` built by the
preprocessing lies in `1..m`, and so does the entry of every gram of `q` symbols of `S1`;
the pair that the scan reads for a gram of `6` symbols of `S1` is the pair of entries of
these tables; and when the sort permutes its input and `freq` has at least 16 entries, every
iteration that goes on strictly advances the cursor, reads its gram inside the text and
leaves at least `q` symbols after the new cursor, `j >= 1` such iterations need
`j + q <= n`, and a scan started inside the text ends without a result only through an
iteration with no defined outcome. -/
theorem fuzzy_search_scan_outside_text :
    (1 ≤ alphabet16.length ∧
      (fuzzy_freq sort_by_count alphabet16 alphabet16).length = 16 ∧
      size_sub (size_sub alphabet16.length 11) 6 = 2 ^ 64 - 1 ∧
      (fuzzy_T1m sort_by_count alphabet16 alphabet16).length = 16 ∧
      ¬ (size_sub (size_sub alphabet16.length 11) 6 + 6
          ≤ (fuzzy_T1m sort_by_count alphabet16 alphabet16).length) ∧
      fuzzy_search sort_by_count alphabet16 alphabet16 11 false = none) ∧
    (∀ (pattern : List Nat) (k : Nat), 1 ≤ pattern.length →
      (∀ (q : Nat) (S1 : List Nat) (M : List (List Nat × Nat)),
        ∀ p ∈ (preprocess_hamming pattern k q S1 M []).2, 1 ≤ p.2 ∧ p.2 ≤ pattern.length) ∧
      (∀ (q : Nat) (S1 : List Nat) (M : List (List Nat × Nat)),
        ∀ p ∈ (preprocess_levenshtein pattern k q S1 M []).2,
          1 ≤ p.2 ∧ p.2 ≤ pattern.length) ∧
      (∀ (q : Nat) (S1 g : List Nat), g.length = q → (∀ c ∈ g, c ∈ S1) →
        (1 ≤ gram_get g (preprocess_hamming pattern k q S1 [] []).2 ∧
          gram_get g (preprocess_hamming pattern k q S1 [] []).2 ≤ pattern.length) ∧
        (1 ≤ gram_get g (preprocess_levenshtein pattern k q S1 [] []).2 ∧
          gram_get g (preprocess_levenshtein pattern k q S1 [] []).2 ≤ pattern.length))) ∧
    (∀ (srt : List (Nat × Nat) → List (Nat × Nat)) (text pattern : List Nat) (k : Nat)
        (mismatch : Bool) (g : List Nat), g.length = 6 →
      (∀ c ∈ g, c ∈ fuzzy_S1 srt text pattern) →
      fuzzy_tables srt text pattern k mismatch g
        = (gram_get g (if mismatch then
              preprocess_hamming pattern k 6 (fuzzy_S1 srt text pattern) [] []
            else preprocess_levenshtein pattern k 6 (fuzzy_S1 srt text pattern) [] []).1,
           gram_get g (if mismatch then
              preprocess_hamming pattern k 6 (fuzzy_S1 srt text pattern) [] []
            else preprocess_levenshtein pattern k 6 (fuzzy_S1 srt text pattern) [] []).2)) ∧
    (∀ (srt : List (Nat × Nat) → List (Nat × Nat)) (text pattern : List Nat) (k : Nat)
        (mismatch : Bool), (∀ l, (srt l).Perm l) →
      16 ≤ (fuzzy_freq srt text pattern).length →
      (∀ s s1, scan_step text pattern (fuzzy_T1m srt text pattern) k 6 mismatch
          (fuzzy_tables srt text pattern k mismatch) s = ScanStep.next s1 →
        s < s1 ∧ s + 6 < text.length ∧ s1 + 6 ≤ text.length) ∧
      (∀ j s s1, scan_cursor text pattern (fuzzy_T1m srt text pattern) k 6 mismatch
          (fuzzy_tables srt text pattern k mismatch) j s = some s1 →
        s + j ≤ s1 ∧ (1 ≤ j → s1 + 6 ≤ text.length ∧ j + 6 ≤ text.length)) ∧
      (∀ s, s ≤ text.length →
        scan_loop text pattern (fuzzy_T1m srt text pattern) k 6 mismatch
          (fuzzy_tables srt text pattern k mismatch)
          ((fuzzy_T1m srt text pattern).length + 1) s = none →
        ∃ j s1, scan_cursor text pattern (fuzzy_T1m srt text pattern) k 6 mismatch
            (fuzzy_tables srt text pattern k mismatch) j s = some s1 ∧
          scan_step text pattern (fuzzy_T1m srt text pattern) k 6 mismatch
            (fuzzy_tables srt text pattern k mismatch) s1 = ScanStep.undefined)) := by
  refine ⟨by decide, ?_, ?_, ?_⟩
  · intro pattern k hm
    exact ⟨(preprocess_Ds_bounds pattern k hm).1, (preprocess_Ds_bounds pattern k hm).2,
      fun q S1 g hg hS => preprocess_Ds_gram_bounds pattern k q S1 g hm hg hS⟩
  · intro srt text pattern k mismatch g hg hS
    exact fuzzy_tables_eq_preprocess srt text pattern k mismatch g hg hS
  · intro srt text pattern k mismatch hsrt h16
    exact fuzzy_scan_facts srt text pattern k mismatch hsrt h16

/-! ## Q-gram filter: where the mapping sends a symbol that is not retained -/

theorem merge_rest_not_mem (srt : List (Nat × Nat) → List (Nat × Nat)) (c : Nat) :
    ∀ (rest mapping fr : List (Nat × Nat)), c ∉ rest.map Prod.fst →
      map_get c (merge_rest srt rest mapping fr) = map_get c mapping := by
  intro rest
  induction rest with
  | nil => intro mapping fr _; rfl
  | cons p rest ih =>
    intro mapping fr hc
    rw [List.map_cons, List.mem_cons, not_or] at hc
    rw [merge_rest, ih _ _ hc.2, map_get_assign, if_neg hc.1]

theorem merge_rest_target (srt : List (Nat × Nat) → List (Nat × Nat)) :
    ∀ (rest mapping fr : List (Nat × Nat)), (rest.map Prod.fst).Nodup →
      ∀ i, i < rest.length →
        map_get (rest.getD i (0, 0)).1 (merge_rest srt rest mapping fr)
          = ((merge_reduced srt (rest.take i) fr).getLastD (0, 0)).1 := by
  intro rest
  induction rest with
  | nil => intro mapping fr _ i hi; exact absurd hi (Nat.not_lt_zero _)
  | cons p rest ih =>
    intro mapping fr hn i hi
    rw [List.map_cons, List.nodup_cons] at hn
    cases i with
    | zero =>
      rw [merge_rest]
      simp only [List.getD_cons_zero, List.take_zero, merge_reduced]
      rw [merge_rest_not_mem srt p.1 rest _ _ hn.1, map_get_assign, if_pos rfl]
    | succ i0 =>
      rw [merge_rest, List.getD_cons_succ, List.take_succ_cons, merge_reduced]
      exact ih _ _ hn.2 i0 (by rw [List.length_cons] at hi; omega)

theorem merge_reduced_keys (srt : List (Nat × Nat) → List (Nat × Nat))
    (hsrt : ∀ l, (srt l).Perm l) (S : List Nat) :
    ∀ (merged fr : List (Nat × Nat)), fr ≠ [] → (∀ x, x ∈ fr.map Prod.fst ↔ x ∈ S) →
      merge_reduced srt merged fr ≠ [] ∧
      ∀ x, x ∈ (merge_reduced srt merged fr).map Prod.fst ↔ x ∈ S := by
  intro merged
  induction merged with
  | nil => intro fr hne hk; exact ⟨hne, hk⟩
  | cons p rest ih =>
    intro fr hne hkeys
    rw [merge_reduced]
    obtain ⟨init, b, rfl⟩ : ∃ init b, fr = init ++ [b] := by
      rcases List.eq_nil_or_concat fr with h | ⟨L, b, h⟩
      · exact absurd h hne
      · exact ⟨L, b, by rw [h, List.concat_eq_append]⟩
    have hback : (init ++ [b]).getLastD (0, 0) = b := by simp
    have hdrop : (init ++ [b]).dropLast = init := by simp
    simp only [hback, hdrop]
    have hperm := hsrt (init ++ [(b.1, b.2 + p.2)])
    apply ih
    · intro h
      have := hperm.length_eq
      rw [h] at this
      simp at this
    · intro x
      rw [(hperm.map Prod.fst).mem_iff, ← hkeys x]
      simp

theorem getLastD_fst_mem (fr : List (Nat × Nat)) (hne : fr ≠ []) :
    (fr.getLastD (0, 0)).1 ∈ fr.map Prod.fst := by
  rcases List.eq_nil_or_concat fr with h | ⟨L, b, h⟩
  · exact absurd h hne
  · rw [h, List.concat_eq_append]
    simp

theorem fuzzy_mapping_target (srt : List (Nat × Nat) → List (Nat × Nat))
    (hsrt : ∀ l, (srt l).Perm l) (text pattern : List Nat)
    (h16 : 16 ≤ (fuzzy_freq srt text pattern).length) (i : Nat) (hi : 16 ≤ i)
    (hlt : i < (fuzzy_freq srt text pattern).length) :
    ((fuzzy_freq srt text pattern).getD i (0, 0)).1 ∈ fuzzy_T1 text pattern ∧
    ((fuzzy_freq srt text pattern).getD i (0, 0)).1 ∉ fuzzy_S1 srt text pattern ∧
    map_get ((fuzzy_freq srt text pattern).getD i (0, 0)).1 (fuzzy_mapping srt text pattern)
      = ((merge_reduced srt (((fuzzy_freq srt text pattern).drop 16).take (i - 16))
          ((fuzzy_freq srt text pattern).take 16)).getLastD (0, 0)).1 ∧
    ((merge_reduced srt (((fuzzy_freq srt text pattern).drop 16).take (i - 16))
        ((fuzzy_freq srt text pattern).take 16)).getLastD (0, 0)).1
      ∈ fuzzy_S1 srt text pattern := by
  have hk := fuzzy_freq_keys srt hsrt text pattern
  have hsplit : (fuzzy_freq srt text pattern).map Prod.fst
      = ((fuzzy_freq srt text pattern).take 16).map Prod.fst
        ++ ((fuzzy_freq srt text pattern).drop 16).map Prod.fst := by
    rw [← List.map_append, List.take_append_drop]
  have hn := hk.1
  rw [hsplit] at hn
  have hnd := List.nodup_append.mp hn
  have hget : ((fuzzy_freq srt text pattern).drop 16).getD (i - 16) (0, 0)
      = (fuzzy_freq srt text pattern).getD i (0, 0) := by
    rw [List.getD_eq_getElem?_getD, List.getD_eq_getElem?_getD, List.getElem?_drop]
    have : 16 + (i - 16) = i := by omega
    rw [this]
  have hlen : i - 16 < ((fuzzy_freq srt text pattern).drop 16).length := by
    rw [List.length_drop]; omega
  have hmemd : ((fuzzy_freq srt text pattern).getD i (0, 0)).1
      ∈ ((fuzzy_freq srt text pattern).drop 16).map Prod.fst := by
    rw [← hget, List.getD_eq_getElem?_getD, List.getElem?_eq_getElem hlen]
    exact List.mem_map_of_mem _ (List.getElem_mem _)
  have hne : (fuzzy_freq srt text pattern).take 16 ≠ [] := by
    intro h
    have := congrArg List.length h
    rw [List.length_take, List.length_nil] at this
    omega
  refine ⟨?_, ?_, ?_, ?_⟩
  · apply (hk.2 _).mp
    rw [hsplit, List.mem_append]
    exact Or.inr hmemd
  · intro hS
    exact hnd.2.2 hS hmemd
  · have h := merge_rest_target srt ((fuzzy_freq srt text pattern).drop 16)
      (((fuzzy_freq srt text pattern).take 16).foldl (fun mp p => map_assign p.1 p.1 mp) [])
      ((fuzzy_freq srt text pattern).take 16) hnd.2.1 (i - 16) hlen
    rw [hget] at h
    exact h
  · obtain ⟨m1, m2⟩ := merge_reduced_keys srt hsrt (fuzzy_S1 srt text pattern)
      (((fuzzy_freq srt text pattern).drop 16).take (i - 16))
      ((fuzzy_freq srt text pattern).take 16) hne (fun x => Iff.rfl)
    exact (m2 _).mp (getLastD_fst_mem _ m1)

theorem fuzzy_T1_cases (srt : List (Nat × Nat) → List (Nat × Nat))
    (hsrt : ∀ l, (srt l).Perm l) (text pattern : List Nat) (c : Nat)
    (hc : c ∈ fuzzy_T1 text pattern) :
    c ∈ fuzzy_S1 srt text pattern ∨
      ∃ i, 16 ≤ i ∧ i < (fuzzy_freq srt text pattern).length ∧
        c = ((fuzzy_freq srt text pattern).getD i (0, 0)).1 := by
  have hk := fuzzy_freq_keys srt hsrt text pattern
  have hc' := (hk.2 c).mpr hc
  rw [← List.take_append_drop 16 (fuzzy_freq srt text pattern), List.map_append,
    List.mem_append] at hc'
  rcases hc' with h | h
  · exact Or.inl h
  · right
    rw [List.mem_map] at h
    obtain ⟨p, hp, rfl⟩ := h
    obtain ⟨j, hj, hpj⟩ := List.getElem_of_mem hp
    rw [List.length_drop] at hj
    refine ⟨16 + j, by omega, by omega, ?_⟩
    rw [List.getD_eq_getElem?_getD, List.getElem?_eq_getElem (by omega)]
    rw [List.getElem_drop] at hpj
    rw [← hpj]
    rfl

/-! ## Q-gram filter: the order of pairwise different counts is determined -/

theorem sorted_desc_unique (l1 l2 : List (Nat × Nat)) (hp : l1.Perm l2)
    (h1 : l1.Sorted (fun a b => b.2 ≤ a.2)) (h2 : l2.Sorted (fun a b => b.2 ≤ a.2))
    (hn : (l2.map Prod.snd).Nodup) : l1 = l2 := by
  haveI : IsAntisymm (Nat × Nat) (fun a b => b.2 < a.2) :=
    ⟨fun a b h1 h2 => absurd h1 (Nat.lt_asymm h2)⟩
  have hn1 : (l1.map Prod.snd).Nodup := ((hp.map Prod.snd).nodup_iff).mpr hn
  have strict : ∀ l : List (Nat × Nat), l.Sorted (fun a b => b.2 ≤ a.2) →
      (l.map Prod.snd).Nodup → l.Sorted (fun a b => b.2 < a.2) := by
    intro l hs hnd
    have hne : l.Pairwise (fun a b => a.2 ≠ b.2) := by
      rw [List.Nodup, List.pairwise_map] at hnd
      exact hnd
    exact (List.Pairwise.and hs hne).imp
      (fun h => Nat.lt_of_le_of_ne h.1 (Ne.symm h.2))
  exact List.eq_of_perm_of_sorted hp (strict l1 h1 hn1) (strict l2 h2 hn)

theorem sort_by_count_sorted (l : List (Nat × Nat)) :
    (sort_by_count l).Sorted (fun a b => b.2 ≤ a.2) := by
  haveI : IsTotal (Nat × Nat) (fun a b => b.2 ≤ a.2) := ⟨fun a b => Nat.le_total b.2 a.2⟩
  haveI : IsTrans (Nat × Nat) (fun a b => b.2 ≤ a.2) :=
    ⟨fun a b c h1 h2 => Nat.le_trans h2 h1⟩
  exact List.sorted_insertionSort (fun a b : Nat × Nat => b.2 ≤ a.2) l

theorem sort_unique (srt : List (Nat × Nat) → List (Nat × Nat))
    (hperm : ∀ l, (srt l).Perm l) (hsort : ∀ l, (srt l).Sorted (fun a b => b.2 ≤ a.2))
    (l : List (Nat × Nat)) (hn : (l.map Prod.snd).Nodup) : srt l = sort_by_count l := by
  apply sorted_desc_unique _ _ ((hperm l).trans (sort_by_count_perm l).symm) (hsort l)
    (sort_by_count_sorted l)
  exact (((sort_by_count_perm l).map Prod.snd).nodup_iff).mpr hn

theorem merge_reduced_snoc (srt : List (Nat × Nat) → List (Nat × Nat)) :
    ∀ (merged : List (Nat × Nat)) (p : Nat × Nat) (fr : List (Nat × Nat)),
      merge_reduced srt (merged ++ [p]) fr
        = srt ((merge_reduced srt merged fr).dropLast ++
            [(((merge_reduced srt merged fr).getLastD (0, 0)).1,
              ((merge_reduced srt merged fr).getLastD (0, 0)).2 + p.2)]) := by
  intro merged
  induction merged with
  | nil => intro p fr; rfl
  | cons a rest ih =>
    intro p fr
    rw [List.cons_append, merge_reduced, ih, merge_reduced]

set_option maxRecDepth 100000 in
theorem skewed_freq_eq (srt : List (Nat × Nat) → List (Nat × Nat))
    (hperm : ∀ l, (srt l).Perm l) (hsort : ∀ l, (srt l).Sorted (fun a b => b.2 ≤ a.2)) :
    fuzzy_freq srt skewed_text (alphabet18 ++ [122])
      = fuzzy_freq sort_by_count skewed_text (alphabet18 ++ [122]) := by
  unfold fuzzy_freq
  exact sort_unique srt hperm hsort _ (by decide)

set_option maxRecDepth 100000 in
theorem skewed_freq_value :
    fuzzy_freq sort_by_count skewed_text (alphabet18 ++ [122])
      = [(97, 21), (98, 20), (99, 19), (100, 18), (101, 17), (102, 16), (103, 15), (104, 14),
          (105, 13), (106, 12), (107, 11), (108, 10), (109, 9), (110, 8), (111, 5), (112, 4),
          (113, 3), (114, 1)] := by
  decide

set_option maxRecDepth 100000 in
theorem skewed_mapping_eq (srt : List (Nat × Nat) → List (Nat × Nat))
    (hperm : ∀ l, (srt l).Perm l) (hsort : ∀ l, (srt l).Sorted (fun a b => b.2 ≤ a.2)) :
    fuzzy_mapping srt skewed_text (alphabet18 ++ [122])
      = fuzzy_mapping sort_by_count skewed_text (alphabet18 ++ [122]) := by
  have key : ∀ s : List (Nat × Nat) → List (Nat × Nat),
      (∀ l, (s l).Perm l) → (∀ l, (s l).Sorted (fun a b => b.2 ≤ a.2)) →
      fuzzy_mapping s skewed_text (alphabet18 ++ [122])
        = map_assign 114 111 (map_assign 113 112
            (([(97, 21), (98, 20), (99, 19), (100, 18), (101, 17), (102, 16), (103, 15),
                (104, 14), (105, 13), (106, 12), (107, 11), (108, 10), (109, 9), (110, 8),
                (111, 5), (112, 4)] : List (Nat × Nat)).foldl
              (fun mp p => map_assign p.1 p.1 mp) [])) := by
    intro s hp hs
    have hF : fuzzy_freq s skewed_text (alphabet18 ++ [122])
        = [(97, 21), (98, 20), (99, 19), (100, 18), (101, 17), (102, 16), (103, 15),
            (104, 14), (105, 13), (106, 12), (107, 11), (108, 10), (109, 9), (110, 8),
            (111, 5), (112, 4), (113, 3), (114, 1)] := by
      rw [skewed_freq_eq s hp hs, skewed_freq_value]
    have hX : s [(97, 21), (98, 20), (99, 19), (100, 18), (101, 17), (102, 16), (103, 15),
            (104, 14), (105, 13), (106, 12), (107, 11), (108, 10), (109, 9), (110, 8),
            (111, 5), (112, 4 + 3)]
        = [(97, 21), (98, 20), (99, 19), (100, 18), (101, 17), (102, 16), (103, 15),
            (104, 14), (105, 13), (106, 12), (107, 11), (108, 10), (109, 9), (110, 8),
            (112, 7), (111, 5)] := by
      rw [sort_unique s hp hs _ (by decide)]
      decide
    unfold fuzzy_mapping
    rw [hF]
    simp only [List.drop_succ_cons, List.drop_zero, List.take_succ_cons, List.take_zero,
      merge_rest, List.getLastD_cons, List.getLastD_nil, List.dropLast_cons₂,
      List.dropLast_single, List.cons_append, List.nil_append, hX]
  rw [key srt hperm hsort, key sort_by_count sort_by_count_perm sort_by_count_sorted]

/-! ## Q-gram filter: the mapping into the reduced alphabet -/

set_option maxRecDepth 100000 in
/-- C22, the claim as stated fails: the text `skewed_text` over `abcdefghijklmnopqr`, in
which the symbols have the pairwise different counts `21, 20, ..., 8`, `5` (`o`), `4` (`p`),
`3` (`q`) and `1` (`r`), and the pattern `abcdefghijklmnopqrz`. The symbols `q` and `r` are
not among the 16 retained ones, and they are mapped to two different canonical symbols, `p`
and `o`: after `q` has been merged into `p`, whose count becomes `7`, the reduced frequency
list is sorted again and its last entry is `o` with count `5`. The pattern symbol `z` does
not occur in the text, so it has no entry in `mapping`; `mapping[z]` is the default `0`,
which is not in `S1`. No two counts are ever equal, so every sort that returns its input
in an order of decreasing counts gives the same `freq`, the same `S1` and the same
`mapping`. -/
theorem fuzzy_mapping_no_single_catch_all :
    (113 ∉ fuzzy_S1 sort_by_count skewed_text (alphabet18 ++ [122]) ∧
      114 ∉ fuzzy_S1 sort_by_count skewed_text (alphabet18 ++ [122]) ∧
      map_get 113 (fuzzy_mapping sort_by_count skewed_text (alphabet18 ++ [122])) = 112 ∧
      map_get 114 (fuzzy_mapping sort_by_count skewed_text (alphabet18 ++ [122])) = 111 ∧
      122 ∈ alphabet18 ++ [122] ∧
      map_get 122 (fuzzy_mapping sort_by_count skewed_text (alphabet18 ++ [122])) = 0 ∧
      0 ∉ fuzzy_S1 sort_by_count skewed_text (alphabet18 ++ [122])) ∧
    (∀ srt : List (Nat × Nat) → List (Nat × Nat), (∀ l, (srt l).Perm l) →
      (∀ l, (srt l).Sorted (fun a b => b.2 ≤ a.2)) →
      fuzzy_freq srt skewed_text (alphabet18 ++ [122])
        = fuzzy_freq sort_by_count skewed_text (alphabet18 ++ [122]) ∧
      fuzzy_S1 srt skewed_text (alphabet18 ++ [122])
        = fuzzy_S1 sort_by_count skewed_text (alphabet18 ++ [122]) ∧
      fuzzy_mapping srt skewed_text (alphabet18 ++ [122])
        = fuzzy_mapping sort_by_count skewed_text (alphabet18 ++ [122])) := by
  refine ⟨by decide, fun srt hperm hsort => ⟨skewed_freq_eq srt hperm hsort, ?_,
    skewed_mapping_eq srt hperm hsort⟩⟩
  unfold fuzzy_S1
  rw [skewed_freq_eq srt hperm hsort]

/-- C22, amended: in `fuzzy_search`, for a sort that permutes its input and a frequency
list `freq` of at least 16 entries, after the mapping has been built: `S1` has 16 distinct
symbols; every symbol of the folded text `T1` (the text in which each symbol absent from the
pattern is replaced by the first such symbol) has one canonical symbol `mapping[c]`, which
belongs to `S1`; every symbol of `S1` is mapped to itself; every symbol of `T1` is in `S1`
or is `freq[i].first` for an index `i >= 16`; for every such index, `freq[i].first` is a
symbol of `T1` outside `S1`, and it is mapped to the symbol of the last entry of
`freq_reduced` at that moment, that is after the entries `16, ..., i - 1` of `freq` have been
merged; `freq_reduced` starts as the first 16 entries of `freq`, and each merge adds the
count of the merged entry to the last entry and sorts the list again; the mapped text has
the length of the text and all its symbols in `S1`. -/
theorem fuzzy_mapping_into_reduced_alphabet (srt : List (Nat × Nat) → List (Nat × Nat))
    (text pattern : List Nat) (hsrt : ∀ l, (srt l).Perm l)
    (h16 : 16 ≤ (fuzzy_freq srt text pattern).length) :
    (fuzzy_S1 srt text pattern).length = 16 ∧ (fuzzy_S1 srt text pattern).Nodup ∧
    (∀ c ∈ fuzzy_T1 text pattern,
      map_get c (fuzzy_mapping srt text pattern) ∈ fuzzy_S1 srt text pattern) ∧
    (∀ c ∈ fuzzy_S1 srt text pattern, map_get c (fuzzy_mapping srt text pattern) = c) ∧
    (∀ c ∈ fuzzy_T1 text pattern, c ∈ fuzzy_S1 srt text pattern ∨
      ∃ i, 16 ≤ i ∧ i < (fuzzy_freq srt text pattern).length ∧
        c = ((fuzzy_freq srt text pattern).getD i (0, 0)).1) ∧
    (∀ i, 16 ≤ i → i < (fuzzy_freq srt text pattern).length →
      ((fuzzy_freq srt text pattern).getD i (0, 0)).1 ∈ fuzzy_T1 text pattern ∧
      ((fuzzy_freq srt text pattern).getD i (0, 0)).1 ∉ fuzzy_S1 srt text pattern ∧
      map_get ((fuzzy_freq srt text pattern).getD i (0, 0)).1 (fuzzy_mapping srt text pattern)
        = ((merge_reduced srt (((fuzzy_freq srt text pattern).drop 16).take (i - 16))
            ((fuzzy_freq srt text pattern).take 16)).getLastD (0, 0)).1) ∧
    (∀ fr : List (Nat × Nat), merge_reduced srt [] fr = fr) ∧
    (∀ (merged : List (Nat × Nat)) (p : Nat × Nat) (fr : List (Nat × Nat)),
      merge_reduced srt (merged ++ [p]) fr
        = srt ((merge_reduced srt merged fr).dropLast ++
            [(((merge_reduced srt merged fr).getLastD (0, 0)).1,
              ((merge_reduced srt merged fr).getLastD (0, 0)).2 + p.2)])) ∧
    (fuzzy_T1m srt text pattern).length = text.length ∧
    (∀ c ∈ fuzzy_T1m srt text pattern, c ∈ fuzzy_S1 srt text pattern) :=
  ⟨(fuzzy_S1_nodup srt hsrt text pattern h16).1, (fuzzy_S1_nodup srt hsrt text pattern h16).2,
    (fuzzy_mapping_spec srt hsrt text pattern h16).1,
    (fuzzy_mapping_spec srt hsrt text pattern h16).2,
    fun c hc => fuzzy_T1_cases srt hsrt text pattern c hc,
    fun i hi hlt =>
      ⟨(fuzzy_mapping_target srt hsrt text pattern h16 i hi hlt).1,
        (fuzzy_mapping_target srt hsrt text pattern h16 i hi hlt).2.1,
        (fuzzy_mapping_target srt hsrt text pattern h16 i hi hlt).2.2.1⟩,
    fun _ => rfl,
    merge_reduced_snoc srt,
    (fuzzy_T1m_spec srt hsrt text pattern h16).1,
    (fuzzy_T1m_spec srt hsrt text pattern h16).2⟩

set_option maxRecDepth 100000 in
/-- Check of C22: the text `skewed_text`, pattern `abcdefghijklmnopqrz`, with the stable
sort. -/
theorem fuzzy_mapping_into_reduced_alphabet_witness :
    (∀ l, (sort_by_count l).Perm l) ∧
    16 ≤ (fuzzy_freq sort_by_count skewed_text (alphabet18 ++ [122])).length ∧
    (fuzzy_S1 sort_by_count skewed_text (alphabet18 ++ [122])).length = 16 ∧
    (fuzzy_S1 sort_by_count skewed_text (alphabet18 ++ [122])).Nodup ∧
    (∀ c ∈ fuzzy_T1 skewed_text (alphabet18 ++ [122]),
      map_get c (fuzzy_mapping sort_by_count skewed_text (alphabet18 ++ [122]))
        ∈ fuzzy_S1 sort_by_count skewed_text (alphabet18 ++ [122])) ∧
    (∀ c ∈ fuzzy_S1 sort_by_count skewed_text (alphabet18 ++ [122]),
      map_get c (fuzzy_mapping sort_by_count skewed_text (alphabet18 ++ [122])) = c) ∧
    (∀ c ∈ fuzzy_T1 skewed_text (alphabet18 ++ [122]),
      c ∈ fuzzy_S1 sort_by_count skewed_text (alphabet18 ++ [122]) ∨
      ∃ i, 16 ≤ i ∧ i < (fuzzy_freq sort_by_count skewed_text (alphabet18 ++ [122])).length ∧
        c = ((fuzzy_freq sort_by_count skewed_text (alphabet18 ++ [122])).getD i (0, 0)).1) ∧
    (∀ i, 16 ≤ i → i < (fuzzy_freq sort_by_count skewed_text (alphabet18 ++ [122])).length →
      ((fuzzy_freq sort_by_count skewed_text (alphabet18 ++ [122])).getD i (0, 0)).1
        ∈ fuzzy_T1 skewed_text (alphabet18 ++ [122]) ∧
      ((fuzzy_freq sort_by_count skewed_text (alphabet18 ++ [122])).getD i (0, 0)).1
        ∉ fuzzy_S1 sort_by_count skewed_text (alphabet18 ++ [122]) ∧
      map_get ((fuzzy_freq sort_by_count skewed_text (alphabet18 ++ [122])).getD i (0, 0)).1
          (fuzzy_mapping sort_by_count skewed_text (alphabet18 ++ [122]))
        = ((merge_reduced sort_by_count
            (((fuzzy_freq sort_by_count skewed_text (alphabet18 ++ [122])).drop 16).take
              (i - 16))
            ((fuzzy_freq sort_by_count skewed_text (alphabet18 ++ [122])).take 16)).getLastD
              (0, 0)).1) ∧
    (∀ fr : List (Nat × Nat), merge_reduced sort_by_count [] fr = fr) ∧
    (∀ (merged : List (Nat × Nat)) (p : Nat × Nat) (fr : List (Nat × Nat)),
      merge_reduced sort_by_count (merged ++ [p]) fr
        = sort_by_count ((merge_reduced sort_by_count merged fr).dropLast ++
            [(((merge_reduced sort_by_count merged fr).getLastD (0, 0)).1,
              ((merge_reduced sort_by_count merged fr).getLastD (0, 0)).2 + p.2)])) ∧
    (fuzzy_T1m sort_by_count skewed_text (alphabet18 ++ [122])).length = skewed_text.length ∧
    (∀ c ∈ fuzzy_T1m sort_by_count skewed_text (alphabet18 ++ [122]),
      c ∈ fuzzy_S1 sort_by_count skewed_text (alphabet18 ++ [122])) :=
  ⟨sort_by_count_perm, by decide,
    fuzzy_mapping_into_reduced_alphabet sort_by_count skewed_text (alphabet18 ++ [122])
      sort_by_count_perm (by decide)⟩

end FuzzySearch
